import Mathlib

/-!
The flat navigable-graph index of flatnav.

A shallow embedding of `flatnav/Index.h` and
`flatnav/distances/InnerProductDistance.h`.

Modelling conventions.

* The arena `_index_memory` is a sequence of `_max_node_count` node records
  laid out as `[data | links | label]`.  The embedding keeps the typed view of
  that layout: a record has its `D` payload bytes, its `M` link cells and its
  label.  The byte image of the arena (what `serialize` dumps) is obtained from
  the typed view by `arenaBytes`.
* Distances are `float` in the source.  The index only compares and negates
  them, so the embedding of the index holds a distance as an integer that
  stands for the `float` in an order-preserving way (`F32.code`: a finite
  `float` is a whole number of units of `2^-149`, the infinities lie beyond
  `FLT_MAX`).  The arithmetic of `InnerProductDistance` is embedded on the type
  `F32` with the rounding of IEEE 754 binary32.  A NaN has no place in the
  order (every comparison with it is false in the source): the embedding of
  the index says nothing about runs in which a distance is a NaN.
* `std::priority_queue<std::pair<float, node_id_t>>` is a max-heap under the
  lexicographic order on pairs.  Only `top`, `pop`, `emplace`, `size` and
  `empty` are used, so the heap is represented by the list of its elements in
  descending order: `top` is the head and `pop` drops the head.
* Node ids are `unsigned int` and the capacity is given to the constructor as
  an `int`, so every id and count fits its machine type and the conversions
  between `size_t`, `int` and `node_id_t` are exact; ids, counts and the `int`
  parameters (`ef_construction`, `ef_search`, `num_results`,
  `num_initializations`, all taken positive by the callers) are naturals.
  Machine arithmetic is explicit (`% 2 ^ 64`) in the size computations of the
  constructor and of `deserialize`, which work on values read from a file.
* Reading a cell outside a list yields a default value: the source never does
  so on the inputs the theorems quantify over (it would be undefined
  behaviour).
* Loops whose termination depends on the graph (`beamSearch`, the cycle walk of
  `relabel`) take a fuel argument and return `none` when it runs out.
* A file is a sequence of bytes and an input stream carries its fail state:
  `deserialize` never tests the stream, so a read past the end leaves (part of)
  its destination as it was and every later read extracts nothing.  The former
  content of each destination is therefore an input of `deserialize`.
-/

namespace flatnav

/-- The stored payload of a node: `_data_size_bytes` bytes. -/
abbrev Data := List Nat

/-- The label type `label_t`: a fixed-width tag. -/
abbrev label_t := Nat

/-- The internal node numbering `node_id_t`. -/
abbrev node_id_t := Nat

/-- The pair `dist_node_t = std::pair<float, node_id_t>`. -/
abbrev dist_node_t := Int × node_id_t

/-- The pair `dist_label_t = std::pair<float, label_t>`. -/
abbrev dist_label_t := Int × label_t

/-- The heap `PriorityQueue`, as the descending list of its elements. -/
abbrev PriorityQueue := List dist_node_t

/-- The set `VisitedSet` (`ExplicitSet`), as the list of inserted ids.
Modelled from the spec: `util/ExplicitSet.h` is not among the sources; the spec
gives it `insert`, `contains` and `clear`. -/
abbrev VisitedSet := List node_id_t

/-- The comparison `operator<` of `std::pair<float, node_id_t>`. -/
def pairLt (a b : dist_node_t) : Bool :=
  decide (a.1 < b.1) || (decide (a.1 = b.1) && decide (a.2 < b.2))

/-- The heap operation `emplace`: the new element is placed before the first
element smaller than it. -/
def emplace : PriorityQueue → dist_node_t → PriorityQueue
  | [], x => [x]
  | y :: ys, x => if pairLt y x then x :: y :: ys else y :: emplace ys x

/-- One node record of the arena: `[data | links | label]`. -/
structure Node where
  data : Data
  links : List node_id_t
  label : label_t
deriving DecidableEq, Repr, Inhabited

/-- The fields of `Index` (the leading underscores of the source are dropped).
The distance object, the visited set and the query scratch buffer are passed to
or created by the operations that use them. -/
structure Index where
  M : Nat
  data_size_bytes : Nat
  node_size_bytes : Nat
  max_node_count : Nat
  cur_num_nodes : Nat
  index_memory : List Node
deriving DecidableEq, Repr

/-- The distance capability consumed by the index.
Modelled from the spec: `DistanceInterface.h` is not among the sources; it
forwards `distance`, `transformData` and `dataSize` to the implementation.
A distance is a `float`; it is held as the integer that stands for it (see
`F32.code`), so that `<`, `>` and unary minus are those of the integers. -/
structure DistanceInterface where
  distance : Data → Data → Int
  transformData : Data → Data
  dataSize : Nat

/-- The record stored in slot `n` of the arena. -/
def getNode (s : Index) (n : node_id_t) : Node :=
  s.index_memory.getD n default

/-- The accessor `getNodeData`. -/
def getNodeData (s : Index) (n : node_id_t) : Data :=
  (getNode s n).data

/-- The accessor `getNodeLinks`. -/
def getNodeLinks (s : Index) (n : node_id_t) : List node_id_t :=
  (getNode s n).links

/-- The accessor `getNodeLabel`. -/
def getNodeLabel (s : Index) (n : node_id_t) : label_t :=
  (getNode s n).label

/-- The read `getNodeLinks(n)[i]`. -/
def linkAt (s : Index) (n : node_id_t) (i : Nat) : node_id_t :=
  (getNodeLinks s n).getD i 0

/-- Overwrite the record of slot `n`. -/
def setNode (s : Index) (n : node_id_t) (r : Node) : Index :=
  { s with index_memory := s.index_memory.set n r }

/-- A write through `getNodeData(n)`. -/
def setNodeData (s : Index) (n : node_id_t) (d : Data) : Index :=
  setNode s n { getNode s n with data := d }

/-- A write through `getNodeLinks(n)` of the whole link array. -/
def setNodeLinks (s : Index) (n : node_id_t) (ls : List node_id_t) : Index :=
  setNode s n { getNode s n with links := ls }

/-- A write through `getNodeLabel(n)`. -/
def setNodeLabel (s : Index) (n : node_id_t) (l : label_t) : Index :=
  setNode s n { getNode s n with label := l }

/-- The write `getNodeLinks(n)[i] = v`. -/
def setLink (s : Index) (n : node_id_t) (i : Nat) (v : node_id_t) : Index :=
  setNodeLinks s n ((getNodeLinks s n).set i v)

/-- The constructor `Index(dist, dataset_size, max_edges_per_node)`.  `L` is
`sizeof(label_t)`; `mem` is the content of the freshly allocated arena, which
the constructor does not initialise. -/
def Index.new (dist : DistanceInterface) (dataset_size max_edges_per_node L : Nat)
    (mem : List Node) : Index :=
  { M := max_edges_per_node
    data_size_bytes := dist.dataSize
    node_size_bytes := (dist.dataSize + 4 * max_edges_per_node + L) % 2 ^ 64
    max_node_count := dataset_size
    cur_num_nodes := 0
    index_memory := mem }

/-- The method `allocateNode`.  `none` is the `false` result, which leaves the
index untouched; otherwise the new id and the new index. -/
def allocateNode (dist : DistanceInterface) (s : Index) (data : Data) (label : label_t) :
    Option (node_id_t × Index) :=
  if s.cur_num_nodes ≥ s.max_node_count then none
  else
    let new_node_id := s.cur_num_nodes
    let s1 := setNodeData s s.cur_num_nodes (dist.transformData data)
    let s2 := setNodeLabel s1 s.cur_num_nodes label
    let s3 := (List.range s.M).foldl (fun st i => setLink st s.cur_num_nodes i s.cur_num_nodes) s2
    some (new_node_id, { s3 with cur_num_nodes := s.cur_num_nodes + 1 })

/-- The method `swapNodes`: the three fields of `b` are stashed, the fields of
`a` are copied to `b`, the stash is copied to `a`. -/
def swapNodes (s : Index) (a b : node_id_t) : Index :=
  let temp_data := getNodeData s b
  let temp_links := getNodeLinks s b
  let temp_label := getNodeLabel s b
  let s := setNodeData s b (getNodeData s a)
  let s := setNodeLinks s b (getNodeLinks s a)
  let s := setNodeLabel s b (getNodeLabel s a)
  let s := setNodeData s a temp_data
  let s := setNodeLinks s a temp_links
  setNodeLabel s a temp_label

/-- The value `std::numeric_limits<float>::max()`, that is `(2^24 - 1) * 2^104`,
as the integer that stands for it: its number of units of `2^-149`. -/
def FLT_MAX : Int := (((2 ^ 24 - 1) * 2 ^ 253 : Nat) : Int)

/-- The `for` loop of `initializeSearch`, from `node` on.  The first argument
bounds the number of iterations; `_cur_num_nodes` iterations always suffice
because the step is at least one. -/
def initializeLoop (dist : DistanceInterface) (s : Index) (query : Data) (step_size : Nat) :
    Nat → node_id_t → Int → node_id_t → node_id_t
  | 0, _, _, entry_node => entry_node
  | k + 1, node, min_dist, entry_node =>
    if node < s.cur_num_nodes then
      let d := dist.distance query (getNodeData s node)
      if d < min_dist then
        initializeLoop dist s query step_size k (node + step_size) d node
      else
        initializeLoop dist s query step_size k (node + step_size) min_dist entry_node
    else entry_node

/-- The method `initializeSearch`: `min_dist` starts at
`std::numeric_limits<float>::max()` and `entry_node` at 0. -/
def initializeSearch (dist : DistanceInterface) (s : Index) (query : Data)
    (num_initializations : Nat) : node_id_t :=
  let step_size := s.cur_num_nodes / num_initializations
  let step_size := if step_size ≤ 0 then 1 else step_size
  initializeLoop dist s query step_size s.cur_num_nodes 0 FLT_MAX 0

/-- The local state of `beamSearch`. -/
structure BeamState where
  visited : VisitedSet
  candidates : PriorityQueue
  neighbors : PriorityQueue
  max_dist : Int
deriving DecidableEq, Repr

/-- The body of the `for` loop of `beamSearch` for the link value `v`. -/
def beamVisit (dist : DistanceInterface) (s : Index) (query : Data) (buffer_size : Nat)
    (st : BeamState) (v : node_id_t) : BeamState :=
  if v ∈ st.visited then st
  else
    let visited := v :: st.visited
    let d := dist.distance query (getNodeData s v)
    if st.neighbors.length < buffer_size || decide (d < st.max_dist) then
      let candidates := emplace st.candidates (-d, v)
      let neighbors := emplace st.neighbors (d, v)
      let neighbors := if neighbors.length > buffer_size then neighbors.tail else neighbors
      let max_dist := match neighbors with
        | [] => st.max_dist
        | top :: _ => top.1
      { visited := visited, candidates := candidates, neighbors := neighbors,
        max_dist := max_dist }
    else { st with visited := visited }

/-- The `for` loop of `beamSearch` over the `M` links of `d_node`. -/
def beamExpand (dist : DistanceInterface) (s : Index) (query : Data) (buffer_size : Nat)
    (d_node : node_id_t) (st : BeamState) : BeamState :=
  (List.range s.M).foldl
    (fun st i => beamVisit dist s query buffer_size st (linkAt s d_node i)) st

/-- The `while` loop of `beamSearch`. -/
def beamLoop (dist : DistanceInterface) (s : Index) (query : Data) (buffer_size : Nat) :
    Nat → BeamState → Option PriorityQueue
  | 0, _ => none
  | fuel + 1, st =>
    match st.candidates with
    | [] => some st.neighbors
    | d_node :: rest =>
      if -d_node.1 > st.max_dist then some st.neighbors
      else
        beamLoop dist s query buffer_size fuel
          (beamExpand dist s query buffer_size d_node.2 { st with candidates := rest })

/-- The method `beamSearch`. -/
def beamSearch (fuel : Nat) (dist : DistanceInterface) (s : Index) (query : Data)
    (entry_node : node_id_t) (buffer_size : Nat) : Option PriorityQueue :=
  let d := dist.distance query (getNodeData s entry_node)
  beamLoop dist s query buffer_size fuel
    { visited := [entry_node], candidates := [(-d, entry_node)],
      neighbors := [(d, entry_node)], max_dist := d }

/-- The inner `for` loop of `selectNeighbors`: `should_keep_candidate`. -/
def shouldKeep (dist : DistanceInterface) (s : Index) (current_pair : dist_node_t) :
    List dist_node_t → Bool
  | [] => true
  | second_pair :: rest =>
    let cur_dist := dist.distance (getNodeData s second_pair.2) (getNodeData s current_pair.2)
    if cur_dist < -current_pair.1 then false
    else shouldKeep dist s current_pair rest

/-- The second `while` loop of `selectNeighbors`, over the negated heap. -/
def selectLoop (dist : DistanceInterface) (s : Index) (M : Nat) :
    PriorityQueue → List dist_node_t → List dist_node_t
  | [], saved_candidates => saved_candidates
  | current_pair :: rest, saved_candidates =>
    if saved_candidates.length ≥ M then saved_candidates
    else if shouldKeep dist s current_pair saved_candidates then
      selectLoop dist s M rest (saved_candidates ++ [current_pair])
    else selectLoop dist s M rest saved_candidates

/-- Move every element of a heap into another one with its distance negated. -/
def negateInto (acc : PriorityQueue) (q : List dist_node_t) : PriorityQueue :=
  q.foldl (fun c p => emplace c (-p.1, p.2)) acc

/-- The method `selectNeighbors`; the result is the new content of the heap. -/
def selectNeighbors (dist : DistanceInterface) (s : Index) (neighbors : PriorityQueue)
    (M : Nat) : PriorityQueue :=
  if neighbors.length < M then neighbors
  else
    let candidates := negateInto [] neighbors
    let saved_candidates := selectLoop dist s M candidates []
    negateInto [] saved_candidates

/-- The self-loop scan of `connectNeighbors`: the first slot `j` of the listed
ones holding `neighbor_node_id` receives `new_node_id`; `none` when there is
none (`is_inserted` stays `false`). -/
def insertBackLink (s : Index) (neighbor_node_id new_node_id : node_id_t) :
    List Nat → Option Index
  | [] => none
  | j :: js =>
    if linkAt s neighbor_node_id j = neighbor_node_id then
      some (setLink s neighbor_node_id j new_node_id)
    else insertBackLink s neighbor_node_id new_node_id js

/-- The candidate heap built for a saturated neighbor. -/
def backCandidates (dist : DistanceInterface) (s : Index)
    (neighbor_node_id new_node_id : node_id_t) : PriorityQueue :=
  let max_dist := dist.distance (getNodeData s new_node_id) (getNodeData s neighbor_node_id)
  (List.range s.M).foldl
    (fun c j =>
      if linkAt s neighbor_node_id j ≠ neighbor_node_id then
        emplace c (dist.distance (getNodeData s neighbor_node_id)
          (getNodeData s (linkAt s neighbor_node_id j)), linkAt s neighbor_node_id j)
      else c)
    (emplace [] (max_dist, new_node_id))

/-- The loop writing the pruned candidates into the links of the neighbor,
from slot `j` on; returns the index and the next slot. -/
def writeCandidates (neighbor_node_id : node_id_t) :
    PriorityQueue → Nat → Index → Index × Nat
  | [], j, s => (s, j)
  | top :: rest, j, s =>
    writeCandidates neighbor_node_id rest (j + 1) (setLink s neighbor_node_id j top.2)

/-- The loop `while (j < _M)` writing self-loops, run for `k` iterations. -/
def fillSelfLoops (neighbor_node_id : node_id_t) : Nat → Nat → Index → Index
  | 0, _, s => s
  | k + 1, j, s =>
    fillSelfLoops neighbor_node_id k (j + 1) (setLink s neighbor_node_id j neighbor_node_id)

/-- The back-connection of `connectNeighbors` for one neighbor. -/
def connectBack (dist : DistanceInterface) (s : Index)
    (neighbor_node_id new_node_id : node_id_t) : Index :=
  match insertBackLink s neighbor_node_id new_node_id (List.range s.M) with
  | some s1 => s1
  | none =>
    let candidates := backCandidates dist s neighbor_node_id new_node_id
    let candidates := selectNeighbors dist s candidates s.M
    let r := writeCandidates neighbor_node_id candidates 0 s
    fillSelfLoops neighbor_node_id (s.M - r.2) r.2 r.1

/-- The `while` loop of `connectNeighbors`; `i` is the link slot of the new
node written next. -/
def connectLoop (dist : DistanceInterface) (new_node_id : node_id_t) :
    PriorityQueue → Nat → Index → Index
  | [], _, s => s
  | top :: rest, i, s =>
    let neighbor_node_id := top.2
    let s1 := setLink s new_node_id i neighbor_node_id
    let s2 := connectBack dist s1 neighbor_node_id new_node_id
    let i1 := if i + 1 ≥ s.M then s.M else i + 1
    connectLoop dist new_node_id rest i1 s2

/-- The method `connectNeighbors`. -/
def connectNeighbors (dist : DistanceInterface) (s : Index) (neighbors : PriorityQueue)
    (new_node_id : node_id_t) : Index :=
  connectLoop dist new_node_id neighbors 0 s

/-- The method `add`.  `none` only when the fuel of `beamSearch` runs out;
otherwise the returned flag and the index after the call. -/
def add (fuel : Nat) (dist : DistanceInterface) (s : Index) (data : Data) (label : label_t)
    (ef_construction num_initializations : Nat) : Option (Bool × Index) :=
  let entry_node := initializeSearch dist s data num_initializations
  match allocateNode dist s data label with
  | none => some (false, s)
  | some (new_node_id, s1) =>
    if new_node_id > 0 then
      match beamSearch fuel dist s1 data entry_node ef_construction with
      | none => none
      | some neighbors =>
        let neighbors := selectNeighbors dist s1 neighbors s1.M
        some (true, connectNeighbors dist s1 neighbors new_node_id)
    else some (false, s1)

/-- The first loop of `search`: pop while the heap has more than `num_results`
elements. -/
def popDownTo (num_results : Nat) : PriorityQueue → PriorityQueue
  | [] => []
  | top :: rest =>
    if (top :: rest).length > num_results then popDownTo num_results rest
    else top :: rest

/-- The call `std::sort` of `search`, comparing the distances only. -/
def sortResults (results : List dist_label_t) : List dist_label_t :=
  results.insertionSort (fun left right => left.1 ≤ right.1)

/-- The method `search`.  `none` only when the fuel of `beamSearch` runs
out. -/
def search (fuel : Nat) (dist : DistanceInterface) (s : Index) (query : Data)
    (num_results ef_search num_initializations : Nat) : Option (List dist_label_t) :=
  let transformed_query := dist.transformData query
  let entry_node := initializeSearch dist s transformed_query num_initializations
  match beamSearch fuel dist s transformed_query entry_node ef_search with
  | none => none
  | some neighbors =>
    let neighbors := popDownTo num_results neighbors
    let results := neighbors.map (fun p => (p.1, getNodeLabel s p.2))
    some (sortResults results)

/-- The read `P[i]` of the permutation vector. -/
def permAt (P : List node_id_t) (i : node_id_t) : node_id_t :=
  P.getD i 0

/-- The first loop of `relabel`: every link of every node is sent through
`P`. -/
def rewireLinks (P : List node_id_t) (s : Index) : Index :=
  (List.range s.cur_num_nodes).foldl
    (fun st n => (List.range s.M).foldl
      (fun st m => setLink st n m (permAt P (linkAt st n m))) st) s

/-- The inner `while` loop of `relabel`: the cycle walk from `dest`. -/
def relocateLoop (P : List node_id_t) (src : node_id_t) :
    Nat → node_id_t → VisitedSet → Index → Option (VisitedSet × Index)
  | 0, _, _, _ => none
  | fuel + 1, dest, visited, s =>
    if dest ∈ visited then some (visited, s)
    else
      let visited := dest :: visited
      let dest := permAt P dest
      relocateLoop P src fuel dest visited (swapNodes s src dest)

/-- The body of the second `for` loop of `relabel` for the node `n`. -/
def relocateNode (fuel : Nat) (P : List node_id_t) (st : VisitedSet × Index) (n : node_id_t) :
    Option (VisitedSet × Index) :=
  if n ∈ st.1 then some st
  else
    let src := n
    let dest := permAt P src
    let s := swapNodes st.2 src dest
    relocateLoop P src fuel dest (src :: st.1) s

/-- The second `for` loop of `relabel` over the listed nodes. -/
def relocateAll (fuel : Nat) (P : List node_id_t) :
    List node_id_t → VisitedSet × Index → Option (VisitedSet × Index)
  | [], st => some st
  | n :: ns, st =>
    match relocateNode fuel P st n with
    | none => none
    | some st1 => relocateAll fuel P ns st1

/-- The method `relabel`.  `none` only when the fuel of a cycle walk runs
out. -/
def relabel (fuel : Nat) (P : List node_id_t) (s : Index) : Option Index :=
  let s1 := rewireLinks P s
  match relocateAll fuel P (List.range s.cur_num_nodes) ([], s1) with
  | none => none
  | some st => some st.2

/-- The little-endian value of a byte sequence. -/
def leValue : List Nat → Nat
  | [] => 0
  | b :: bs => b + 256 * leValue bs

/-- The little-endian bytes of `v` on `k` bytes. -/
def leBytes : Nat → Nat → List Nat
  | 0, _ => []
  | k + 1, v => v % 256 :: leBytes k (v / 256)

/-- A value of the type `float` (IEEE 754 binary32).  Every finite `float` is a
whole number of units of `2^-149` (the least subnormal): `finite k` is the
value `k * 2^-149`.  The two zeros are one value (no comparison tells them
apart and the sign of a zero never reaches a result that is not a zero). -/
inductive F32 where
  | finite (units : Int)
  | inf (negative : Bool)
  | nan
deriving DecidableEq, Repr

/-- The number of binary digits of `n`, found in at most `fuel` halvings. -/
def bitLength : Nat → Nat → Nat
  | 0, _ => 0
  | fuel + 1, n => if n = 0 then 0 else bitLength fuel (n / 2) + 1

/-- Rounding to nearest, ties to even, of the exact value `num / 2^shift` (in
units of `2^-149`) to a whole number of units with at most `p` significant
binary digits: the `t` low digits of `|num|` are dropped, where `t` leaves `p`
digits and is at least `shift`. -/
def roundUnits (p : Nat) (num : Int) (shift : Nat) : Int :=
  let a := num.natAbs
  let t := max shift (bitLength (a + 1) a - p)
  let q := a / 2 ^ t
  let r := a % 2 ^ t
  let q1 := if 2 * r > 2 ^ t ∨ (2 * r = 2 ^ t ∧ q % 2 = 1) then q + 1 else q
  let mag : Int := ((q1 * 2 ^ (t - shift) : Nat) : Int)
  if num < 0 then -mag else mag

/-- The `float` nearest to the exact value `num / 2^shift` units: rounding to 24
significant digits, and overflow to an infinity beyond `FLT_MAX`. -/
def F32.round (num : Int) (shift : Nat) : F32 :=
  let k := roundUnits 24 num shift
  if k > FLT_MAX then F32.inf false
  else if k < -FLT_MAX then F32.inf true
  else F32.finite k

/-- The `float` held by a 32-bit pattern: a sign bit, 8 exponent bits, 23
fraction bits. -/
def F32.ofBits (b : Nat) : F32 :=
  let sign := b / 2 ^ 31 % 2
  let e := b / 2 ^ 23 % 256
  let f := b % 2 ^ 23
  if e = 255 then (if f = 0 then F32.inf (decide (sign = 1)) else F32.nan)
  else
    let mag : Int := ((if e = 0 then f else (2 ^ 23 + f) * 2 ^ (e - 1) : Nat) : Int)
    F32.finite (if sign = 1 then -mag else mag)

/-- The product `x * y` of two `float`s, rounded to `float`. -/
def F32.mul : F32 → F32 → F32
  | F32.nan, _ => F32.nan
  | _, F32.nan => F32.nan
  | F32.finite a, F32.finite b => F32.round (a * b) 149
  | F32.finite a, F32.inf n =>
    if a = 0 then F32.nan else F32.inf (if a < 0 then !n else n)
  | F32.inf n, F32.finite b =>
    if b = 0 then F32.nan else F32.inf (if b < 0 then !n else n)
  | F32.inf n, F32.inf m => F32.inf (n != m)

/-- The sum `x + y` of two `float`s, rounded to `float`. -/
def F32.add : F32 → F32 → F32
  | F32.nan, _ => F32.nan
  | _, F32.nan => F32.nan
  | F32.finite a, F32.finite b => F32.round (a + b) 0
  | F32.finite _, F32.inf n => F32.inf n
  | F32.inf n, F32.finite _ => F32.inf n
  | F32.inf n, F32.inf m => if n = m then F32.inf n else F32.nan

/-- The number of units of `2^-149` in the value `1.0`. -/
def F32.oneUnits : Int := ((2 ^ 149 : Nat) : Int)

/-- The expression `1.0 - result` returned as a `float`: `result` is widened to
`double`, subtracted from the `double` constant `1.0` (rounding to 53
significant digits; the exponent range of `double` holds every value met), and
the difference is converted to `float`. -/
def F32.oneMinus : F32 → F32
  | F32.nan => F32.nan
  | F32.inf n => F32.inf (!n)
  | F32.finite a => F32.round (roundUnits 53 (F32.oneUnits - a) 0) 0

/-- The state of `InnerProductDistance` (`DISTANCE_ID` is the constant 1). -/
structure InnerProductDistance where
  dimension : Nat
  data_size_bytes : Nat
deriving DecidableEq, Repr

/-- The constant `DISTANCE_ID` of `InnerProductDistance`. -/
def DISTANCE_ID : Int := 1

/-- The constructor `InnerProductDistance(dim)`; `sizeof(float)` is 4. -/
def InnerProductDistance.new (dim : Nat) : InnerProductDistance :=
  { dimension := dim, data_size_bytes := (dim * 4) % 2 ^ 64 }

/-- The read `p_x[i]` of a payload seen as an array of `float`: the `float` held
by the four bytes at offset `4 * i` (little-endian). -/
def floatAt (x : Data) (i : Nat) : F32 :=
  F32.ofBits (leValue ((x.drop (4 * i)).take 4))

/-- The loop of `distanceImpl`: the variable `result` after `_dimension`
iterations of `result += p_x[i] * p_y[i]`, every product and every sum being
rounded to `float` (the evaluation of `float` expressions in `float`, one
rounding per operation, without contraction into a fused multiply-add). -/
def distanceLoop (d : InnerProductDistance) (x y : Data) : F32 :=
  (List.range d.dimension).foldl
    (fun result i => F32.add result (F32.mul (floatAt x i) (floatAt y i))) (F32.finite 0)

/-- The method `distanceImpl`: `return 1.0 - result`. -/
def distanceImpl (d : InnerProductDistance) (x y : Data) : F32 :=
  let result := distanceLoop d x y
  F32.oneMinus result

/-- The method `dataSizeImpl`. -/
def dataSizeImpl (d : InnerProductDistance) : Nat :=
  d.data_size_bytes

/-- The method `transformDataImpl`: a `memcpy` of `_data_size_bytes` bytes. -/
def transformDataImpl (d : InnerProductDistance) (src : Data) : Data :=
  src.take d.data_size_bytes

/-- A sample reading of four bytes as a number, used in the worked examples:
the little-endian unsigned value. -/
def sampleReal (b : List Nat) : Int :=
  (leValue b : Int)

/-- The payload made of four-byte cells holding the given values (little-endian). -/
def vec (xs : List Nat) : Data :=
  (xs.map (leBytes 4)).flatten

/-- The shape of the typed arena: `_max_node_count` records, at most that many
in use, each with `_M` link cells. -/
structure Index.WF (s : Index) : Prop where
  length_eq : s.index_memory.length = s.max_node_count
  count_le : s.cur_num_nodes ≤ s.max_node_count
  links_length : ∀ n, n < s.max_node_count → (getNodeLinks s n).length = s.M

/-- Invariant 2 of the data model: every link of a node in use is the id of a
node in use. -/
def LinksInRange (s : Index) : Prop :=
  ∀ n, n < s.cur_num_nodes → ∀ m, m < s.M → linkAt s n m < s.cur_num_nodes

/-- The vector `P` is a bijection on `[0, N)`: it has `N` entries, all below
`N`, and no two positions hold the same value. -/
structure IsPermutation (P : List node_id_t) (N : Nat) : Prop where
  length_eq : P.length = N
  lt : ∀ i, i < N → permAt P i < N
  inj : ∀ i, i < N → ∀ j, j < N → permAt P i = permAt P j → i = j

/-- The state of the cycle walk started at `n`, at the head of the inner loop:
`V = e :: W` is the relocated set, `d = P[e]` the slot examined next, `c` the
content of the arena before the relocation pass. -/
structure CycleInv (P : List node_id_t) (N : Nat) (c : Nat → Node) (n d e : Nat)
    (W : VisitedSet) (s : Index) : Prop where
  n_lt : n < N
  n_mem : n ∈ e :: W
  lt : ∀ x ∈ e :: W, x < N
  nodup : (e :: W).Nodup
  image : permAt P e = d
  fwd : ∀ x ∈ W, permAt P x ∈ e :: W
  bwd : ∀ y ∈ e :: W, y ≠ n → ∃ x ∈ W, permAt P x = y
  no_pre : d ≠ n → ∀ x ∈ e :: W, permAt P x ≠ n
  placed : ∀ x ∈ e :: W, getNode s (permAt P x) = c x
  hole : d ≠ n → getNode s n = c d
  rest : ∀ y, y ∉ e :: W → y ≠ d → getNode s y = c y
  len : N ≤ s.index_memory.length

/-- The state between two cycle walks. -/
structure RelocInv (P : List node_id_t) (N : Nat) (c : Nat → Node)
    (V : VisitedSet) (s : Index) : Prop where
  lt : ∀ x ∈ V, x < N
  nodup : V.Nodup
  fwd : ∀ x ∈ V, permAt P x ∈ V
  bwd : ∀ y ∈ V, ∃ x ∈ V, permAt P x = y
  placed : ∀ x ∈ V, getNode s (permAt P x) = c x
  rest : ∀ y, y ∉ V → getNode s y = c y
  len : N ≤ s.index_memory.length

/-- The header fields and the arena length agree. -/
structure SameHeader (s s' : Index) : Prop where
  M : s'.M = s.M
  dsize : s'.data_size_bytes = s.data_size_bytes
  nsize : s'.node_size_bytes = s.node_size_bytes
  max : s'.max_node_count = s.max_node_count
  cur : s'.cur_num_nodes = s.cur_num_nodes
  length : s'.index_memory.length = s.index_memory.length

/-- The index `s'` differs from `s` in link values only. -/
structure LinkFrame (s s' : Index) : Prop where
  header : SameHeader s s'
  data : ∀ k, getNodeData s' k = getNodeData s k
  label : ∀ k, getNodeLabel s' k = getNodeLabel s k
  links_length : ∀ k, (getNodeLinks s' k).length = (getNodeLinks s k).length

/-- A four-node index with `M = 2` (capacity 5), used in the worked examples. -/
def sampleIndex4 : Index :=
  { M := 2, data_size_bytes := 1, node_size_bytes := 13, max_node_count := 5, cur_num_nodes := 4
    index_memory :=
      [ { data := [10], links := [1, 2], label := 100 },
        { data := [11], links := [0, 1], label := 101 },
        { data := [12], links := [3, 0], label := 102 },
        { data := [13], links := [2, 3], label := 103 },
        { data := [0], links := [7, 9], label := 0 } ] }

/-- A distance function for the worked examples: on payloads of two four-byte
cells read as unsigned integers (`sampleReal`) it returns one minus their inner
product, computed exactly. -/
def sampleDistance (x y : Data) : Int :=
  let result := (List.range 2).foldl
    (fun result i =>
      result + sampleReal ((x.drop (4 * i)).take 4) * sampleReal ((y.drop (4 * i)).take 4)) 0
  1 - result

/-- The distance capability of the worked examples: `sampleDistance` on payloads
of 8 bytes. -/
def sampleDist : DistanceInterface :=
  { distance := sampleDistance
    transformData := transformDataImpl (InnerProductDistance.new 2)
    dataSize := dataSizeImpl (InnerProductDistance.new 2) }

/-- An arena of `n` records with `M` link cells each and arbitrary content. -/
def blankArena (n M : Nat) : List Node :=
  List.replicate n { data := List.replicate 8 0, links := List.replicate M 0, label := 0 }

/-- A fresh index of capacity 4 with `M = 2` (scenario 1 of the spec). -/
def sampleEmpty : Index :=
  Index.new sampleDist 4 2 4 (blankArena 4 2)

/-- A full index: the four-node example with capacity 4. -/
def sampleFull : Index :=
  { sampleIndex4 with max_node_count := 4, index_memory := sampleIndex4.index_memory.take 4 }

/-- The invariant of the loops of `beamSearch` on an index with `N` nodes in
use: candidates and visited ids are below `N`, no id is visited twice, and the
result heap holds visited ids, each at most once. -/
structure BeamInv (N : Nat) (st : BeamState) : Prop where
  cand_lt : ∀ p ∈ st.candidates, p.2 < N
  vis_lt : ∀ v ∈ st.visited, v < N
  vis_nodup : st.visited.Nodup
  nbr_vis : ∀ p ∈ st.neighbors, p.2 ∈ st.visited
  nbr_nodup : (st.neighbors.map Prod.snd).Nodup

/-- The termination measure of the `while` loop of `beamSearch`. -/
def beamMeasure (N : Nat) (st : BeamState) : Nat :=
  st.candidates.length + (N - st.visited.length)

/-- The nodes below `N` only link to nodes below `N`. -/
def LinksBelow (s : Index) (N : Nat) : Prop :=
  ∀ n, n < N → ∀ m, m < s.M → linkAt s n m < N

/-- A fresh index of capacity 4 with `M = 1`. -/
def chain0 : Index :=
  Index.new sampleDist 4 1 4 (blankArena 4 1)

/-- The index `chain0` after `add([1,0], label 7)`. -/
def chain1 : Index :=
  { chain0 with
    cur_num_nodes := 1
    index_memory :=
      [ { data := vec [1, 0], links := [0], label := 7 } ] ++ blankArena 3 1 }

/-- The index `chain1` after `add([0,1], label 8)`. -/
def chain2 : Index :=
  { chain0 with
    cur_num_nodes := 2
    index_memory :=
      [ { data := vec [1, 0], links := [1], label := 7 },
        { data := vec [0, 1], links := [0], label := 8 } ] ++ blankArena 2 1 }

/-- The index `chain2` after `add([2,0], label 9)`: node 1 is no longer the
target of any link. -/
def chain3 : Index :=
  { chain0 with
    cur_num_nodes := 3
    index_memory :=
      [ { data := vec [1, 0], links := [2], label := 7 },
        { data := vec [0, 1], links := [0], label := 8 },
        { data := vec [2, 0], links := [0], label := 9 } ] ++ blankArena 1 1 }

/-- The index `s'` is `s` with some links rewritten: only nodes satisfying
`touched` change, and every changed link holds a value satisfying `ok`. -/
structure Wiring (touched ok : Nat → Prop) (s s' : Index) : Prop where
  frame : LinkFrame s s'
  other : ∀ k : Nat, ¬ touched k → getNode s' k = getNode s k
  values : ∀ k j : Nat, linkAt s' k j = linkAt s k j ∨ ok (linkAt s' k j)

/-- The indexes built from an empty one (`M ≥ 1`, an arena of `capacity`
records with `M` link cells each) by calls of `add` (`ef_construction ≥ 1`,
`num_initializations ≥ 1`) and of `relabel` with a bijection on the nodes in
use. -/
inductive Built (dist : DistanceInterface) : Index → Prop
  | new (dataset_size M L : Nat) (mem : List Node) (hM : 1 ≤ M)
      (hlen : mem.length = dataset_size) (hmem : ∀ r ∈ mem, r.links.length = M) :
      Built dist (Index.new dist dataset_size M L mem)
  | add (s : Index) (fuel : Nat) (data : Data) (label : label_t)
      (ef_construction num_initializations : Nat) (b : Bool) (s' : Index)
      (hs : Built dist s) (hef : 1 ≤ ef_construction) (hinit : 1 ≤ num_initializations)
      (h : flatnav.add fuel dist s data label ef_construction num_initializations
        = some (b, s')) :
      Built dist s'
  | relabel (s : Index) (fuel : Nat) (P : List node_id_t) (s' : Index)
      (hs : Built dist s) (hP : IsPermutation P s.cur_num_nodes)
      (h : flatnav.relabel fuel P s = some s') :
      Built dist s'

/-- The index `chain3` after `relabel([2, 0, 1])`. -/
def chain3r : Index :=
  { chain0 with
    cur_num_nodes := 3
    index_memory :=
      [ { data := vec [0, 1], links := [2], label := 8 },
        { data := vec [2, 0], links := [2], label := 9 },
        { data := vec [1, 0], links := [1], label := 7 } ] ++ blankArena 1 1 }

/-- The index `sampleEmpty` after `add([1,0], label 7)` (scenario 1 of the
spec). -/
def pair1 : Index :=
  { sampleEmpty with
    cur_num_nodes := 1
    index_memory :=
      [ { data := vec [1, 0], links := [0, 0], label := 7 } ] ++ blankArena 3 2 }

/-- The index `pair1` after `add([0,1], label 3)` (scenario 2 of the spec). -/
def pair2 : Index :=
  { sampleEmpty with
    cur_num_nodes := 2
    index_memory :=
      [ { data := vec [1, 0], links := [1, 0], label := 7 },
        { data := vec [0, 1], links := [0, 1], label := 3 } ] ++ blankArena 2 2 }

/-- The outcomes of `deserialize` other than a normal return: the three
`std::invalid_argument` exceptions. -/
inductive LoadError where
  | distanceIdMismatch
  | dataSizeMismatch
  | nodeSizeMismatch
deriving DecidableEq, Repr

/-- The outcome of a load: the loaded value, or the exception thrown. -/
inductive LoadResult (α : Type) where
  | ok (a : α)
  | error (e : LoadError)
deriving DecidableEq, Repr

/-- An input stream: the bytes not yet extracted, and its `failbit`.  The source
never tests the state of the stream. -/
structure IStream where
  bytes : List Nat
  fail : Bool
deriving DecidableEq, Repr

/-- The bytes written for a `size_t`: 8 bytes, little-endian. -/
def writeU64 (v : Nat) : List Nat :=
  leBytes 8 v

/-- The bytes written for an `int`: 4 bytes, little-endian two's complement. -/
def writeI32 (v : Int) : List Nat :=
  leBytes 4 (v % 2 ^ 32).toNat

/-- The call `stream.read(p, k)` on a destination that holds the bytes `dest`:
the content of the destination after the call, and the stream.  A stream in the
fail state extracts nothing; a stream with fewer than `k` bytes left hands over
what it has, leaves the rest of the destination as it was and enters the fail
state. -/
def streamRead (k : Nat) (dest : List Nat) (stream : IStream) : List Nat × IStream :=
  if stream.fail then (dest, stream)
  else if k ≤ stream.bytes.length then
    (stream.bytes.take k, { bytes := stream.bytes.drop k, fail := false })
  else (stream.bytes ++ dest.drop stream.bytes.length, { bytes := [], fail := true })

/-- Read a `size_t` into a variable holding `old`. -/
def readU64 (old : Nat) (stream : IStream) : Nat × IStream :=
  let r := streamRead 8 (leBytes 8 old) stream
  (leValue r.1, r.2)

/-- Read an `int` into a variable holding `old`. -/
def readI32 (old : Int) (stream : IStream) : Int × IStream :=
  let r := streamRead 4 (leBytes 4 (old % 2 ^ 32).toNat) stream
  let v := leValue r.1
  (if v < 2 ^ 31 then (v : Int) else (v : Int) - ((2 ^ 32 : Nat) : Int), r.2)

/-- The method `serializeImpl` of `InnerProductDistance`. -/
def serializeImpl (d : InnerProductDistance) : List Nat :=
  writeI32 DISTANCE_ID ++ writeU64 d.dimension

/-- The method `deserializeImpl` of `InnerProductDistance`; `junk` is the
content of the uninitialised local `DISTANCE_ID_check` before the read. -/
def deserializeImpl (d : InnerProductDistance) (junk : Int) (stream : IStream) :
    LoadResult (InnerProductDistance × IStream) :=
  let r0 := readI32 junk stream
  let DISTANCE_ID_check := r0.1
  if DISTANCE_ID_check ≠ DISTANCE_ID then LoadResult.error LoadError.distanceIdMismatch
  else
    let r1 := readU64 d.dimension r0.2
    LoadResult.ok ({ dimension := r1.1, data_size_bytes := (r1.1 * 4) % 2 ^ 64 }, r1.2)

/-- The bytes of one node record: `[data | links | label]`, ids on 4 bytes and
the label on `L` bytes. -/
def nodeBytes (L : Nat) (r : Node) : List Nat :=
  r.data ++ (r.links.map (leBytes 4)).flatten ++ leBytes L r.label

/-- The byte image of the arena. -/
def arenaBytes (L : Nat) (s : Index) : List Nat :=
  (s.index_memory.map (nodeBytes L)).flatten

/-- The typed view of the node record that starts at the head of `b`, through
the address arithmetic of `getNodeData`, `getNodeLinks` and `getNodeLabel`. -/
def nodeOfBytes (D M L : Nat) (b : List Nat) : Node :=
  { data := b.take D
    links := (List.range M).map (fun i => leValue ((b.drop (D + 4 * i)).take 4))
    label := leValue ((b.drop (D + 4 * M)).take L) }

/-- The typed view of an arena of `count` records with stride `S`. -/
def arenaOfBytes (D M L S count : Nat) (bytes : List Nat) : List Node :=
  (List.range count).map (fun n => nodeOfBytes D M L (bytes.drop (n * S)))

/-- The method `serialize`; `L` is `sizeof(label_t)`. -/
def serialize (L : Nat) (d : InnerProductDistance) (s : Index) : List Nat :=
  let index_memory_size := (s.node_size_bytes * s.max_node_count) % 2 ^ 64
  serializeImpl d ++ writeU64 s.data_size_bytes ++ writeU64 s.node_size_bytes
    ++ writeU64 s.max_node_count ++ writeU64 s.cur_num_nodes ++ writeU64 s.M
    ++ (arenaBytes L s).take index_memory_size

/-- The method `deserialize` of the index `s` with the distance `d`; `L` is
`sizeof(label_t)`, `junk` the content of the uninitialised local of
`deserializeImpl`, and `mem` the content of the freshly allocated arena.  Each
field is read into the member that holds its former value; the stream is never
tested, so a short stream leaves members and arena bytes as they were. -/
def deserialize (L : Nat) (d : InnerProductDistance) (s : Index) (junk : Int) (mem : List Nat)
    (stream : IStream) : LoadResult (InnerProductDistance × Index) :=
  match deserializeImpl d junk stream with
  | LoadResult.error e => LoadResult.error e
  | LoadResult.ok (d1, r0) =>
    let r1 := readU64 s.data_size_bytes r0
    let r2 := readU64 s.node_size_bytes r1.2
    let r3 := readU64 s.max_node_count r2.2
    let r4 := readU64 s.cur_num_nodes r3.2
    let r5 := readU64 s.M r4.2
    let data_size_bytes := r1.1
    let node_size_bytes := r2.1
    let max_node_count := r3.1
    let cur_num_nodes := r4.1
    let M := r5.1
    if data_size_bytes ≠ dataSizeImpl d1 then LoadResult.error LoadError.dataSizeMismatch
    else
      let node_size_bytes_check := (data_size_bytes + 4 * M + L) % 2 ^ 64
      if node_size_bytes ≠ node_size_bytes_check then LoadResult.error LoadError.nodeSizeMismatch
      else
        let index_memory_size := (node_size_bytes * max_node_count) % 2 ^ 64
        let r6 := streamRead index_memory_size mem r5.2
        LoadResult.ok (d1,
          { M := M
            data_size_bytes := data_size_bytes
            node_size_bytes := node_size_bytes
            max_node_count := max_node_count
            cur_num_nodes := cur_num_nodes
            index_memory := arenaOfBytes data_size_bytes M L node_size_bytes max_node_count
              r6.1 })

/-- A two-node index over two `float`s, for the serialization examples
(`L = 1`, stride `8 + 4 * 2 + 1 = 17`). -/
def tinyIndex : Index :=
  { M := 2, data_size_bytes := 8, node_size_bytes := 17, max_node_count := 2, cur_num_nodes := 2
    index_memory :=
      [ { data := vec [1, 0], links := [1, 0], label := 7 },
        { data := vec [0, 1], links := [0, 1], label := 3 } ] }

/-- The index and its distance are as a constructor and the operations leave
them: the sizes are the ones the constructors compute (without wrap-around),
every count fits a `size_t`, and the typed arena is the view of a byte arena
(`_max_node_count` records of `D` payload bytes, `M` ids of 32 bits and a label
of `L` bytes). -/
structure Storable (L : Nat) (d : InnerProductDistance) (s : Index) : Prop where
  dimension_lt : d.dimension < 2 ^ 64
  dist_size : d.data_size_bytes = (d.dimension * 4) % 2 ^ 64
  data_size : s.data_size_bytes = d.data_size_bytes
  node_size : s.node_size_bytes = s.data_size_bytes + 4 * s.M + L
  node_size_lt : s.node_size_bytes < 2 ^ 64
  max_lt : s.max_node_count < 2 ^ 64
  cur_lt : s.cur_num_nodes < 2 ^ 64
  arena_lt : s.node_size_bytes * s.max_node_count < 2 ^ 64
  length_eq : s.index_memory.length = s.max_node_count
  data_length : ∀ r ∈ s.index_memory, r.data.length = s.data_size_bytes
  links_length : ∀ r ∈ s.index_memory, r.links.length = s.M
  links_lt : ∀ r ∈ s.index_memory, ∀ l ∈ r.links, l < 2 ^ 32
  label_lt : ∀ r ∈ s.index_memory, r.label < 256 ^ L

/-- The header of a stream with the distance id of the inner product. -/
def headerBytes (dim D S cap cur M : Nat) : List Nat :=
  writeI32 DISTANCE_ID ++ writeU64 dim ++ writeU64 D ++ writeU64 S ++ writeU64 cap
    ++ writeU64 cur ++ writeU64 M

/-- Node `n` is reached from `e` by following link slots. -/
inductive Reachable (s : Index) (e : node_id_t) : node_id_t → Prop
  | entry : Reachable s e e
  | link (n : node_id_t) (m : Nat) (hn : Reachable s e n) (hm : m < s.M) :
      Reachable s e (linkAt s n m)

/-- All the links of `v` have been visited. -/
def Expanded (s : Index) (st : BeamState) (v : Nat) : Prop :=
  ∀ m, m < s.M → linkAt s v m ∈ st.visited

/-- What the loops of `beamSearch` keep besides `BeamInv`: the result heap is
in descending order and `max_dist` bounds it; visited nodes are reachable from
the entry node; and, as long as the result heap is not full, every visited node
is in it, every candidate is in it, and every visited node is being expanded
(`busy`), waits in the candidate heap, or has all its links visited. -/
structure BeamTrack (s : Index) (e B : Nat) (busy : Nat → Prop) (st : BeamState) : Prop where
  size_pos : 1 ≤ st.neighbors.length
  size_le : st.neighbors.length ≤ B
  sorted : st.neighbors.Pairwise (fun a b => pairLt a b = false)
  max_ok : ∀ p ∈ st.neighbors, p.1 ≤ st.max_dist
  vis_reach : ∀ v ∈ st.visited, Reachable s e v
  entry_vis : e ∈ st.visited
  cand_vis : ∀ c ∈ st.candidates, c.2 ∈ st.visited
  all_kept : st.neighbors.length < B → ∀ v ∈ st.visited, ∃ d, (d, v) ∈ st.neighbors
  pending : st.neighbors.length < B → ∀ v ∈ st.visited,
    busy v ∨ (∃ d, (d, v) ∈ st.candidates) ∨ Expanded s st v
  cand_kept : st.neighbors.length < B → ∀ c ∈ st.candidates, (-c.1, c.2) ∈ st.neighbors

/-- The `while` loop of beam search as the spec words it (section 4.3, step
2a): the search terminates when `W` has reached size `B` and the closest
candidate is farther than `worst`; everything else is as in `beamLoop`. -/
def beamLoopSpec (dist : DistanceInterface) (s : Index) (query : Data) (buffer_size : Nat) :
    Nat → BeamState → Option PriorityQueue
  | 0, _ => none
  | fuel + 1, st =>
    match st.candidates with
    | [] => some st.neighbors
    | d_node :: rest =>
      if buffer_size ≤ st.neighbors.length ∧ -d_node.1 > st.max_dist then some st.neighbors
      else
        beamLoopSpec dist s query buffer_size fuel
          (beamExpand dist s query buffer_size d_node.2 { st with candidates := rest })

/-- Beam search as the spec words it: `beamSearch` with the loop
`beamLoopSpec`. -/
def beamSearchSpec (fuel : Nat) (dist : DistanceInterface) (s : Index) (query : Data)
    (entry_node : node_id_t) (buffer_size : Nat) : Option PriorityQueue :=
  let d := dist.distance query (getNodeData s entry_node)
  beamLoopSpec dist s query buffer_size fuel
    { visited := [entry_node], candidates := [(-d, entry_node)],
      neighbors := [(d, entry_node)], max_dist := d }

/-- The states in which `beamSearch` evaluates the test of its `while` loop:
the initial state, and the state after each iteration that did not `break`. -/
inductive BeamHead (dist : DistanceInterface) (s : Index) (query : Data)
    (entry_node : node_id_t) (buffer_size : Nat) : BeamState → Prop
  | init : BeamHead dist s query entry_node buffer_size
      { visited := [entry_node],
        candidates := [(-(dist.distance query (getNodeData s entry_node)), entry_node)],
        neighbors := [(dist.distance query (getNodeData s entry_node), entry_node)],
        max_dist := dist.distance query (getNodeData s entry_node) }
  | step (st : BeamState) (d_node : dist_node_t) (rest : PriorityQueue)
      (h : BeamHead dist s query entry_node buffer_size st)
      (hc : st.candidates = d_node :: rest) (hgo : ¬ (-d_node.1 > st.max_dist)) :
      BeamHead dist s query entry_node buffer_size
        (beamExpand dist s query buffer_size d_node.2 { st with candidates := rest })

/-- The order in which the scan of the selection heuristic examines candidates:
ascending distance to the center; among equal distances the larger id first
(the order in which the negated heap pops them). -/
def closerFirst (a b : dist_node_t) : Bool :=
  decide (a.1 < b.1) || (decide (a.1 = b.1) && decide (b.2 ≤ a.2))

/-- The candidates in the order of examination. -/
def examinationOrder (candidates : List dist_node_t) : List dist_node_t :=
  candidates.insertionSort (fun a b => closerFirst a b = true)

/-- The acceptance test of the spec (section 4.4, step 3): `c` is accepted iff
`dist(c', c) ≥ d_u(c)` for every previously accepted `c'`. -/
def specAccept (dist : DistanceInterface) (s : Index) (K : List dist_node_t)
    (c : dist_node_t) : Bool :=
  K.all (fun k => decide (dist.distance (getNodeData s k.2) (getNodeData s c.2) ≥ c.1))

/-- The greedy scan of the spec (section 4.4, steps 3 and 4) over the candidates
in examination order, `K` being the accepted list: stop when `|K| = M` or the
candidates run out. -/
def greedyScan (dist : DistanceInterface) (s : Index) (M : Nat) :
    List dist_node_t → List dist_node_t → List dist_node_t
  | [], K => K
  | c :: C, K =>
    if K.length = M then K
    else if specAccept dist s K c then greedyScan dist s M C (K ++ [c])
    else greedyScan dist s M C K

/-- The selection heuristic as the spec words it (section 4.4), without the
short-circuit: scan the candidates in ascending distance and re-form a max-heap
from the accepted ones. -/
def selectNeighborsSpec (dist : DistanceInterface) (s : Index) (neighbors : PriorityQueue)
    (M : Nat) : PriorityQueue :=
  (greedyScan dist s M (examinationOrder neighbors) []).foldl emplace []

/-- A write `getNodeLinks(node)[slot] = ..`: the node and the slot index. -/
abbrev LinkWrite := node_id_t × Nat

/-- The link writes of the self-loop scan of `connectNeighbors`
(`insertBackLink`): the one assignment `neighbor_node_links[j] = new_node_id`,
at the first self-loop slot. -/
def insertBackLinkWrites (s : Index) (neighbor_node_id : node_id_t) :
    List Nat → List LinkWrite
  | [] => []
  | j :: js =>
    if linkAt s neighbor_node_id j = neighbor_node_id then [(neighbor_node_id, j)]
    else insertBackLinkWrites s neighbor_node_id js

/-- The link writes of `writeCandidates`: one assignment
`neighbor_node_links[j] = candidates.top().second` per heap entry, `j` counting
up. -/
def writeCandidatesWrites (neighbor_node_id : node_id_t) :
    PriorityQueue → Nat → List LinkWrite
  | [], _ => []
  | _ :: rest, j => (neighbor_node_id, j) :: writeCandidatesWrites neighbor_node_id rest (j + 1)

/-- The link writes of `fillSelfLoops`: one assignment
`neighbor_node_links[j] = neighbor_node_id` per iteration. -/
def fillSelfLoopsWrites (neighbor_node_id : node_id_t) : Nat → Nat → List LinkWrite
  | 0, _ => []
  | k + 1, j => (neighbor_node_id, j) :: fillSelfLoopsWrites neighbor_node_id k (j + 1)

/-- The link writes of the back-connection of one neighbor (`connectBack`). -/
def connectBackWrites (dist : DistanceInterface) (s : Index)
    (neighbor_node_id new_node_id : node_id_t) : List LinkWrite :=
  match insertBackLink s neighbor_node_id new_node_id (List.range s.M) with
  | some _ => insertBackLinkWrites s neighbor_node_id (List.range s.M)
  | none =>
    let candidates := backCandidates dist s neighbor_node_id new_node_id
    let candidates := selectNeighbors dist s candidates s.M
    let r := writeCandidates neighbor_node_id candidates 0 s
    writeCandidatesWrites neighbor_node_id candidates 0
      ++ fillSelfLoopsWrites neighbor_node_id (s.M - r.2) r.2

/-- The link writes of the `while` loop of `connectNeighbors` (`connectLoop`), in
program order: per heap entry the forward write `new_node_links[i] = ..` and
then the writes of the back-connection. -/
def connectLoopWrites (dist : DistanceInterface) (new_node_id : node_id_t) :
    PriorityQueue → Nat → Index → List LinkWrite
  | [], _, _ => []
  | top :: rest, i, s =>
    let neighbor_node_id := top.2
    let s1 := setLink s new_node_id i neighbor_node_id
    let s2 := connectBack dist s1 neighbor_node_id new_node_id
    let i1 := if i + 1 ≥ s.M then s.M else i + 1
    (new_node_id, i) :: (connectBackWrites dist s1 neighbor_node_id new_node_id
      ++ connectLoopWrites dist new_node_id rest i1 s2)

/-- The heap that `add` hands to `connectNeighbors`; `some []` when the call
returns before (`none` only when the fuel of `beamSearch` runs out). -/
def addHeap (fuel : Nat) (dist : DistanceInterface) (s : Index) (data : Data) (label : label_t)
    (ef_construction num_initializations : Nat) : Option PriorityQueue :=
  let entry_node := initializeSearch dist s data num_initializations
  match allocateNode dist s data label with
  | none => some []
  | some (new_node_id, s1) =>
    if new_node_id > 0 then
      match beamSearch fuel dist s1 data entry_node ef_construction with
      | none => none
      | some neighbors => some (selectNeighbors dist s1 neighbors s1.M)
    else some []

/-- The link writes of the call of `connectNeighbors` in `add`, in program
order (`none` only when the fuel of `beamSearch` runs out). -/
def addWrites (fuel : Nat) (dist : DistanceInterface) (s : Index) (data : Data) (label : label_t)
    (ef_construction num_initializations : Nat) : Option (List LinkWrite) :=
  let entry_node := initializeSearch dist s data num_initializations
  match allocateNode dist s data label with
  | none => some []
  | some (new_node_id, s1) =>
    if new_node_id > 0 then
      match beamSearch fuel dist s1 data entry_node ef_construction with
      | none => none
      | some neighbors =>
        let neighbors := selectNeighbors dist s1 neighbors s1.M
        some (connectLoopWrites dist new_node_id neighbors 0 s1)
    else some []

/-- Every entry of the result heap pairs a node with its distance to the
query. -/
def TrueDist (dist : DistanceInterface) (s : Index) (query : Data) (q : PriorityQueue) : Prop :=
  ∀ p ∈ q, p.1 = dist.distance query (getNodeData s p.2)

/-- The index `chain3` after `add([3,0], label 10)`: node 2, whose only link
slot held node 0, now links to the new node 3. -/
def chain4 : Index :=
  { chain0 with
    cur_num_nodes := 4
    index_memory :=
      [ { data := vec [1, 0], links := [2], label := 7 },
        { data := vec [0, 1], links := [0], label := 8 },
        { data := vec [2, 0], links := [3], label := 9 },
        { data := vec [3, 0], links := [2], label := 10 } ] }

/-- Among the first `M` link slots of node `n`, no two hold the same id other
than `n` itself: the non-self-loop links of `n` are pairwise distinct. -/
def DistinctLinks (s : Index) (M : Nat) (n : node_id_t) : Prop :=
  ∀ i, i < M → ∀ j, j < M → i ≠ j → linkAt s n i = linkAt s n j → linkAt s n i = n

/-- The no-duplicate-edge invariant: within every node in use the non-self-loop
links are pairwise distinct. -/
def NoDuplicateLinks (s : Index) : Prop :=
  ∀ n, n < s.cur_num_nodes → DistinctLinks s s.M n

theorem getD_set_eq {α : Type} (l : List α) (i j : Nat) (a d : α) :
    (l.set i a).getD j d = if i = j ∧ i < l.length then a else l.getD j d := by
  simp only [List.getD_eq_getElem?_getD, List.getElem?_set]
  by_cases h : i = j
  · subst h
    by_cases h2 : i < l.length
    · simp [h2]
    · simp [h2, List.getElem?_eq_none (not_lt.mp h2)]
  · simp [h]

@[simp] theorem setNode_M (s : Index) (n : Nat) (r : Node) : (setNode s n r).M = s.M := rfl
@[simp] theorem setNode_cur (s : Index) (n : Nat) (r : Node) :
    (setNode s n r).cur_num_nodes = s.cur_num_nodes := rfl
@[simp] theorem setNode_max (s : Index) (n : Nat) (r : Node) :
    (setNode s n r).max_node_count = s.max_node_count := rfl
@[simp] theorem setNode_dsize (s : Index) (n : Nat) (r : Node) :
    (setNode s n r).data_size_bytes = s.data_size_bytes := rfl
@[simp] theorem setNode_nsize (s : Index) (n : Nat) (r : Node) :
    (setNode s n r).node_size_bytes = s.node_size_bytes := rfl
@[simp] theorem setNode_length (s : Index) (n : Nat) (r : Node) :
    (setNode s n r).index_memory.length = s.index_memory.length := by
  simp [setNode]

theorem getNode_setNode (s : Index) (n k : Nat) (r : Node) :
    getNode (setNode s n r) k
      = if n = k ∧ n < s.index_memory.length then r else getNode s k := by
  unfold getNode setNode
  exact getD_set_eq _ _ _ _ _

theorem getNode_setNode_self (s : Index) (n : Nat) (r : Node)
    (h : n < s.index_memory.length) : getNode (setNode s n r) n = r := by
  simp [getNode_setNode, h]

theorem getNode_setNode_ne (s : Index) (n k : Nat) (r : Node) (h : n ≠ k) :
    getNode (setNode s n r) k = getNode s k := by
  simp [getNode_setNode, h]

/-- Writing back the record a slot already holds changes nothing. -/
theorem setNode_getNode (s : Index) (n : Nat) : setNode s n (getNode s n) = s := by
  cases s with
  | mk M d ns mx c mem =>
    simp only [setNode, getNode, Index.mk.injEq, true_and]
    apply List.ext_getElem?
    intro k
    simp only [List.getElem?_set, List.getD_eq_getElem?_getD]
    by_cases h : n = k
    · subst h
      by_cases h2 : n < mem.length
      · simp [h2]
      · simp [h2, List.getElem?_eq_none (not_lt.mp h2)]
    · simp [h]

theorem setNode_setNode (s : Index) (n : Nat) (r1 r2 : Node) :
    setNode (setNode s n r1) n r2 = setNode s n r2 := by
  simp [setNode]

/-- The method `swapNodes` exchanges the records of the two slots. -/
theorem getNode_swapNodes (s : Index) (a b k : Nat)
    (ha : a < s.index_memory.length) (hb : b < s.index_memory.length) :
    getNode (swapNodes s a b) k
      = if k = a then getNode s b else if k = b then getNode s a else getNode s k := by
  unfold swapNodes
  simp only [setNodeData, setNodeLinks, setNodeLabel, getNodeData, getNodeLinks, getNodeLabel,
    getNode_setNode, setNode_length]
  by_cases hab : a = b
  · subst hab
    by_cases hk : k = a
    · subst hk; simp [ha]
    · have : ¬ a = k := fun h => hk h.symm
      simp [hk, this]
  · have hba : ¬ b = a := fun h => hab h.symm
    by_cases hka : k = a
    · subst hka; simp [ha, hb, hab, hba]
    · have hak : ¬ a = k := fun h => hka h.symm
      by_cases hkb : k = b
      · subst hkb; simp [ha, hb, hab, hba]
      · have hbk : ¬ b = k := fun h => hkb h.symm
        simp [hka, hkb, hak, hbk]

@[simp] theorem swapNodes_M (s : Index) (a b : Nat) : (swapNodes s a b).M = s.M := rfl
@[simp] theorem swapNodes_cur (s : Index) (a b : Nat) :
    (swapNodes s a b).cur_num_nodes = s.cur_num_nodes := rfl
@[simp] theorem swapNodes_max (s : Index) (a b : Nat) :
    (swapNodes s a b).max_node_count = s.max_node_count := rfl
@[simp] theorem swapNodes_dsize (s : Index) (a b : Nat) :
    (swapNodes s a b).data_size_bytes = s.data_size_bytes := rfl
@[simp] theorem swapNodes_nsize (s : Index) (a b : Nat) :
    (swapNodes s a b).node_size_bytes = s.node_size_bytes := rfl
@[simp] theorem swapNodes_length (s : Index) (a b : Nat) :
    (swapNodes s a b).index_memory.length = s.index_memory.length := by
  simp [swapNodes, setNodeData, setNodeLinks, setNodeLabel]

/-! ## The cycle walk of `relabel` -/

theorem nodup_length_le (l : List Nat) (N : Nat) (hnd : l.Nodup) (hlt : ∀ x ∈ l, x < N) :
    l.length ≤ N := by
  have h1 : l.toFinset ⊆ Finset.range N := by
    intro x hx
    simp only [List.mem_toFinset] at hx
    simpa using hlt x hx
  have h2 := Finset.card_le_card h1
  rw [List.toFinset_card_of_nodup hnd] at h2
  simpa using h2

theorem CycleInv.cycle_exit {P : List node_id_t} {N : Nat} {c : Nat → Node} {n d e : Nat}
    {W : VisitedSet} {s : Index} (hP : IsPermutation P N)
    (h : CycleInv P N c n d e W s) (hd : d ∈ e :: W) : RelocInv P N c (e :: W) s := by
  have hdn : d = n := by
    by_contra hne
    obtain ⟨x, hxW, hx⟩ := h.bwd d hd hne
    have hxe : x = e := by
      apply hP.inj x (h.lt x (List.mem_cons_of_mem _ hxW)) e (h.lt e (List.mem_cons_self _ _))
      rw [hx, h.image]
    subst hxe
    exact (List.nodup_cons.mp h.nodup).1 hxW
  refine ⟨h.lt, h.nodup, ?_, ?_, h.placed, ?_, h.len⟩
  · intro x hx
    rcases List.mem_cons.mp hx with hxe | hxW
    · subst hxe; rw [h.image]; exact hd
    · exact h.fwd x hxW
  · intro y hy
    by_cases hyn : y = n
    · exact ⟨e, List.mem_cons_self _ _, by rw [h.image, hdn, hyn]⟩
    · obtain ⟨x, hxW, hx⟩ := h.bwd y hy hyn
      exact ⟨x, List.mem_cons_of_mem _ hxW, hx⟩
  · intro y hy
    apply h.rest y hy
    intro hyd
    apply hy
    rw [hyd]; exact hd

theorem CycleInv.cycle_step {P : List node_id_t} {N : Nat} {c : Nat → Node} {n d e : Nat}
    {W : VisitedSet} {s : Index} (hP : IsPermutation P N)
    (h : CycleInv P N c n d e W s) (hd : d ∉ e :: W) (hdN : d < N) :
    CycleInv P N c n (permAt P d) d (e :: W) (swapNodes s n (permAt P d)) := by
  have hdn : d ≠ n := fun hh => hd (hh ▸ h.n_mem)
  have hnl : n < s.index_memory.length := lt_of_lt_of_le h.n_lt h.len
  have hd'N : permAt P d < N := hP.lt d hdN
  have hd'l : permAt P d < s.index_memory.length := lt_of_lt_of_le hd'N h.len
  have hlt' : ∀ x ∈ d :: e :: W, x < N := by
    intro x hx
    rcases List.mem_cons.mp hx with hxd | hx
    · rw [hxd]; exact hdN
    · exact h.lt x hx
  -- `P[d]` is a fresh slot unless it closes the cycle
  have hfresh : permAt P d ≠ n → permAt P d ∉ d :: e :: W := by
    intro hne hmem
    rcases List.mem_cons.mp hmem with hpd | hmem
    · -- a fixed point `d`, but `d = P[e]` with `e ≠ d`
      have : e = d := by
        apply hP.inj e (h.lt e (List.mem_cons_self _ _)) d hdN
        rw [h.image, hpd]
      exact hd (this ▸ List.mem_cons_self _ _)
    · obtain ⟨x, hxW, hx⟩ := h.bwd _ hmem hne
      have : x = d := hP.inj x (h.lt x (List.mem_cons_of_mem _ hxW)) d hdN hx
      exact hd (this ▸ List.mem_cons_of_mem _ hxW)
  refine ⟨h.n_lt, List.mem_cons_of_mem _ h.n_mem, hlt', List.nodup_cons.mpr ⟨hd, h.nodup⟩, rfl,
    ?_, ?_, ?_, ?_, ?_, ?_, by simpa using h.len⟩
  · intro x hx
    rcases List.mem_cons.mp hx with hxe | hxW
    · subst hxe; rw [h.image]; exact List.mem_cons_self _ _
    · exact List.mem_cons_of_mem _ (h.fwd x hxW)
  · intro y hy hyn
    rcases List.mem_cons.mp hy with hyd | hy
    · exact ⟨e, List.mem_cons_self _ _, by rw [h.image, hyd]⟩
    · obtain ⟨x, hxW, hx⟩ := h.bwd y hy hyn
      exact ⟨x, List.mem_cons_of_mem _ hxW, hx⟩
  · intro hne x hx
    rcases List.mem_cons.mp hx with hxd | hx
    · rw [hxd]; exact hne
    · exact h.no_pre hdn x hx
  · intro x hx
    rw [getNode_swapNodes s n _ _ hnl hd'l]
    rcases List.mem_cons.mp hx with hxd | hx
    · subst hxd
      by_cases hc : permAt P x = n
      · rw [if_pos hc, hc]; exact h.hole hdn
      · rw [if_neg hc, if_pos rfl]; exact h.hole hdn
    · have h1 : permAt P x ≠ n := h.no_pre hdn x hx
      have h2 : permAt P x ≠ permAt P d := by
        intro hh
        have : x = d := hP.inj x (h.lt x hx) d hdN hh
        exact hd (this ▸ hx)
      rw [if_neg h1, if_neg h2]
      exact h.placed x hx
  · intro hne
    rw [getNode_swapNodes s n _ _ hnl hd'l, if_pos rfl]
    have hf := hfresh hne
    apply h.rest
    · intro hmem; exact hf (List.mem_cons_of_mem _ hmem)
    · intro hh; exact hf (by rw [hh]; exact List.mem_cons_self _ _)
  · intro y hy hyd'
    have hyn : y ≠ n := fun hh => hy (hh ▸ List.mem_cons_of_mem _ h.n_mem)
    rw [getNode_swapNodes s n _ _ hnl hd'l, if_neg hyn, if_neg hyd']
    apply h.rest
    · intro hmem; exact hy (List.mem_cons_of_mem _ hmem)
    · intro hh; exact hy (hh ▸ List.mem_cons_self _ _)

/-- The cycle walk terminates within `N` steps and closes the cycle. -/
theorem relocateLoop_spec {P : List node_id_t} {N : Nat} {c : Nat → Node} (hP : IsPermutation P N)
    (n : Nat) (fuel : Nat) :
    ∀ (d e : Nat) (W : VisitedSet) (s : Index), CycleInv P N c n d e W s →
      N < fuel + (e :: W).length →
      ∃ V' s', relocateLoop P n fuel d (e :: W) s = some (V', s') ∧ RelocInv P N c V' s'
        ∧ (∀ x ∈ e :: W, x ∈ V') ∧ s'.index_memory.length = s.index_memory.length := by
  induction fuel with
  | zero =>
    intro d e W s h hf
    have := nodup_length_le _ N h.nodup h.lt
    omega
  | succ fuel ih =>
    intro d e W s h hf
    unfold relocateLoop
    by_cases hd : d ∈ e :: W
    · rw [if_pos hd]
      exact ⟨_, _, rfl, h.cycle_exit hP hd, fun x hx => hx, rfl⟩
    · rw [if_neg hd]
      have hdN : d < N := by rw [← h.image]; exact hP.lt e (h.lt e (List.mem_cons_self _ _))
      have hstep := h.cycle_step hP hd hdN
      obtain ⟨V', s', h1, h2, h3, h4⟩ := ih (permAt P d) d (e :: W) _ hstep
        (by simp only [List.length_cons] at hf ⊢; omega)
      refine ⟨V', s', h1, h2, fun x hx => h3 x (List.mem_cons_of_mem _ hx), ?_⟩
      rw [h4]; simp

theorem SameHeader.header_refl (s : Index) : SameHeader s s := ⟨rfl, rfl, rfl, rfl, rfl, rfl⟩

theorem SameHeader.header_trans {a b c : Index} (h1 : SameHeader a b) (h2 : SameHeader b c) :
    SameHeader a c :=
  ⟨h2.M.trans h1.M, h2.dsize.trans h1.dsize, h2.nsize.trans h1.nsize, h2.max.trans h1.max,
    h2.cur.trans h1.cur, h2.length.trans h1.length⟩

theorem sameHeader_setNode (s : Index) (n : Nat) (r : Node) : SameHeader s (setNode s n r) :=
  ⟨rfl, rfl, rfl, rfl, rfl, setNode_length s n r⟩

theorem sameHeader_swapNodes (s : Index) (a b : Nat) : SameHeader s (swapNodes s a b) :=
  ⟨swapNodes_M s a b, swapNodes_dsize s a b, swapNodes_nsize s a b, swapNodes_max s a b,
    swapNodes_cur s a b, swapNodes_length s a b⟩

theorem relocateLoop_header (P : List node_id_t) (src : Nat) (fuel : Nat) :
    ∀ (d : Nat) (V : VisitedSet) (s : Index) (V' : VisitedSet) (s' : Index),
      relocateLoop P src fuel d V s = some (V', s') → SameHeader s s' := by
  induction fuel with
  | zero => intro d V s V' s' h; simp [relocateLoop] at h
  | succ fuel ih =>
    intro d V s V' s' h
    unfold relocateLoop at h
    by_cases hd : d ∈ V
    · rw [if_pos hd] at h
      simp only [Option.some.injEq, Prod.mk.injEq] at h
      rw [← h.2]; exact SameHeader.header_refl s
    · rw [if_neg hd] at h
      exact (sameHeader_swapNodes s src _).header_trans (ih _ _ _ _ _ h)

theorem relocateNode_header (fuel : Nat) (P : List node_id_t) (st st' : VisitedSet × Index)
    (n : Nat) (h : relocateNode fuel P st n = some st') : SameHeader st.2 st'.2 := by
  unfold relocateNode at h
  by_cases hn : n ∈ st.1
  · rw [if_pos hn] at h
    simp only [Option.some.injEq] at h
    rw [← h]; exact SameHeader.header_refl _
  · rw [if_neg hn] at h
    exact (sameHeader_swapNodes st.2 n _).header_trans (relocateLoop_header P n fuel _ _ _ _ _ h)

theorem relocateAll_header (fuel : Nat) (P : List node_id_t) (ns : List Nat) :
    ∀ (st st' : VisitedSet × Index), relocateAll fuel P ns st = some st' →
      SameHeader st.2 st'.2 := by
  induction ns with
  | nil =>
    intro st st' h
    simp only [relocateAll, Option.some.injEq] at h
    rw [← h]; exact SameHeader.header_refl _
  | cons n ns ih =>
    intro st st' h
    unfold relocateAll at h
    cases hr : relocateNode fuel P st n with
    | none => rw [hr] at h; simp at h
    | some st1 =>
      rw [hr] at h
      exact (relocateNode_header fuel P st st1 n hr).header_trans (ih st1 st' h)

/-- The state after the first swap of a cycle walk. -/
theorem cycleInv_start {P : List node_id_t} {N : Nat} {c : Nat → Node} (hP : IsPermutation P N)
    (V : VisitedSet) (s : Index) (n : Nat) (hn : n < N) (hnV : n ∉ V)
    (h : RelocInv P N c V s) :
    CycleInv P N c n (permAt P n) n V (swapNodes s n (permAt P n)) := by
  have hnl : n < s.index_memory.length := lt_of_lt_of_le hn h.len
  have hdN : permAt P n < N := hP.lt n hn
  have hdl : permAt P n < s.index_memory.length := lt_of_lt_of_le hdN h.len
  have hdV : permAt P n ∉ V := by
    intro hmem
    obtain ⟨x, hxV, hx⟩ := h.bwd _ hmem
    have : x = n := hP.inj x (h.lt x hxV) n hn hx
    exact hnV (this ▸ hxV)
  have hlt : ∀ x ∈ n :: V, x < N := by
    intro x hx
    rcases List.mem_cons.mp hx with hxn | hx
    · rw [hxn]; exact hn
    · exact h.lt x hx
  refine ⟨hn, List.mem_cons_self _ _, hlt, List.nodup_cons.mpr ⟨hnV, h.nodup⟩, rfl,
    ?_, ?_, ?_, ?_, ?_, ?_, by simpa using h.len⟩
  · intro x hx; exact List.mem_cons_of_mem _ (h.fwd x hx)
  · intro y hy hyn
    rcases List.mem_cons.mp hy with hyn' | hy
    · exact absurd hyn' hyn
    · exact h.bwd y hy
  · intro hne x hx
    rcases List.mem_cons.mp hx with hxn | hx
    · rw [hxn]; exact hne
    · intro hh; exact hnV (hh ▸ h.fwd x hx)
  · intro x hx
    rw [getNode_swapNodes s n _ _ hnl hdl]
    rcases List.mem_cons.mp hx with hxn | hx
    · subst hxn
      by_cases hc : permAt P x = x
      · rw [if_pos hc, hc]; exact h.rest x hnV
      · rw [if_neg hc, if_pos rfl]; exact h.rest x hnV
    · have h1 : permAt P x ≠ n := fun hh => hnV (hh ▸ h.fwd x hx)
      have h2 : permAt P x ≠ permAt P n := by
        intro hh
        have : x = n := hP.inj x (h.lt x hx) n hn hh
        exact hnV (this ▸ hx)
      rw [if_neg h1, if_neg h2]
      exact h.placed x hx
  · intro _
    rw [getNode_swapNodes s n _ _ hnl hdl, if_pos rfl]
    exact h.rest _ hdV
  · intro y hy hyd
    have hyn : y ≠ n := fun hh => hy (hh ▸ List.mem_cons_self _ _)
    rw [getNode_swapNodes s n _ _ hnl hdl, if_neg hyn, if_neg hyd]
    exact h.rest y (fun hmem => hy (List.mem_cons_of_mem _ hmem))

/-- One iteration of the outer relocation loop: the cycle of `n` is placed. -/
theorem relocateNode_spec {P : List node_id_t} {N : Nat} {c : Nat → Node} (hP : IsPermutation P N)
    (fuel : Nat) (hfuel : N ≤ fuel) (V : VisitedSet) (s : Index) (n : Nat) (hn : n < N)
    (h : RelocInv P N c V s) :
    ∃ V' s', relocateNode fuel P (V, s) n = some (V', s') ∧ RelocInv P N c V' s' ∧ n ∈ V'
      ∧ (∀ x ∈ V, x ∈ V') := by
  unfold relocateNode
  by_cases hnV : n ∈ V
  · simp only [hnV, if_true]
    exact ⟨V, s, rfl, h, hnV, fun x hx => hx⟩
  · simp only [hnV, if_false]
    obtain ⟨V', s', h1, h2, h3, _⟩ := relocateLoop_spec hP n fuel _ n V _
      (cycleInv_start hP V s n hn hnV h) (by simp only [List.length_cons]; omega)
    exact ⟨V', s', h1, h2, h3 n (List.mem_cons_self _ _),
      fun x hx => h3 x (List.mem_cons_of_mem _ hx)⟩

/-- The outer relocation loop places the cycle of every listed node. -/
theorem relocateAll_spec {P : List node_id_t} {N : Nat} {c : Nat → Node} (hP : IsPermutation P N)
    (fuel : Nat) (hfuel : N ≤ fuel) (ns : List Nat) :
    ∀ (V : VisitedSet) (s : Index), (∀ n ∈ ns, n < N) → RelocInv P N c V s →
      ∃ V' s', relocateAll fuel P ns (V, s) = some (V', s') ∧ RelocInv P N c V' s'
        ∧ (∀ n ∈ ns, n ∈ V') ∧ (∀ x ∈ V, x ∈ V') := by
  induction ns with
  | nil =>
    intro V s _ h
    exact ⟨V, s, rfl, h, fun n hn => absurd hn (List.not_mem_nil n), fun x hx => hx⟩
  | cons n ns ih =>
    intro V s hns h
    obtain ⟨V1, s1, e1, h1, hn1, hsub1⟩ :=
      relocateNode_spec hP fuel hfuel V s n (hns n (List.mem_cons_self _ _)) h
    obtain ⟨V2, s2, e2, h2, hn2, hsub2⟩ :=
      ih V1 s1 (fun m hm => hns m (List.mem_cons_of_mem _ hm)) h1
    refine ⟨V2, s2, ?_, h2, ?_, fun x hx => hsub2 x (hsub1 x hx)⟩
    · unfold relocateAll
      rw [e1]
      exact e2
    · intro m hm
      rcases List.mem_cons.mp hm with hmn | hm
      · rw [hmn]; exact hsub2 n hn1
      · exact hn2 m hm

/-! ## Link writes -/

theorem LinkFrame.frame_refl (s : Index) : LinkFrame s s :=
  ⟨SameHeader.header_refl s, fun _ => rfl, fun _ => rfl, fun _ => rfl⟩

theorem LinkFrame.frame_trans {a b c : Index} (h1 : LinkFrame a b) (h2 : LinkFrame b c) :
    LinkFrame a c :=
  ⟨h1.header.header_trans h2.header, fun k => (h2.data k).trans (h1.data k),
    fun k => (h2.label k).trans (h1.label k),
    fun k => (h2.links_length k).trans (h1.links_length k)⟩

theorem getNode_setLink (s : Index) (n i v k : Nat) :
    getNode (setLink s n i v) k
      = if n = k ∧ n < s.index_memory.length
        then { getNode s n with links := (getNodeLinks s n).set i v } else getNode s k := by
  unfold setLink setNodeLinks
  rw [getNode_setNode]

theorem linkFrame_setLink (s : Index) (n i v : Nat) : LinkFrame s (setLink s n i v) := by
  refine ⟨sameHeader_setNode s n _, ?_, ?_, ?_⟩
  · intro k
    unfold getNodeData
    rw [getNode_setLink]
    split
    · next h => rw [h.1]
    · rfl
  · intro k
    unfold getNodeLabel
    rw [getNode_setLink]
    split
    · next h => rw [h.1]
    · rfl
  · intro k
    unfold getNodeLinks
    rw [getNode_setLink]
    split
    · next h => simp [getNodeLinks, h.1]
    · rfl

theorem linkAt_setLink (s : Index) (n i v k j : Nat) :
    linkAt (setLink s n i v) k j
      = if n = k ∧ i = j ∧ n < s.index_memory.length ∧ i < (getNodeLinks s n).length
        then v else linkAt s k j := by
  unfold linkAt getNodeLinks
  rw [getNode_setLink]
  by_cases h1 : n = k ∧ n < s.index_memory.length
  · rw [if_pos h1]
    obtain ⟨hk, hl⟩ := h1
    subst hk
    simp only [getD_set_eq, getNodeLinks, hl, true_and]
  · rw [if_neg h1]
    have : ¬ (n = k ∧ i = j ∧ n < s.index_memory.length ∧ i < (getNode s n).links.length) := by
      intro hh; exact h1 ⟨hh.1, hh.2.2.1⟩
    rw [if_neg this]

theorem linkAt_setLink_self (s : Index) (n i v : Nat) (hn : n < s.index_memory.length)
    (hi : i < (getNodeLinks s n).length) : linkAt (setLink s n i v) n i = v := by
  rw [linkAt_setLink]; simp [hn, hi]

theorem linkAt_setLink_ne (s : Index) (n i v k j : Nat) (h : n ≠ k ∨ i ≠ j) :
    linkAt (setLink s n i v) k j = linkAt s k j := by
  rw [linkAt_setLink]
  have : ¬ (n = k ∧ i = j ∧ n < s.index_memory.length ∧ i < (getNodeLinks s n).length) := by
    intro hh
    rcases h with h | h
    · exact h hh.1
    · exact h hh.2.1
  rw [if_neg this]

/-- The inner loop of the link rewrite, for the first `k` slots of node `n`. -/
theorem rewireInner_spec (P : List node_id_t) (n : Nat) (k : Nat) (s : Index) :
    LinkFrame s ((List.range k).foldl
        (fun st m => setLink st n m (permAt P (linkAt st n m))) s)
    ∧ ∀ n' j, linkAt ((List.range k).foldl
        (fun st m => setLink st n m (permAt P (linkAt st n m))) s) n' j
      = if n' = n ∧ j < k ∧ n < s.index_memory.length ∧ j < (getNodeLinks s n).length
        then permAt P (linkAt s n j) else linkAt s n' j := by
  induction k with
  | zero => simp [LinkFrame.frame_refl]
  | succ k ih =>
    rw [List.range_succ, List.foldl_append]
    simp only [List.foldl_cons, List.foldl_nil]
    obtain ⟨hf, hl⟩ := ih
    refine ⟨hf.frame_trans (linkFrame_setLink _ _ _ _), ?_⟩
    intro n' j
    rw [linkAt_setLink, hl, hl, hf.header.length, hf.links_length]
    by_cases hn : n' = n
    · subst hn
      by_cases hj : j = k
      · subst hj
        by_cases h1 : n' < s.index_memory.length ∧ j < (getNodeLinks s n').length
        · simp [h1.1, h1.2]
        · have h2 : ¬ (n' = n' ∧ j = j ∧ n' < s.index_memory.length
              ∧ j < (getNodeLinks s n').length) := fun hh => h1 ⟨hh.2.2.1, hh.2.2.2⟩
          have h3 : ¬ (n' = n' ∧ j < j + 1 ∧ n' < s.index_memory.length
              ∧ j < (getNodeLinks s n').length) := fun hh => h1 ⟨hh.2.2.1, hh.2.2.2⟩
          rw [if_neg h2, if_neg h3]
          simp
      · have h2 : ¬ (n' = n' ∧ k = j ∧ n' < s.index_memory.length
            ∧ k < (getNodeLinks s n').length) := fun hh => hj hh.2.1.symm
        rw [if_neg h2]
        have : (j < k + 1) ↔ (j < k) := by omega
        simp only [this]
    · have h2 : ¬ (n = n' ∧ k = j ∧ n < s.index_memory.length
          ∧ k < (getNodeLinks s n).length) := fun hh => hn hh.1.symm
      rw [if_neg h2]
      simp [hn]

/-- The link rewrite of `relabel`, for the first `k` nodes. -/
theorem rewireOuter_spec (P : List node_id_t) (M : Nat) (k : Nat) (s : Index) :
    LinkFrame s ((List.range k).foldl
        (fun st n => (List.range M).foldl
          (fun st m => setLink st n m (permAt P (linkAt st n m))) st) s)
    ∧ ∀ n' j : Nat, linkAt ((List.range k).foldl
        (fun st n => (List.range M).foldl
          (fun st m => setLink st n m (permAt P (linkAt st n m))) st) s) n' j
      = if n' < k ∧ j < M ∧ n' < s.index_memory.length ∧ j < (getNodeLinks s n').length
        then permAt P (linkAt s n' j) else linkAt s n' j := by
  induction k with
  | zero => simp [LinkFrame.frame_refl]
  | succ k ih =>
    rw [List.range_succ, List.foldl_append]
    simp only [List.foldl_cons, List.foldl_nil]
    obtain ⟨hf, hl⟩ := ih
    obtain ⟨hf2, hl2⟩ := rewireInner_spec P k M ((List.range k).foldl
        (fun st n => (List.range M).foldl
          (fun st m => setLink st n m (permAt P (linkAt st n m))) st) s)
    refine ⟨hf.frame_trans hf2, ?_⟩
    intro n' j
    rw [hl2, hl, hl, hf.header.length, hf.links_length]
    by_cases hn : n' = k
    · subst hn
      have h0 : ¬ (n' < n' ∧ j < M ∧ n' < s.index_memory.length
          ∧ j < (getNodeLinks s n').length) := fun hh => absurd hh.1 (lt_irrefl _)
      rw [if_neg h0]
      by_cases h1 : j < M ∧ n' < s.index_memory.length ∧ j < (getNodeLinks s n').length
      · simp [h1.1, h1.2.1, h1.2.2]
      · have h2 : ¬ (n' = n' ∧ j < M ∧ n' < s.index_memory.length
            ∧ j < (getNodeLinks s n').length) := fun hh => h1 hh.2
        have h3 : ¬ (n' < n' + 1 ∧ j < M ∧ n' < s.index_memory.length
            ∧ j < (getNodeLinks s n').length) := fun hh => h1 hh.2
        rw [if_neg h2, if_neg h3]
    · have h2 : ¬ (n' = k ∧ j < M ∧ k < s.index_memory.length
          ∧ j < (getNodeLinks s k).length) := fun hh => hn hh.1
      rw [if_neg h2]
      have : (n' < k + 1) ↔ (n' < k) := by constructor <;> intro <;> omega
      simp only [this]

theorem rewireLinks_frame (P : List node_id_t) (s : Index) : LinkFrame s (rewireLinks P s) :=
  (rewireOuter_spec P s.M s.cur_num_nodes s).1

theorem linkAt_rewireLinks (P : List node_id_t) (s : Index) (hwf : s.WF) (n m : Nat)
    (hn : n < s.cur_num_nodes) (hm : m < s.M) :
    linkAt (rewireLinks P s) n m = permAt P (linkAt s n m) := by
  unfold rewireLinks
  rw [(rewireOuter_spec P s.M s.cur_num_nodes s).2]
  have h1 : n < s.max_node_count := lt_of_lt_of_le hn hwf.count_le
  have h2 : n < s.index_memory.length := by rw [hwf.length_eq]; exact h1
  have h3 : m < (getNodeLinks s n).length := by rw [hwf.links_length n h1]; exact hm
  simp [hn, hm, h2, h3]

/-- The whole of `relabel`: with `N` units of fuel it returns, the header is
kept, the record of slot `x` is moved to slot `P[x]` with its links sent
through `P`, every slot below `N` is such a `P[x]`, and the slots from `N` on
are untouched. -/
theorem relabel_spec (fuel : Nat) (P : List node_id_t) (s : Index) (hwf : s.WF)
    (hP : IsPermutation P s.cur_num_nodes) (hfuel : s.cur_num_nodes ≤ fuel) :
    ∃ s', relabel fuel P s = some s' ∧ SameHeader s s'
      ∧ (∀ x, x < s.cur_num_nodes → getNode s' (permAt P x) = getNode (rewireLinks P s) x)
      ∧ (∀ y, y < s.cur_num_nodes → ∃ x, x < s.cur_num_nodes ∧ permAt P x = y)
      ∧ (∀ y, s.cur_num_nodes ≤ y → getNode s' y = getNode (rewireLinks P s) y) := by
  have hfr := rewireLinks_frame P s
  have hinit : RelocInv P s.cur_num_nodes (getNode (rewireLinks P s)) [] (rewireLinks P s) := by
    refine ⟨?_, List.nodup_nil, ?_, ?_, ?_, fun _ _ => rfl, ?_⟩
    · intro x hx; exact absurd hx (List.not_mem_nil x)
    · intro x hx; exact absurd hx (List.not_mem_nil x)
    · intro x hx; exact absurd hx (List.not_mem_nil x)
    · intro x hx; exact absurd hx (List.not_mem_nil x)
    · rw [hfr.header.length, hwf.length_eq]; exact hwf.count_le
  obtain ⟨V', s', e1, hinv, hall, _⟩ :=
    relocateAll_spec hP fuel hfuel (List.range s.cur_num_nodes) [] (rewireLinks P s)
      (fun n hn => List.mem_range.mp hn) hinit
  refine ⟨s', ?_, ?_, ?_, ?_, ?_⟩
  · unfold relabel
    simp only [e1]
  · exact hfr.header.header_trans (relocateAll_header fuel P _ _ _ e1)
  · intro x hx
    exact hinv.placed x (hall x (List.mem_range.mpr hx))
  · intro y hy
    obtain ⟨x, hxV, hx⟩ := hinv.bwd y (hall y (List.mem_range.mpr hy))
    exact ⟨x, hinv.lt x hxV, hx⟩
  · intro y hy
    apply hinv.rest
    intro hmem
    exact absurd (hinv.lt y hmem) (not_lt.mpr hy)

/-- C1. For an index with `N` nodes whose links lie in `[0, N)` and a bijection
`P` on `[0, N)`, `relabel(P)` returns (with `N` units of fuel for its cycle
walks), and afterwards slot `P[x]` holds the data and the label that slot `x`
held before, and its link slot `m` holds `P[l]` where `l` was link `m` of slot
`x`, for every `x < N` and `m < M`. -/
theorem relabel_correct (fuel : Nat) (P : List node_id_t) (s : Index) (hwf : s.WF)
    (_hlinks : LinksInRange s) (hP : IsPermutation P s.cur_num_nodes)
    (hfuel : s.cur_num_nodes ≤ fuel) :
    ∃ s', relabel fuel P s = some s' ∧
      ∀ x, x < s.cur_num_nodes →
        getNodeData s' (permAt P x) = getNodeData s x
        ∧ getNodeLabel s' (permAt P x) = getNodeLabel s x
        ∧ ∀ m, m < s.M → linkAt s' (permAt P x) m = permAt P (linkAt s x m) := by
  obtain ⟨s', e, _, hplaced, _, _⟩ := relabel_spec fuel P s hwf hP hfuel
  refine ⟨s', e, ?_⟩
  intro x hx
  have hfr := rewireLinks_frame P s
  refine ⟨?_, ?_, ?_⟩
  · unfold getNodeData
    rw [hplaced x hx]
    exact hfr.data x
  · unfold getNodeLabel
    rw [hplaced x hx]
    exact hfr.label x
  · intro m hm
    have : linkAt s' (permAt P x) m = linkAt (rewireLinks P s) x m := by
      unfold linkAt getNodeLinks
      rw [hplaced x hx]
    rw [this]
    exact linkAt_rewireLinks P s hwf x m hx hm

theorem sampleIndex4_wf : sampleIndex4.WF :=
  ⟨by decide, by decide, by decide⟩

theorem sampleIndex4_linksInRange : LinksInRange sampleIndex4 := by
  unfold LinksInRange; decide

theorem samplePerm_isPermutation : IsPermutation [2, 0, 3, 1] 4 :=
  ⟨by decide, by decide, by decide⟩

theorem relabel_correct_witness :
    sampleIndex4.WF ∧ LinksInRange sampleIndex4
      ∧ IsPermutation [2, 0, 3, 1] sampleIndex4.cur_num_nodes
      ∧ ∃ s', relabel 4 [2, 0, 3, 1] sampleIndex4 = some s' ∧
        ∀ x, x < sampleIndex4.cur_num_nodes →
          getNodeData s' (permAt [2, 0, 3, 1] x) = getNodeData sampleIndex4 x
          ∧ getNodeLabel s' (permAt [2, 0, 3, 1] x) = getNodeLabel sampleIndex4 x
          ∧ ∀ m, m < sampleIndex4.M →
            linkAt s' (permAt [2, 0, 3, 1] x) m = permAt [2, 0, 3, 1] (linkAt sampleIndex4 x m) :=
  ⟨sampleIndex4_wf, sampleIndex4_linksInRange, samplePerm_isPermutation,
    relabel_correct 4 [2, 0, 3, 1] sampleIndex4 sampleIndex4_wf sampleIndex4_linksInRange
      samplePerm_isPermutation (by decide)⟩

theorem relabel_sample : relabel 4 [2, 0, 3, 1] sampleIndex4 = some
  { M := 2, data_size_bytes := 1, node_size_bytes := 13, max_node_count := 5, cur_num_nodes := 4
    index_memory :=
      [ { data := [11], links := [2, 0], label := 101 },
        { data := [13], links := [3, 1], label := 103 },
        { data := [10], links := [0, 3], label := 100 },
        { data := [12], links := [1, 2], label := 102 },
        { data := [0], links := [7, 9], label := 0 } ] } := by decide

/-! ## Allocation -/

theorem list_eq_replicate_of_getD (l : List Nat) (n v : Nat) (hlen : l.length = n)
    (h : ∀ j, j < n → l.getD j 0 = v) : l = List.replicate n v := by
  apply List.ext_getElem
  · simp [hlen]
  · intro j h1 h2
    have := h j (by rw [← hlen]; exact h1)
    rw [List.getD_eq_getElem?_getD, List.getElem?_eq_getElem h1] at this
    simpa using this

theorem getNode_setLink_ne (s : Index) (n i v k : Nat) (h : n ≠ k) :
    getNode (setLink s n i v) k = getNode s k := by
  rw [getNode_setLink]
  have : ¬ (n = k ∧ n < s.index_memory.length) := fun hh => h hh.1
  rw [if_neg this]

/-- The loop writing `v` into the first `k` link slots of node `n`. -/
theorem fillLinks_spec (n v : Nat) (k : Nat) (s : Index) :
    LinkFrame s ((List.range k).foldl (fun st i => setLink st n i v) s)
    ∧ (∀ k' : Nat, k' ≠ n →
        getNode ((List.range k).foldl (fun st i => setLink st n i v) s) k' = getNode s k')
    ∧ ∀ j : Nat, linkAt ((List.range k).foldl (fun st i => setLink st n i v) s) n j
      = if j < k ∧ n < s.index_memory.length ∧ j < (getNodeLinks s n).length
        then v else linkAt s n j := by
  induction k with
  | zero => simp [LinkFrame.frame_refl]
  | succ k ih =>
    rw [List.range_succ, List.foldl_append]
    simp only [List.foldl_cons, List.foldl_nil]
    obtain ⟨hf, hne, hl⟩ := ih
    refine ⟨hf.frame_trans (linkFrame_setLink _ _ _ _), ?_, ?_⟩
    · intro k' hk'
      rw [getNode_setLink_ne _ _ _ _ _ (Ne.symm hk'), hne k' hk']
    · intro j
      rw [linkAt_setLink, hl, hf.header.length, hf.links_length]
      by_cases hj : j = k
      · subst hj
        by_cases h1 : n < s.index_memory.length ∧ j < (getNodeLinks s n).length
        · simp [h1.1, h1.2]
        · have h2 : ¬ (n = n ∧ j = j ∧ n < s.index_memory.length
              ∧ j < (getNodeLinks s n).length) := fun hh => h1 hh.2.2
          have h3 : ¬ (j < j + 1 ∧ n < s.index_memory.length
              ∧ j < (getNodeLinks s n).length) := fun hh => h1 hh.2
          have h4 : ¬ (j < j ∧ n < s.index_memory.length
              ∧ j < (getNodeLinks s n).length) := fun hh => h1 hh.2
          rw [if_neg h2, if_neg h3, if_neg h4]
      · have h2 : ¬ (n = n ∧ k = j ∧ n < s.index_memory.length
            ∧ k < (getNodeLinks s n).length) := fun hh => hj hh.2.1.symm
        rw [if_neg h2]
        have : (j < k + 1) ↔ (j < k) := by constructor <;> intro <;> omega
        simp only [this]

/-- The method `allocateNode` below capacity: the new node takes the id
`_cur_num_nodes`, its slot receives the transformed data, the label and `M`
self-loops, the count grows by one and no other slot changes. -/
theorem allocateNode_spec (dist : DistanceInterface) (s : Index) (data : Data) (label : label_t)
    (hwf : s.WF) (hcap : s.cur_num_nodes < s.max_node_count) :
    ∃ s1, allocateNode dist s data label = some (s.cur_num_nodes, s1)
      ∧ s1.M = s.M ∧ s1.data_size_bytes = s.data_size_bytes
      ∧ s1.node_size_bytes = s.node_size_bytes ∧ s1.max_node_count = s.max_node_count
      ∧ s1.cur_num_nodes = s.cur_num_nodes + 1
      ∧ s1.index_memory.length = s.index_memory.length
      ∧ getNode s1 s.cur_num_nodes
          = { data := dist.transformData data, links := List.replicate s.M s.cur_num_nodes,
              label := label }
      ∧ ∀ k : Nat, k ≠ s.cur_num_nodes → getNode s1 k = getNode s k := by
  have hlen : s.cur_num_nodes < s.index_memory.length := by rw [hwf.length_eq]; exact hcap
  obtain ⟨s2, hs2⟩ : ∃ s2, s2 = setNodeLabel
      (setNodeData s s.cur_num_nodes (dist.transformData data)) s.cur_num_nodes label := ⟨_, rfl⟩
  obtain ⟨s3, hs3⟩ : ∃ s3, s3 = (List.range s.M).foldl
      (fun st i => setLink st s.cur_num_nodes i s.cur_num_nodes) s2 := ⟨_, rfl⟩
  obtain ⟨hf, hne, hl⟩ := fillLinks_spec s.cur_num_nodes s.cur_num_nodes s.M s2
  rw [← hs3] at hf hne hl
  have e0 : ∀ k : Nat, getNode s2 k
      = if s.cur_num_nodes = k
        then Node.mk (dist.transformData data) (getNode s k).links label
        else getNode s k := by
    intro k
    rw [hs2]
    by_cases hk : s.cur_num_nodes = k
    · subst hk
      simp [setNodeLabel, setNodeData, getNode_setNode, hlen]
    · simp [setNodeLabel, setNodeData, getNode_setNode, hk]
  have e4 : s2.index_memory.length = s.index_memory.length := by
    rw [hs2]; simp [setNodeLabel, setNodeData]
  have e5 : s2.M = s.M := by rw [hs2]; rfl
  refine ⟨{ s3 with cur_num_nodes := s.cur_num_nodes + 1 }, ?_, ?_, ?_, ?_, ?_, rfl, ?_, ?_, ?_⟩
  · unfold allocateNode
    rw [if_neg (not_le.mpr hcap)]
    simp only [← hs2, ← hs3]
  · exact hf.header.M.trans e5
  · exact hf.header.dsize.trans (by rw [hs2]; rfl)
  · exact hf.header.nsize.trans (by rw [hs2]; rfl)
  · exact hf.header.max.trans (by rw [hs2]; rfl)
  · exact hf.header.length.trans e4
  · have hd := hf.data s.cur_num_nodes
    have hb := hf.label s.cur_num_nodes
    have hll := hf.links_length s.cur_num_nodes
    unfold getNodeData at hd
    unfold getNodeLabel at hb
    unfold getNodeLinks at hll
    rw [e0, if_pos rfl] at hd hb hll
    simp only at hd hb hll
    have hll2 : (getNode s3 s.cur_num_nodes).links.length = s.M := by
      rw [hll]; exact hwf.links_length _ hcap
    have hlinks : (getNode s3 s.cur_num_nodes).links
        = List.replicate s.M s.cur_num_nodes := by
      apply list_eq_replicate_of_getD _ _ _ hll2
      intro j hj
      have := hl j
      unfold linkAt getNodeLinks at this
      rw [this, e4, e0, if_pos rfl]
      have h3 : j < (getNode s s.cur_num_nodes).links.length := by
        have := hwf.links_length _ hcap
        unfold getNodeLinks at this
        rw [this]; exact hj
      simp [hj, hlen, h3]
    show getNode s3 s.cur_num_nodes = _
    generalize getNode s3 s.cur_num_nodes = r at hd hb hlinks
    cases r
    simp only at hd hb hlinks
    rw [hd, hb, hlinks]
  · intro k hk
    show getNode s3 k = _
    rw [hne k hk, e0, if_neg (Ne.symm hk)]

/-! ## The failure paths of `add` -/

/-- C8. When `current_node_count == capacity`, `add` returns `false` and the
index after the call is the index before the call. -/
theorem add_at_capacity (fuel : Nat) (dist : DistanceInterface) (s : Index) (data : Data)
    (label : label_t) (ef_construction num_initializations : Nat)
    (hfull : s.cur_num_nodes = s.max_node_count) :
    add fuel dist s data label ef_construction num_initializations = some (false, s) := by
  unfold add allocateNode
  simp [hfull]

theorem add_at_capacity_witness :
    sampleFull.cur_num_nodes = sampleFull.max_node_count
      ∧ add 10 sampleDist sampleFull (vec [1, 0]) 7 8 100 = some (false, sampleFull) :=
  ⟨by decide, add_at_capacity 10 sampleDist sampleFull (vec [1, 0]) 7 8 100 (by decide)⟩

/-- C7. On an empty index with capacity at least 1, `add` returns `false` and
yet keeps the node: afterwards the count is 1 and node 0 holds the transformed
vector, the given label and `M` links all equal to 0. -/
theorem add_first (fuel : Nat) (dist : DistanceInterface) (s : Index) (data : Data)
    (label : label_t) (ef_construction num_initializations : Nat) (hwf : s.WF)
    (hempty : s.cur_num_nodes = 0) (hcap : 1 ≤ s.max_node_count) :
    ∃ s', add fuel dist s data label ef_construction num_initializations = some (false, s')
      ∧ s'.cur_num_nodes = 1 ∧ s'.M = s.M
      ∧ getNodeData s' 0 = dist.transformData data
      ∧ getNodeLabel s' 0 = label
      ∧ getNodeLinks s' 0 = List.replicate s.M 0 := by
  obtain ⟨s1, e, hM, _, _, _, hcur, _, hnode, _⟩ :=
    allocateNode_spec dist s data label hwf (by omega)
  rw [hempty] at e hcur hnode
  refine ⟨s1, ?_, hcur, hM, ?_, ?_, ?_⟩
  · unfold add
    simp [e]
  · unfold getNodeData; rw [hnode]
  · unfold getNodeLabel; rw [hnode]
  · unfold getNodeLinks; rw [hnode]

theorem sampleEmpty_wf : sampleEmpty.WF :=
  ⟨by decide, by decide, by decide⟩

theorem add_first_witness :
    sampleEmpty.WF ∧ sampleEmpty.cur_num_nodes = 0 ∧ 1 ≤ sampleEmpty.max_node_count
      ∧ ∃ s', add 10 sampleDist sampleEmpty (vec [1, 0]) 7 8 100 = some (false, s')
        ∧ s'.cur_num_nodes = 1 ∧ s'.M = sampleEmpty.M
        ∧ getNodeData s' 0 = sampleDist.transformData (vec [1, 0])
        ∧ getNodeLabel s' 0 = 7
        ∧ getNodeLinks s' 0 = List.replicate sampleEmpty.M 0 :=
  ⟨sampleEmpty_wf, by decide, by decide,
    add_first 10 sampleDist sampleEmpty (vec [1, 0]) 7 8 100 sampleEmpty_wf (by decide)
      (by decide)⟩

/-! ## Heaps -/

theorem emplace_perm (q : PriorityQueue) (x : dist_node_t) : (emplace q x).Perm (x :: q) := by
  induction q with
  | nil => simp [emplace]
  | cons y ys ih =>
    unfold emplace
    split
    · exact List.Perm.refl _
    · exact (List.Perm.cons y ih).trans (List.Perm.swap x y ys)

theorem mem_emplace (q : PriorityQueue) (x p : dist_node_t) :
    p ∈ emplace q x ↔ p = x ∨ p ∈ q := by
  rw [(emplace_perm q x).mem_iff, List.mem_cons]

theorem length_emplace (q : PriorityQueue) (x : dist_node_t) :
    (emplace q x).length = q.length + 1 := by
  rw [(emplace_perm q x).length_eq, List.length_cons]

theorem negateInto_perm (q : List dist_node_t) :
    ∀ acc : PriorityQueue, (negateInto acc q).Perm (q.map (fun p => (-p.1, p.2)) ++ acc) := by
  induction q with
  | nil => intro acc; simp [negateInto]
  | cons y ys ih =>
    intro acc
    have h := ih (emplace acc (-y.1, y.2))
    unfold negateInto at h ⊢
    simp only [List.foldl_cons, List.map_cons, List.cons_append]
    refine h.trans ?_
    refine (List.Perm.append_left _ (emplace_perm acc (-y.1, y.2))).trans ?_
    exact List.perm_middle

/-! ## The entry-point sampler -/

theorem initializeLoop_lt (dist : DistanceInterface) (s : Index) (query : Data) (step : Nat)
    (k : Nat) : ∀ (node : Nat) (md : Int) (entry : Nat), entry < s.cur_num_nodes →
      initializeLoop dist s query step k node md entry < s.cur_num_nodes := by
  induction k with
  | zero => intro node md entry h; simpa [initializeLoop] using h
  | succ k ih =>
    intro node md entry h
    unfold initializeLoop
    by_cases hn : node < s.cur_num_nodes
    · rw [if_pos hn]
      simp only
      split
      · exact ih _ _ _ hn
      · exact ih _ _ _ h
    · rw [if_neg hn]; exact h

/-- On a non-empty index the sampled entry point is a node in use. -/
theorem initializeSearch_lt (dist : DistanceInterface) (s : Index) (query : Data) (k : Nat)
    (hne : 1 ≤ s.cur_num_nodes) : initializeSearch dist s query k < s.cur_num_nodes := by
  unfold initializeSearch
  exact initializeLoop_lt dist s query _ _ 0 FLT_MAX 0 hne

/-! ## Beam search -/

theorem nodup_tail_of_nodup {α : Type} (l : List α) (h : l.Nodup) : l.tail.Nodup :=
  h.sublist (List.tail_sublist l)

theorem beamVisit_inv (dist : DistanceInterface) (s : Index) (query : Data) (B N : Nat)
    (st : BeamState) (v : Nat) (hv : v < N) (h : BeamInv N st) :
    BeamInv N (beamVisit dist s query B st v)
      ∧ beamMeasure N (beamVisit dist s query B st v) ≤ beamMeasure N st := by
  unfold beamVisit
  by_cases hvis : v ∈ st.visited
  · rw [if_pos hvis]; exact ⟨h, le_refl _⟩
  · rw [if_neg hvis]
    have hlen : (v :: st.visited).length ≤ N := by
      apply nodup_length_le
      · exact List.nodup_cons.mpr ⟨hvis, h.vis_nodup⟩
      · intro x hx
        rcases List.mem_cons.mp hx with hxv | hx
        · rw [hxv]; exact hv
        · exact h.vis_lt x hx
    have hvlt : ∀ x ∈ v :: st.visited, x < N := by
      intro x hx
      rcases List.mem_cons.mp hx with hxv | hx
      · rw [hxv]; exact hv
      · exact h.vis_lt x hx
    simp only
    split
    · -- the node enters both heaps
      have hmem : ∀ p ∈ emplace st.neighbors (dist.distance query (getNodeData s v), v),
          p.2 ∈ v :: st.visited := by
        intro p hp
        rcases (mem_emplace _ _ _).mp hp with hp | hp
        · rw [hp]; exact List.mem_cons_self _ _
        · exact List.mem_cons_of_mem _ (h.nbr_vis p hp)
      have hnd : ((emplace st.neighbors
          (dist.distance query (getNodeData s v), v)).map Prod.snd).Nodup := by
        have hp := (emplace_perm st.neighbors (dist.distance query (getNodeData s v), v)).map
          Prod.snd
        rw [hp.nodup_iff, List.map_cons]
        refine List.nodup_cons.mpr ⟨?_, h.nbr_nodup⟩
        intro hin
        obtain ⟨p, hp1, hp2⟩ := List.mem_map.mp hin
        have hp3 : p.2 = v := hp2
        exact hvis (hp3 ▸ h.nbr_vis p hp1)
      refine ⟨⟨?_, hvlt, List.nodup_cons.mpr ⟨hvis, h.vis_nodup⟩, ?_, ?_⟩, ?_⟩
      · intro p hp
        rcases (mem_emplace _ _ _).mp hp with hp | hp
        · rw [hp]; exact hv
        · exact h.cand_lt p hp
      · intro p hp
        simp only at hp
        split at hp
        · exact hmem p (List.mem_of_mem_tail hp)
        · exact hmem p hp
      · simp only
        split
        · rw [List.map_tail]; exact nodup_tail_of_nodup _ hnd
        · exact hnd
      · unfold beamMeasure
        simp only [length_emplace]
        simp only [List.length_cons] at hlen ⊢
        omega
    · refine ⟨⟨h.cand_lt, hvlt, List.nodup_cons.mpr ⟨hvis, h.vis_nodup⟩, ?_, h.nbr_nodup⟩, ?_⟩
      · intro p hp
        exact List.mem_cons_of_mem _ (h.nbr_vis p hp)
      · unfold beamMeasure
        simp only [List.length_cons]
        omega

theorem beamVisit_fold_inv (dist : DistanceInterface) (s : Index) (query : Data) (B N : Nat)
    (c : Nat) (is : List Nat) (hlt : ∀ i ∈ is, linkAt s c i < N) :
    ∀ st : BeamState, BeamInv N st →
      BeamInv N (is.foldl (fun st i => beamVisit dist s query B st (linkAt s c i)) st)
      ∧ beamMeasure N (is.foldl (fun st i => beamVisit dist s query B st (linkAt s c i)) st)
          ≤ beamMeasure N st := by
  induction is with
  | nil => intro st h; exact ⟨h, le_refl _⟩
  | cons i is ih =>
    intro st h
    simp only [List.foldl_cons]
    obtain ⟨h1, m1⟩ := beamVisit_inv dist s query B N st (linkAt s c i)
      (hlt i (List.mem_cons_self _ _)) h
    obtain ⟨h2, m2⟩ := ih (fun j hj => hlt j (List.mem_cons_of_mem _ hj)) _ h1
    exact ⟨h2, le_trans m2 m1⟩

theorem beamExpand_inv (dist : DistanceInterface) (s : Index) (query : Data) (B N : Nat)
    (hlinks : LinksBelow s N) (c : Nat) (hc : c < N) (st : BeamState)
    (h : BeamInv N st) :
    BeamInv N (beamExpand dist s query B c st)
      ∧ beamMeasure N (beamExpand dist s query B c st) ≤ beamMeasure N st := by
  unfold beamExpand
  apply beamVisit_fold_inv
  · intro i hi
    exact hlinks c hc i (List.mem_range.mp hi)
  · exact h

/-- With fuel above the termination measure, the `while` loop of `beamSearch`
returns, and the invariant holds of the heap it returns. -/
theorem beamLoop_spec (dist : DistanceInterface) (s : Index) (query : Data) (B N : Nat)
    (hlinks : LinksBelow s N) (fuel : Nat) :
    ∀ st : BeamState, BeamInv N st → beamMeasure N st < fuel →
      ∃ st' : BeamState, beamLoop dist s query B fuel st = some st'.neighbors
        ∧ BeamInv N st' := by
  induction fuel with
  | zero => intro st _ hf; omega
  | succ fuel ih =>
    intro st h hf
    unfold beamLoop
    cases hc : st.candidates with
    | nil => exact ⟨st, rfl, h⟩
    | cons d_node rest =>
      simp only
      split
      · exact ⟨st, rfl, h⟩
      · have hd : d_node.2 < N :=
          h.cand_lt d_node (by rw [hc]; exact List.mem_cons_self _ _)
        have h0 : BeamInv N { st with candidates := rest } :=
          ⟨fun p hp => h.cand_lt p (by rw [hc]; exact List.mem_cons_of_mem _ hp),
            h.vis_lt, h.vis_nodup, h.nbr_vis, h.nbr_nodup⟩
        have m0 : beamMeasure N { st with candidates := rest } + 1 = beamMeasure N st := by
          unfold beamMeasure
          simp only [hc, List.length_cons]
          omega
        obtain ⟨h1, m1⟩ := beamExpand_inv dist s query B N hlinks d_node.2 hd _ h0
        exact ih _ h1 (by omega)

/-- When the nodes below `N` only link to nodes below `N`, `beamSearch` from an
entry node below `N` with more than `N` units of fuel returns a heap; its ids
are below `N` and pairwise distinct. -/
theorem beamSearch_spec (fuel : Nat) (dist : DistanceInterface) (s : Index) (query : Data)
    (entry : Nat) (B N : Nat) (hlinks : LinksBelow s N) (he : entry < N) (hfuel : N < fuel) :
    ∃ W : PriorityQueue, beamSearch fuel dist s query entry B = some W
      ∧ (∀ p ∈ W, p.2 < N) ∧ (W.map Prod.snd).Nodup := by
  have hinit : BeamInv N
      { visited := [entry], candidates := [(-(dist.distance query (getNodeData s entry)), entry)],
        neighbors := [(dist.distance query (getNodeData s entry), entry)],
        max_dist := dist.distance query (getNodeData s entry) } := by
    refine ⟨?_, ?_, List.nodup_singleton _, ?_, ?_⟩
    · intro p hp; rw [List.mem_singleton.mp hp]; exact he
    · intro v hv; rw [List.mem_singleton.mp hv]; exact he
    · intro p hp; rw [List.mem_singleton.mp hp]; exact List.mem_singleton.mpr rfl
    · simp
  obtain ⟨st', e, h'⟩ := beamLoop_spec dist s query B N hlinks fuel _ hinit
    (by unfold beamMeasure; simp only [List.length_singleton]; omega)
  refine ⟨st'.neighbors, e, ?_, h'.nbr_nodup⟩
  intro p hp
  exact h'.vis_lt _ (h'.nbr_vis p hp)

/-- The size of the result heap of `beamSearch` stays between 1 and the buffer
size. -/
theorem beamVisit_size (dist : DistanceInterface) (s : Index) (query : Data) (B : Nat)
    (hB : 1 ≤ B) (st : BeamState) (v : Nat)
    (h : 1 ≤ st.neighbors.length ∧ st.neighbors.length ≤ B) :
    1 ≤ (beamVisit dist s query B st v).neighbors.length
      ∧ (beamVisit dist s query B st v).neighbors.length ≤ B := by
  unfold beamVisit
  split
  · exact h
  · simp only
    split
    · simp only
      split
      · next hgt =>
        rw [List.length_tail]
        rw [length_emplace] at hgt ⊢
        omega
      · next hgt =>
        rw [length_emplace] at hgt ⊢
        omega
    · exact h

theorem beamExpand_size (dist : DistanceInterface) (s : Index) (query : Data) (B : Nat)
    (hB : 1 ≤ B) (c : Nat) (st : BeamState)
    (h : 1 ≤ st.neighbors.length ∧ st.neighbors.length ≤ B) :
    1 ≤ (beamExpand dist s query B c st).neighbors.length
      ∧ (beamExpand dist s query B c st).neighbors.length ≤ B := by
  unfold beamExpand
  generalize List.range s.M = is
  induction is generalizing st with
  | nil => exact h
  | cons i is ih =>
    simp only [List.foldl_cons]
    exact ih _ (beamVisit_size dist s query B hB st _ h)

theorem beamLoop_size (dist : DistanceInterface) (s : Index) (query : Data) (B : Nat)
    (hB : 1 ≤ B) (fuel : Nat) :
    ∀ (st : BeamState) (W : PriorityQueue),
      1 ≤ st.neighbors.length ∧ st.neighbors.length ≤ B →
      beamLoop dist s query B fuel st = some W → 1 ≤ W.length ∧ W.length ≤ B := by
  induction fuel with
  | zero => intro st W _ e; simp [beamLoop] at e
  | succ fuel ih =>
    intro st W h e
    unfold beamLoop at e
    cases hc : st.candidates with
    | nil =>
      rw [hc] at e
      simp only [Option.some.injEq] at e
      rw [← e]; exact h
    | cons d_node rest =>
      rw [hc] at e
      simp only at e
      split at e
      · simp only [Option.some.injEq] at e
        rw [← e]; exact h
      · exact ih _ W (beamExpand_size dist s query B hB d_node.2
          { st with candidates := rest } h) e

theorem beamSearch_size (fuel : Nat) (dist : DistanceInterface) (s : Index) (query : Data)
    (entry : Nat) (B : Nat) (hB : 1 ≤ B) (W : PriorityQueue)
    (e : beamSearch fuel dist s query entry B = some W) : 1 ≤ W.length ∧ W.length ≤ B := by
  unfold beamSearch at e
  exact beamLoop_size dist s query B hB fuel _ W (by simpa using hB) e

/-! ## Queries -/

theorem popDownTo_eq_drop (k : Nat) (q : PriorityQueue) :
    popDownTo k q = q.drop (q.length - k) := by
  induction q with
  | nil => simp [popDownTo]
  | cons top rest ih =>
    unfold popDownTo
    by_cases h : (top :: rest).length > k
    · rw [if_pos h, ih]
      simp only [List.length_cons] at h ⊢
      have : rest.length + 1 - k = (rest.length - k) + 1 := by omega
      rw [this, List.drop_succ_cons]
    · rw [if_neg h]
      simp only [List.length_cons] at h ⊢
      have : rest.length + 1 - k = 0 := by omega
      rw [this, List.drop_zero]

theorem length_popDownTo (k : Nat) (q : PriorityQueue) :
    (popDownTo k q).length = min k q.length := by
  rw [popDownTo_eq_drop, List.length_drop]
  omega

theorem length_sortResults (l : List dist_label_t) : (sortResults l).length = l.length :=
  List.length_insertionSort _ l

theorem sortResults_perm (l : List dist_label_t) : (sortResults l).Perm l :=
  List.perm_insertionSort _ l

theorem sortResults_sorted (l : List dist_label_t) :
    (sortResults l).Pairwise (fun a b => a.1 ≤ b.1) := by
  haveI : IsTotal dist_label_t (fun a b => a.1 ≤ b.1) := ⟨fun a b => le_total a.1 b.1⟩
  haveI : IsTrans dist_label_t (fun a b => a.1 ≤ b.1) := ⟨fun _ _ _ h1 h2 => le_trans h1 h2⟩
  exact List.sorted_insertionSort (fun a b : dist_label_t => a.1 ≤ b.1) l

/-- On a non-empty index with links in range, `search` with more fuel than
there are nodes returns the sorted labelled content of the trimmed heap of
`beamSearch`. -/
theorem search_spec (fuel : Nat) (dist : DistanceInterface) (s : Index) (query : Data)
    (num_results ef_search num_initializations : Nat) (hne : 1 ≤ s.cur_num_nodes)
    (hlinks : LinksInRange s) (hfuel : s.cur_num_nodes < fuel) :
    ∃ W : PriorityQueue,
      beamSearch fuel dist s (dist.transformData query)
        (initializeSearch dist s (dist.transformData query) num_initializations) ef_search
        = some W
      ∧ search fuel dist s query num_results ef_search num_initializations
        = some (sortResults ((popDownTo num_results W).map (fun p => (p.1, getNodeLabel s p.2))))
      ∧ (∀ p ∈ W, p.2 < s.cur_num_nodes) ∧ (W.map Prod.snd).Nodup := by
  obtain ⟨W, e, h1, h2⟩ := beamSearch_spec fuel dist s (dist.transformData query)
    (initializeSearch dist s (dist.transformData query) num_initializations) ef_search
    s.cur_num_nodes hlinks (initializeSearch_lt dist s _ _ hne) hfuel
  refine ⟨W, e, ?_, h1, h2⟩
  unfold search
  simp only [e]

/-- C4. On a non-empty index (links in range), `search` returns, and the list
it returns is ordered by non-decreasing distance: each result is at most the
next one, and indeed at most every later one. -/
theorem search_sorted (fuel : Nat) (dist : DistanceInterface) (s : Index) (query : Data)
    (num_results ef_search num_initializations : Nat) (hne : 1 ≤ s.cur_num_nodes)
    (hlinks : LinksInRange s) (_hinit : 1 ≤ num_initializations)
    (hfuel : s.cur_num_nodes < fuel) :
    ∃ r, search fuel dist s query num_results ef_search num_initializations = some r
      ∧ r.Chain' (fun a b => a.1 ≤ b.1) ∧ r.Pairwise (fun a b => a.1 ≤ b.1) := by
  obtain ⟨W, _, e, _, _⟩ := search_spec fuel dist s query num_results ef_search
    num_initializations hne hlinks hfuel
  exact ⟨_, e, List.Pairwise.chain' (sortResults_sorted _), sortResults_sorted _⟩

/-- C5. On a non-empty index whose nodes carry pairwise distinct labels and
whose links are in range, `search` returns, and the labels of the list it
returns are pairwise distinct. -/
theorem search_labels_distinct (fuel : Nat) (dist : DistanceInterface) (s : Index)
    (query : Data) (num_results ef_search num_initializations : Nat)
    (hne : 1 ≤ s.cur_num_nodes) (hlinks : LinksInRange s)
    (hlabels : ∀ i, i < s.cur_num_nodes → ∀ j, j < s.cur_num_nodes →
      getNodeLabel s i = getNodeLabel s j → i = j)
    (_hinit : 1 ≤ num_initializations) (hfuel : s.cur_num_nodes < fuel) :
    ∃ r, search fuel dist s query num_results ef_search num_initializations = some r
      ∧ (r.map Prod.snd).Nodup := by
  obtain ⟨W, _, e, hlt, hnd⟩ := search_spec fuel dist s query num_results ef_search
    num_initializations hne hlinks hfuel
  refine ⟨_, e, ?_⟩
  rw [((sortResults_perm _).map Prod.snd).nodup_iff, List.map_map]
  have hsub : (popDownTo num_results W).Sublist W := by
    rw [popDownTo_eq_drop]; exact List.drop_sublist _ _
  have hnd2 : ((popDownTo num_results W).map Prod.snd).Nodup := hnd.sublist (hsub.map _)
  have hlt2 : ∀ p ∈ popDownTo num_results W, p.2 < s.cur_num_nodes :=
    fun p hp => hlt p (hsub.subset hp)
  have : (popDownTo num_results W).map (Prod.snd ∘ fun p => (p.1, getNodeLabel s p.2))
      = ((popDownTo num_results W).map Prod.snd).map (getNodeLabel s) := by
    rw [List.map_map]; rfl
  rw [this]
  apply List.Nodup.map_on _ hnd2
  intro a ha b hb hab
  obtain ⟨p, hp, rfl⟩ := List.mem_map.mp ha
  obtain ⟨q, hq, rfl⟩ := List.mem_map.mp hb
  exact hlabels _ (hlt2 p hp) _ (hlt2 q hq) hab

/-- C3 fails as stated: three `add` calls (`M = 1`) build an index of three
nodes on which `search` with `num_results = ef_search = 3` returns two results,
not `min(3, 3) = 3`: back-wiring has dropped the only link to node 1. -/
theorem search_length_counterexample :
    add 4 sampleDist chain0 (vec [1, 0]) 7 8 100 = some (false, chain1)
      ∧ add 4 sampleDist chain1 (vec [0, 1]) 8 8 100 = some (true, chain2)
      ∧ add 4 sampleDist chain2 (vec [2, 0]) 9 8 100 = some (true, chain3)
      ∧ chain3.cur_num_nodes = 3
      ∧ search 4 sampleDist chain3 (vec [1, 0]) 3 3 100 = some [(-1, 9), (0, 7)]
      ∧ ([(-1, 9), (0, 7)] : List dist_label_t).length ≠ min 3 chain3.cur_num_nodes := by
  decide

theorem chain3_linksInRange : LinksInRange chain3 := by
  unfold LinksInRange; decide

theorem search_sorted_witness :
    1 ≤ chain3.cur_num_nodes ∧ LinksInRange chain3 ∧ 1 ≤ 100 ∧ chain3.cur_num_nodes < 4
      ∧ ∃ r, search 4 sampleDist chain3 (vec [1, 0]) 3 3 100 = some r
        ∧ r.Chain' (fun a b => a.1 ≤ b.1) ∧ r.Pairwise (fun a b => a.1 ≤ b.1) :=
  ⟨by decide, chain3_linksInRange, by decide, by decide,
    search_sorted 4 sampleDist chain3 (vec [1, 0]) 3 3 100 (by decide) chain3_linksInRange
      (by decide) (by decide)⟩

theorem search_labels_distinct_witness :
    1 ≤ chain3.cur_num_nodes ∧ LinksInRange chain3
      ∧ (∀ i, i < chain3.cur_num_nodes → ∀ j, j < chain3.cur_num_nodes →
        getNodeLabel chain3 i = getNodeLabel chain3 j → i = j)
      ∧ 1 ≤ 100 ∧ chain3.cur_num_nodes < 4
      ∧ ∃ r, search 4 sampleDist chain3 (vec [1, 0]) 3 3 100 = some r
        ∧ (r.map Prod.snd).Nodup :=
  ⟨by decide, chain3_linksInRange, by decide, by decide, by decide,
    search_labels_distinct 4 sampleDist chain3 (vec [1, 0]) 3 3 100 (by decide)
      chain3_linksInRange (by decide) (by decide) (by decide)⟩

/-! ## Neighbor selection -/

theorem mem_negateInto (q : List dist_node_t) (acc : PriorityQueue) (p : dist_node_t) :
    p ∈ negateInto acc q ↔ (∃ r ∈ q, p = (-r.1, r.2)) ∨ p ∈ acc := by
  rw [(negateInto_perm q acc).mem_iff, List.mem_append, List.mem_map]
  constructor
  · rintro (⟨r, hr, e⟩ | h)
    · exact Or.inl ⟨r, hr, e.symm⟩
    · exact Or.inr h
  · rintro (⟨r, hr, e⟩ | h)
    · exact Or.inl ⟨r, hr, e.symm⟩
    · exact Or.inr h

theorem length_negateInto (q : List dist_node_t) (acc : PriorityQueue) :
    (negateInto acc q).length = q.length + acc.length := by
  rw [(negateInto_perm q acc).length_eq, List.length_append, List.length_map]

theorem mem_selectLoop (dist : DistanceInterface) (s : Index) (M : Nat) (cands : PriorityQueue) :
    ∀ (saved : List dist_node_t) (p : dist_node_t),
      p ∈ selectLoop dist s M cands saved → p ∈ saved ∨ p ∈ cands := by
  induction cands with
  | nil => intro saved p h; exact Or.inl (by simpa [selectLoop] using h)
  | cons c rest ih =>
    intro saved p h
    unfold selectLoop at h
    split at h
    · exact Or.inl h
    · split at h
      · rcases ih _ p h with h1 | h1
        · rcases List.mem_append.mp h1 with h2 | h2
          · exact Or.inl h2
          · exact Or.inr (by rw [List.mem_singleton.mp h2]; exact List.mem_cons_self _ _)
        · exact Or.inr (List.mem_cons_of_mem _ h1)
      · rcases ih _ p h with h1 | h1
        · exact Or.inl h1
        · exact Or.inr (List.mem_cons_of_mem _ h1)

theorem selectLoop_saved (dist : DistanceInterface) (s : Index) (M : Nat)
    (cands : PriorityQueue) :
    ∀ (saved : List dist_node_t) (p : dist_node_t),
      p ∈ saved → p ∈ selectLoop dist s M cands saved := by
  induction cands with
  | nil => intro saved p h; simpa [selectLoop] using h
  | cons c rest ih =>
    intro saved p h
    unfold selectLoop
    split
    · exact h
    · split
      · exact ih _ p (List.mem_append_left _ h)
      · exact ih _ p h

theorem length_selectLoop (dist : DistanceInterface) (s : Index) (M : Nat)
    (cands : PriorityQueue) :
    ∀ saved : List dist_node_t, saved.length ≤ M →
      (selectLoop dist s M cands saved).length ≤ M := by
  induction cands with
  | nil => intro saved h; simpa [selectLoop] using h
  | cons c rest ih =>
    intro saved h
    unfold selectLoop
    split
    · exact h
    · next hlt =>
      split
      · apply ih
        simp only [List.length_append, List.length_singleton]
        omega
      · exact ih _ h

/-- Every entry kept by `selectNeighbors` is an entry of its input. -/
theorem mem_selectNeighbors (dist : DistanceInterface) (s : Index) (neighbors : PriorityQueue)
    (M : Nat) (p : dist_node_t) (h : p ∈ selectNeighbors dist s neighbors M) :
    p ∈ neighbors := by
  unfold selectNeighbors at h
  split at h
  · exact h
  · simp only at h
    rcases (mem_negateInto _ _ _).mp h with ⟨r, hr, e⟩ | h0
    · rcases mem_selectLoop dist s M _ _ r hr with h1 | h1
      · exact absurd h1 (List.not_mem_nil r)
      · rcases (mem_negateInto _ _ _).mp h1 with ⟨q, hq, e2⟩ | h2
        · have : p = q := by
            rw [e, e2]
            simp
          rw [this]; exact hq
        · exact absurd h2 (List.not_mem_nil r)
    · exact absurd h0 (List.not_mem_nil p)

/-- The heap left by `selectNeighbors` has at most `M` entries. -/
theorem length_selectNeighbors (dist : DistanceInterface) (s : Index)
    (neighbors : PriorityQueue) (M : Nat) :
    (selectNeighbors dist s neighbors M).length ≤ M := by
  unfold selectNeighbors
  split
  · next h => exact le_of_lt h
  · simp only
    rw [length_negateInto]
    simpa using length_selectLoop dist s M _ [] (Nat.zero_le _)

/-- A non-empty heap stays non-empty through `selectNeighbors` when `M ≥ 1`. -/
theorem selectNeighbors_ne_nil (dist : DistanceInterface) (s : Index)
    (neighbors : PriorityQueue) (M : Nat) (hM : 1 ≤ M) (hne : neighbors ≠ []) :
    selectNeighbors dist s neighbors M ≠ [] := by
  unfold selectNeighbors
  split
  · exact hne
  · simp only
    have hc : negateInto [] neighbors ≠ [] := by
      intro h
      have := length_negateInto neighbors []
      rw [h] at this
      simp only [List.length_nil, add_zero] at this
      exact hne (List.length_eq_zero.mp this.symm)
    obtain ⟨c, rest, hcr⟩ := List.exists_cons_of_ne_nil hc
    rw [hcr]
    have hmem : c ∈ selectLoop dist s M (c :: rest) [] := by
      unfold selectLoop
      have h0 : ¬ (([] : List dist_node_t).length ≥ M) := by simp; omega
      rw [if_neg h0]
      simp only [shouldKeep, if_true, List.nil_append]
      exact selectLoop_saved dist s M rest [c] c (List.mem_singleton.mpr rfl)
    intro h
    have h2 : (-c.1, c.2) ∈ negateInto [] (selectLoop dist s M (c :: rest) []) :=
      (mem_negateInto _ _ _).mpr (Or.inl ⟨c, hmem, rfl⟩)
    rw [h] at h2
    exact absurd h2 (List.not_mem_nil _)

/-! ## Wiring -/

theorem Wiring.wiring_refl (touched ok : Nat → Prop) (s : Index) : Wiring touched ok s s :=
  ⟨LinkFrame.frame_refl s, fun _ _ => rfl, fun _ _ => Or.inl rfl⟩

theorem Wiring.wiring_trans {touched ok : Nat → Prop} {a b c : Index} (h1 : Wiring touched ok a b)
    (h2 : Wiring touched ok b c) : Wiring touched ok a c := by
  refine ⟨h1.frame.frame_trans h2.frame, fun k hk => (h2.other k hk).trans (h1.other k hk), ?_⟩
  intro k j
  rcases h2.values k j with h | h
  · rw [h]; exact h1.values k j
  · exact Or.inr h

theorem Wiring.wiring_mono {t t' ok ok' : Nat → Prop} {a b : Index} (h : Wiring t ok a b)
    (ht : ∀ k, t k → t' k) (hok : ∀ v, ok v → ok' v) : Wiring t' ok' a b := by
  refine ⟨h.frame, fun k hk => h.other k (fun hh => hk (ht k hh)), ?_⟩
  intro k j
  rcases h.values k j with h1 | h1
  · exact Or.inl h1
  · exact Or.inr (hok _ h1)

theorem wiring_setLink (s : Index) (n i v : Nat) :
    Wiring (fun k => k = n) (fun x => x = v) s (setLink s n i v) := by
  refine ⟨linkFrame_setLink s n i v, ?_, ?_⟩
  · intro k hk
    exact getNode_setLink_ne s n i v k (fun h => hk h.symm)
  · intro k j
    rw [linkAt_setLink]
    split
    · exact Or.inr rfl
    · exact Or.inl rfl

theorem wf_of_linkFrame {s s' : Index} (hwf : s.WF) (h : LinkFrame s s') : s'.WF := by
  refine ⟨?_, ?_, ?_⟩
  · rw [h.header.length, h.header.max]; exact hwf.length_eq
  · rw [h.header.cur, h.header.max]; exact hwf.count_le
  · intro n hn
    rw [h.links_length, h.header.M]
    exact hwf.links_length n (by rw [← h.header.max]; exact hn)

theorem linksInRange_of_wiring {t : Nat → Prop} {s s' : Index} (hl : LinksInRange s)
    (h : Wiring t (fun x => x < s.cur_num_nodes) s s') : LinksInRange s' := by
  intro n hn m hm
  rw [h.frame.header.cur] at hn ⊢
  rw [h.frame.header.M] at hm
  rcases h.values n m with h1 | h1
  · rw [h1]; exact hl n hn m hm
  · exact h1

theorem wiring_insertBackLink (s : Index) (v new_id : Nat) (js : List Nat) (s1 : Index)
    (h : insertBackLink s v new_id js = some s1) :
    Wiring (fun k => k = v) (fun x => x = new_id) s s1 := by
  induction js with
  | nil => simp [insertBackLink] at h
  | cons j js ih =>
    unfold insertBackLink at h
    split at h
    · simp only [Option.some.injEq] at h
      rw [← h]; exact wiring_setLink s v j new_id
    · exact ih h

theorem wiring_writeCandidates (v : Nat) (cands : PriorityQueue) :
    ∀ (j : Nat) (s : Index),
      Wiring (fun k => k = v) (fun x => ∃ p ∈ cands, x = p.2) s
        (writeCandidates v cands j s).1 := by
  induction cands with
  | nil => intro j s; exact Wiring.wiring_refl _ _ s
  | cons top rest ih =>
    intro j s
    unfold writeCandidates
    refine Wiring.wiring_trans ?_ ((ih (j + 1) _).wiring_mono (fun _ h => h) ?_)
    · exact (wiring_setLink s v j top.2).wiring_mono (fun _ h => h)
        (fun x hx => ⟨top, List.mem_cons_self _ _, hx⟩)
    · rintro x ⟨p, hp, hx⟩
      exact ⟨p, List.mem_cons_of_mem _ hp, hx⟩

theorem wiring_fillSelfLoops (v : Nat) (k : Nat) :
    ∀ (j : Nat) (s : Index),
      Wiring (fun k => k = v) (fun x => x = v) s (fillSelfLoops v k j s) := by
  induction k with
  | zero => intro j s; exact Wiring.wiring_refl _ _ s
  | succ k ih =>
    intro j s
    unfold fillSelfLoops
    exact (wiring_setLink s v j v).wiring_trans (ih (j + 1) _)

theorem mem_backCandidates_fold (dist : DistanceInterface) (s : Index) (v : Nat)
    (js : List Nat) :
    ∀ (acc : PriorityQueue) (p : dist_node_t),
      p ∈ js.foldl (fun c j =>
        if linkAt s v j ≠ v then
          emplace c (dist.distance (getNodeData s v) (getNodeData s (linkAt s v j)),
            linkAt s v j)
        else c) acc →
      p ∈ acc ∨ ∃ j ∈ js, p.2 = linkAt s v j := by
  induction js with
  | nil => intro acc p h; exact Or.inl h
  | cons j js ih =>
    intro acc p h
    simp only [List.foldl_cons] at h
    rcases ih _ p h with h1 | ⟨j', hj', e⟩
    · split at h1
      · rcases (mem_emplace _ _ _).mp h1 with h2 | h2
        · exact Or.inr ⟨j, List.mem_cons_self _ _, by rw [h2]⟩
        · exact Or.inl h2
      · exact Or.inl h1
    · exact Or.inr ⟨j', List.mem_cons_of_mem _ hj', e⟩

/-- The candidates gathered for a saturated neighbor are the new node and
links of the neighbor. -/
theorem mem_backCandidates (dist : DistanceInterface) (s : Index) (v new_id : Nat)
    (p : dist_node_t) (h : p ∈ backCandidates dist s v new_id) :
    p.2 = new_id ∨ ∃ j, j < s.M ∧ p.2 = linkAt s v j := by
  unfold backCandidates at h
  rcases mem_backCandidates_fold dist s v _ _ p h with h1 | ⟨j, hj, e⟩
  · rcases (mem_emplace _ _ _).mp h1 with h2 | h2
    · exact Or.inl (by rw [h2])
    · exact absurd h2 (List.not_mem_nil p)
  · exact Or.inr ⟨j, List.mem_range.mp hj, e⟩

/-- The back-connection touches only the neighbor, and writes ids of nodes in
use. -/
theorem wiring_connectBack (dist : DistanceInterface) (s : Index) (v new_id : Nat)
    (hl : LinksInRange s) (hv : v < s.cur_num_nodes) (hnew : new_id < s.cur_num_nodes) :
    Wiring (fun k => k = v) (fun x => x < s.cur_num_nodes) s
      (connectBack dist s v new_id) := by
  unfold connectBack
  cases hins : insertBackLink s v new_id (List.range s.M) with
  | some s1 =>
    simp only
    exact (wiring_insertBackLink s v new_id _ s1 hins).wiring_mono (fun _ h => h)
      (fun x hx => by rw [hx]; exact hnew)
  | none =>
    simp only
    refine Wiring.wiring_trans ((wiring_writeCandidates v
      (selectNeighbors dist s (backCandidates dist s v new_id) s.M) 0 s).wiring_mono
        (fun _ h => h) ?_) ?_
    · rintro x ⟨p, hp, hx⟩
      rw [hx]
      rcases mem_backCandidates dist s v new_id p (mem_selectNeighbors dist s _ _ p hp)
        with h1 | ⟨j, hj, h1⟩
      · rw [h1]; exact hnew
      · rw [h1]; exact hl v hv j hj
    · exact (wiring_fillSelfLoops v _ _ _).wiring_mono (fun _ h => h) (fun x hx => by rw [hx]; exact hv)

/-- The loop of `connectNeighbors` touches only the new node and the listed
neighbors, and writes ids of nodes in use. -/
theorem wiring_connectLoop (dist : DistanceInterface) (new_id : Nat)
    (neighbors : PriorityQueue) :
    ∀ (i : Nat) (s : Index), LinksInRange s → new_id < s.cur_num_nodes →
      (∀ p ∈ neighbors, p.2 < s.cur_num_nodes) →
      Wiring (fun k => k = new_id ∨ ∃ p ∈ neighbors, k = p.2) (fun x => x < s.cur_num_nodes) s
        (connectLoop dist new_id neighbors i s) := by
  induction neighbors with
  | nil => intro i s _ _ _; exact Wiring.wiring_refl _ _ s
  | cons top rest ih =>
    intro i s hl hnew hlt
    unfold connectLoop
    simp only
    have htop : top.2 < s.cur_num_nodes := hlt top (List.mem_cons_self _ _)
    have w1 : Wiring (fun k => k = new_id ∨ ∃ p ∈ top :: rest, k = p.2)
        (fun x => x < s.cur_num_nodes) s (setLink s new_id i top.2) :=
      (wiring_setLink s new_id i top.2).wiring_mono (fun _ h => Or.inl h)
        (fun x hx => by rw [hx]; exact htop)
    have hl1 : LinksInRange (setLink s new_id i top.2) :=
      linksInRange_of_wiring hl w1
    have hc1 : (setLink s new_id i top.2).cur_num_nodes = s.cur_num_nodes := rfl
    have w2 := wiring_connectBack dist (setLink s new_id i top.2) top.2 new_id hl1
      (by rw [hc1]; exact htop) (by rw [hc1]; exact hnew)
    rw [hc1] at w2
    have w2' : Wiring (fun k => k = new_id ∨ ∃ p ∈ top :: rest, k = p.2)
        (fun x => x < s.cur_num_nodes) (setLink s new_id i top.2)
        (connectBack dist (setLink s new_id i top.2) top.2 new_id) :=
      w2.wiring_mono (fun k hk => Or.inr ⟨top, List.mem_cons_self _ _, hk⟩) (fun _ h => h)
    have w12 := w1.wiring_trans w2'
    have hl2 : LinksInRange (connectBack dist (setLink s new_id i top.2) top.2 new_id) :=
      linksInRange_of_wiring hl w12
    have hc2 : (connectBack dist (setLink s new_id i top.2) top.2 new_id).cur_num_nodes
        = s.cur_num_nodes := w12.frame.header.cur
    have w3 := ih (if i + 1 ≥ s.M then s.M else i + 1) _ hl2 (by rw [hc2]; exact hnew)
      (fun p hp => by rw [hc2]; exact hlt p (List.mem_cons_of_mem _ hp))
    rw [hc2] at w3
    refine w12.wiring_trans (w3.wiring_mono ?_ (fun _ h => h))
    rintro k (hk | ⟨p, hp, hk⟩)
    · exact Or.inl hk
    · exact Or.inr ⟨p, List.mem_cons_of_mem _ hp, hk⟩

/-! ## Insertion -/

/-- Whenever the `while` loop of `beamSearch` returns a heap, its ids are below
`N` and pairwise distinct. -/
theorem beamLoop_sound (dist : DistanceInterface) (s : Index) (query : Data) (B N : Nat)
    (hlinks : LinksBelow s N) (fuel : Nat) :
    ∀ (st : BeamState) (W : PriorityQueue), BeamInv N st →
      beamLoop dist s query B fuel st = some W →
      (∀ p ∈ W, p.2 < N) ∧ (W.map Prod.snd).Nodup := by
  induction fuel with
  | zero => intro st W _ e; simp [beamLoop] at e
  | succ fuel ih =>
    intro st W h e
    unfold beamLoop at e
    cases hc : st.candidates with
    | nil =>
      rw [hc] at e
      simp only [Option.some.injEq] at e
      rw [← e]
      exact ⟨fun p hp => h.vis_lt _ (h.nbr_vis p hp), h.nbr_nodup⟩
    | cons d_node rest =>
      rw [hc] at e
      simp only at e
      split at e
      · simp only [Option.some.injEq] at e
        rw [← e]
        exact ⟨fun p hp => h.vis_lt _ (h.nbr_vis p hp), h.nbr_nodup⟩
      · have hd : d_node.2 < N :=
          h.cand_lt d_node (by rw [hc]; exact List.mem_cons_self _ _)
        have h0 : BeamInv N { st with candidates := rest } :=
          ⟨fun p hp => h.cand_lt p (by rw [hc]; exact List.mem_cons_of_mem _ hp),
            h.vis_lt, h.vis_nodup, h.nbr_vis, h.nbr_nodup⟩
        exact ih _ W (beamExpand_inv dist s query B N hlinks d_node.2 hd _ h0).1 e

theorem beamSearch_sound (fuel : Nat) (dist : DistanceInterface) (s : Index) (query : Data)
    (entry : Nat) (B N : Nat) (hlinks : LinksBelow s N) (he : entry < N) (W : PriorityQueue)
    (e : beamSearch fuel dist s query entry B = some W) :
    (∀ p ∈ W, p.2 < N) ∧ (W.map Prod.snd).Nodup := by
  unfold beamSearch at e
  refine beamLoop_sound dist s query B N hlinks fuel _ W ?_ e
  refine ⟨?_, ?_, List.nodup_singleton _, ?_, ?_⟩
  · intro p hp; rw [List.mem_singleton.mp hp]; exact he
  · intro v hv; rw [List.mem_singleton.mp hv]; exact he
  · intro p hp; rw [List.mem_singleton.mp hp]; exact List.mem_singleton.mpr rfl
  · simp

/-- The index right after `allocateNode`: well-formed, with links in range, and
the old nodes still only link to old nodes. -/
theorem allocated_valid (s s1 : Index) (d : Data) (l : label_t) (hwf : s.WF)
    (hl : LinksInRange s) (hcap : s.cur_num_nodes < s.max_node_count)
    (hM : s1.M = s.M) (hmax : s1.max_node_count = s.max_node_count)
    (hcur : s1.cur_num_nodes = s.cur_num_nodes + 1)
    (hlen : s1.index_memory.length = s.index_memory.length)
    (hnode : getNode s1 s.cur_num_nodes
      = { data := d, links := List.replicate s.M s.cur_num_nodes, label := l })
    (hother : ∀ k : Nat, k ≠ s.cur_num_nodes → getNode s1 k = getNode s k) :
    s1.WF ∧ LinksInRange s1 ∧ LinksBelow s1 s.cur_num_nodes := by
  have hold : ∀ n : Nat, n < s.cur_num_nodes → ∀ m : Nat, linkAt s1 n m = linkAt s n m := by
    intro n hn m
    unfold linkAt getNodeLinks
    rw [hother n (Nat.ne_of_lt hn)]
  have hnew : ∀ m : Nat, m < s.M → linkAt s1 s.cur_num_nodes m = s.cur_num_nodes := by
    intro m hm
    unfold linkAt getNodeLinks
    rw [hnode]
    simp [List.getD_eq_getElem?_getD, List.getElem?_replicate, hm]
  refine ⟨⟨?_, ?_, ?_⟩, ?_, ?_⟩
  · rw [hlen, hmax]; exact hwf.length_eq
  · rw [hcur, hmax]; exact hcap
  · intro n hn
    rw [hM]
    by_cases hnc : n = s.cur_num_nodes
    · subst hnc
      unfold getNodeLinks
      rw [hnode]
      simp
    · unfold getNodeLinks
      rw [hother n hnc]
      exact hwf.links_length n (by rw [← hmax]; exact hn)
  · intro n hn m hm
    rw [hcur] at hn ⊢
    rw [hM] at hm
    by_cases hnc : n = s.cur_num_nodes
    · subst hnc
      rw [hnew m hm]; exact Nat.lt_succ_self _
    · have hn' : n < s.cur_num_nodes := by omega
      rw [hold n hn' m]
      exact Nat.lt_succ_of_lt (hl n hn' m hm)
  · intro n hn m hm
    rw [hM] at hm
    rw [hold n hn m]
    exact hl n hn m hm

/-- Whatever `add` returns, a well-formed index with links in range stays
so. -/
theorem add_valid (fuel : Nat) (dist : DistanceInterface) (s : Index) (data : Data)
    (label : label_t) (ef k : Nat) (b : Bool) (s' : Index) (hwf : s.WF) (hl : LinksInRange s)
    (e : add fuel dist s data label ef k = some (b, s')) : s'.WF ∧ LinksInRange s' := by
  by_cases hcap : s.cur_num_nodes < s.max_node_count
  · obtain ⟨s1, ea, hM, _, _, hmax, hcur, hlen, hnode, hother⟩ :=
      allocateNode_spec dist s data label hwf hcap
    obtain ⟨hwf1, hl1, hb1⟩ := allocated_valid s s1 _ _ hwf hl hcap hM hmax hcur hlen hnode hother
    unfold add at e
    rw [ea] at e
    simp only at e
    by_cases h0 : s.cur_num_nodes > 0
    · rw [if_pos h0] at e
      cases hbs : beamSearch fuel dist s1 data (initializeSearch dist s data k) ef with
      | none => rw [hbs] at e; simp at e
      | some W =>
        rw [hbs] at e
        simp only [Option.some.injEq, Prod.mk.injEq] at e
        obtain ⟨hW, _⟩ := beamSearch_sound fuel dist s1 data _ ef s.cur_num_nodes hb1
          (initializeSearch_lt dist s data k h0) W hbs
        have hsel : ∀ p ∈ selectNeighbors dist s1 W s1.M, p.2 < s1.cur_num_nodes := by
          intro p hp
          rw [hcur]
          exact Nat.lt_succ_of_lt (hW p (mem_selectNeighbors dist s1 W _ p hp))
        have w := wiring_connectLoop dist s.cur_num_nodes (selectNeighbors dist s1 W s1.M) 0 s1
          hl1 (by rw [hcur]; exact Nat.lt_succ_self _) hsel
        rw [← e.2]
        exact ⟨wf_of_linkFrame hwf1 w.frame, linksInRange_of_wiring hl1 w⟩
    · rw [if_neg h0] at e
      simp only [Option.some.injEq, Prod.mk.injEq] at e
      rw [← e.2]
      exact ⟨hwf1, hl1⟩
  · unfold add allocateNode at e
    rw [if_pos (not_lt.mp hcap)] at e
    simp only [Option.some.injEq, Prod.mk.injEq] at e
    rw [← e.2]
    exact ⟨hwf, hl⟩

/-! ## Reachable indexes -/

theorem relocateLoop_sound {P : List node_id_t} {N : Nat} {c : Nat → Node}
    (hP : IsPermutation P N) (n : Nat) (fuel : Nat) :
    ∀ (d e : Nat) (W : VisitedSet) (s : Index) (V' : VisitedSet) (s' : Index),
      CycleInv P N c n d e W s → relocateLoop P n fuel d (e :: W) s = some (V', s') →
      RelocInv P N c V' s' ∧ (∀ x ∈ e :: W, x ∈ V') := by
  induction fuel with
  | zero => intro d e W s V' s' _ h; simp [relocateLoop] at h
  | succ fuel ih =>
    intro d e W s V' s' h hr
    unfold relocateLoop at hr
    by_cases hd : d ∈ e :: W
    · rw [if_pos hd] at hr
      simp only [Option.some.injEq, Prod.mk.injEq] at hr
      rw [← hr.1, ← hr.2]
      exact ⟨h.cycle_exit hP hd, fun x hx => hx⟩
    · rw [if_neg hd] at hr
      have hdN : d < N := by rw [← h.image]; exact hP.lt e (h.lt e (List.mem_cons_self _ _))
      obtain ⟨h1, h2⟩ := ih _ _ _ _ V' s' (h.cycle_step hP hd hdN) hr
      exact ⟨h1, fun x hx => h2 x (List.mem_cons_of_mem _ hx)⟩

theorem relocateNode_sound {P : List node_id_t} {N : Nat} {c : Nat → Node}
    (hP : IsPermutation P N) (fuel : Nat) (V : VisitedSet) (s : Index) (n : Nat) (hn : n < N)
    (V' : VisitedSet) (s' : Index) (h : RelocInv P N c V s)
    (hr : relocateNode fuel P (V, s) n = some (V', s')) :
    RelocInv P N c V' s' ∧ n ∈ V' ∧ (∀ x ∈ V, x ∈ V') := by
  unfold relocateNode at hr
  by_cases hnV : n ∈ V
  · simp only [hnV, if_true, Option.some.injEq, Prod.mk.injEq] at hr
    rw [← hr.1, ← hr.2]
    exact ⟨h, hnV, fun x hx => hx⟩
  · simp only [hnV, if_false] at hr
    obtain ⟨h1, h2⟩ := relocateLoop_sound hP n fuel _ n V _ V' s'
      (cycleInv_start hP V s n hn hnV h) hr
    exact ⟨h1, h2 n (List.mem_cons_self _ _), fun x hx => h2 x (List.mem_cons_of_mem _ hx)⟩

theorem relocateAll_sound {P : List node_id_t} {N : Nat} {c : Nat → Node}
    (hP : IsPermutation P N) (fuel : Nat) (ns : List Nat) :
    ∀ (V : VisitedSet) (s : Index) (V' : VisitedSet) (s' : Index), (∀ n ∈ ns, n < N) →
      RelocInv P N c V s → relocateAll fuel P ns (V, s) = some (V', s') →
      RelocInv P N c V' s' ∧ (∀ n ∈ ns, n ∈ V') ∧ (∀ x ∈ V, x ∈ V') := by
  induction ns with
  | nil =>
    intro V s V' s' _ h hr
    simp only [relocateAll, Option.some.injEq, Prod.mk.injEq] at hr
    rw [← hr.1, ← hr.2]
    exact ⟨h, fun n hn => absurd hn (List.not_mem_nil n), fun x hx => hx⟩
  | cons n ns ih =>
    intro V s V' s' hns h hr
    unfold relocateAll at hr
    cases h1 : relocateNode fuel P (V, s) n with
    | none => rw [h1] at hr; simp at hr
    | some st1 =>
      rw [h1] at hr
      simp only at hr
      obtain ⟨V1, s1⟩ := st1
      obtain ⟨i1, hn1, hsub1⟩ := relocateNode_sound hP fuel V s n
        (hns n (List.mem_cons_self _ _)) V1 s1 h h1
      obtain ⟨i2, hn2, hsub2⟩ := ih V1 s1 V' s'
        (fun m hm => hns m (List.mem_cons_of_mem _ hm)) i1 hr
      refine ⟨i2, ?_, fun x hx => hsub2 x (hsub1 x hx)⟩
      intro m hm
      rcases List.mem_cons.mp hm with hmn | hm
      · rw [hmn]; exact hsub2 n hn1
      · exact hn2 m hm

/-- Whatever `relabel` returns for a bijection, a well-formed index with links
in range stays so. -/
theorem relabel_valid (fuel : Nat) (P : List node_id_t) (s s' : Index) (hwf : s.WF)
    (hl : LinksInRange s) (hP : IsPermutation P s.cur_num_nodes)
    (e : relabel fuel P s = some s') : s'.WF ∧ LinksInRange s' := by
  have hfr := rewireLinks_frame P s
  have hwf1 : (rewireLinks P s).WF := wf_of_linkFrame hwf hfr
  have hinit : RelocInv P s.cur_num_nodes (getNode (rewireLinks P s)) [] (rewireLinks P s) := by
    refine ⟨?_, List.nodup_nil, ?_, ?_, ?_, fun _ _ => rfl, ?_⟩
    · intro x hx; exact absurd hx (List.not_mem_nil x)
    · intro x hx; exact absurd hx (List.not_mem_nil x)
    · intro x hx; exact absurd hx (List.not_mem_nil x)
    · intro x hx; exact absurd hx (List.not_mem_nil x)
    · rw [hfr.header.length, hwf.length_eq]; exact hwf.count_le
  unfold relabel at e
  simp only at e
  cases hr : relocateAll fuel P (List.range s.cur_num_nodes) ([], rewireLinks P s) with
  | none => rw [hr] at e; simp at e
  | some st =>
    rw [hr] at e
    simp only [Option.some.injEq] at e
    obtain ⟨V', s2⟩ := st
    simp only at e
    subst e
    obtain ⟨hinv, hall, _⟩ := relocateAll_sound hP fuel _ [] _ V' s2
      (fun n hn => List.mem_range.mp hn) hinit hr
    have hh : SameHeader s s2 := hfr.header.header_trans (relocateAll_header fuel P _ _ _ hr)
    -- every slot holds a record of the rewired arena
    have hslot : ∀ y : Nat, ∃ x : Nat, getNode s2 y = getNode (rewireLinks P s) x
        ∧ (y < s.cur_num_nodes → x < s.cur_num_nodes) ∧ (s.cur_num_nodes ≤ y → x = y) := by
      intro y
      by_cases hy : y ∈ V'
      · obtain ⟨x, hxV, hx⟩ := hinv.bwd y hy
        refine ⟨x, ?_, fun _ => hinv.lt x hxV, fun hge => ?_⟩
        · rw [← hx]; exact hinv.placed x hxV
        · exact absurd (hinv.lt y hy) (not_lt.mpr hge)
      · refine ⟨y, hinv.rest y hy, fun h => h, fun _ => rfl⟩
    refine ⟨⟨?_, ?_, ?_⟩, ?_⟩
    · rw [hh.length, hh.max]; exact hwf.length_eq
    · rw [hh.cur, hh.max]; exact hwf.count_le
    · intro n hn
      rw [hh.max] at hn
      rw [hh.M]
      obtain ⟨x, hx, hlt, hge⟩ := hslot n
      unfold getNodeLinks
      rw [hx]
      have hxm : x < s.max_node_count := by
        by_cases hc : n < s.cur_num_nodes
        · exact lt_of_lt_of_le (hlt hc) hwf.count_le
        · rw [hge (not_lt.mp hc)]; exact hn
      have := hwf1.links_length x (by rw [hfr.header.max]; exact hxm)
      rw [hfr.header.M] at this
      exact this
    · intro n hn m hm
      rw [hh.cur] at hn ⊢
      rw [hh.M] at hm
      obtain ⟨x, hx, hlt, _⟩ := hslot n
      have hxN := hlt hn
      have : linkAt s2 n m = linkAt (rewireLinks P s) x m := by
        unfold linkAt getNodeLinks
        rw [hx]
      rw [this, linkAt_rewireLinks P s hwf x m hxN hm]
      exact hP.lt _ (hl x hxN m hm)

/-- Every built index is well-formed and has its links in range. -/
theorem built_valid (dist : DistanceInterface) (s : Index) (h : Built dist s) :
    s.WF ∧ LinksInRange s := by
  induction h with
  | new dataset_size M L mem hM hlen hmem =>
    refine ⟨⟨hlen, Nat.zero_le _, ?_⟩, ?_⟩
    · intro n hn
      have hn' : n < mem.length := by rw [hlen]; exact hn
      unfold getNodeLinks getNode
      show (mem.getD n default).links.length = M
      rw [List.getD_eq_getElem?_getD, List.getElem?_eq_getElem hn']
      exact hmem _ (List.getElem_mem hn')
    · intro n hn
      exact absurd hn (Nat.not_lt_zero n)
  | add s fuel data label ef k b s' _ _ _ h ih =>
    exact add_valid fuel dist s data label ef k b s' ih.1 ih.2 h
  | relabel s fuel P s' _ hP h ih =>
    exact relabel_valid fuel P s s' ih.1 ih.2 hP h

/-- C2. Link-range invariant: in every index built from an empty one by `add`
calls (`M ≥ 1`, `ef_construction ≥ 1`, `k_init ≥ 1`) and `relabel` calls with
bijections on `[0, current_node_count)`, every link of every node in use is the
id of a node in use. -/
theorem built_links_in_range (dist : DistanceInterface) (s : Index) (h : Built dist s) :
    ∀ n, n < s.cur_num_nodes → ∀ m, m < s.M → linkAt s n m < s.cur_num_nodes :=
  (built_valid dist s h).2

/-! ## The links of the new node -/

/-- The loop of `connectNeighbors`, entered at slot `i`, leaves the slots
`j < i` of the new node as they are (no neighbor being the new node itself). -/
theorem connectLoop_keeps (dist : DistanceInterface) (new_id : Nat) (neighbors : PriorityQueue)
    (j : Nat) :
    ∀ (i : Nat) (s : Index), LinksInRange s → new_id < s.cur_num_nodes →
      (∀ p ∈ neighbors, p.2 < s.cur_num_nodes ∧ p.2 ≠ new_id) → j < i → j < s.M →
      linkAt (connectLoop dist new_id neighbors i s) new_id j = linkAt s new_id j := by
  induction neighbors with
  | nil => intro i s _ _ _ _ _; rfl
  | cons top rest ih =>
    intro i s hl hnew hlt hji hjM
    unfold connectLoop
    simp only
    have htop := hlt top (List.mem_cons_self _ _)
    have w1 : Wiring (fun k => k = new_id) (fun x => x < s.cur_num_nodes) s
        (setLink s new_id i top.2) :=
      (wiring_setLink s new_id i top.2).wiring_mono (fun _ h => h) (fun x hx => by rw [hx]; exact htop.1)
    have hl1 : LinksInRange (setLink s new_id i top.2) := linksInRange_of_wiring hl w1
    have hc1 : (setLink s new_id i top.2).cur_num_nodes = s.cur_num_nodes := rfl
    have w2 := wiring_connectBack dist (setLink s new_id i top.2) top.2 new_id hl1
      (by rw [hc1]; exact htop.1) (by rw [hc1]; exact hnew)
    rw [hc1] at w2
    have hl2 : LinksInRange (connectBack dist (setLink s new_id i top.2) top.2 new_id) :=
      linksInRange_of_wiring hl1 (by rw [hc1]; exact w2)
    have hc2 : (connectBack dist (setLink s new_id i top.2) top.2 new_id).cur_num_nodes
        = s.cur_num_nodes := w2.frame.header.cur
    have hM2 : (connectBack dist (setLink s new_id i top.2) top.2 new_id).M = s.M :=
      w2.frame.header.M
    rw [ih (if i + 1 ≥ s.M then s.M else i + 1) _ hl2 (by rw [hc2]; exact hnew)
      (fun p hp => by rw [hc2]; exact hlt p (List.mem_cons_of_mem _ hp))
      (by split <;> omega) (by rw [hM2]; exact hjM)]
    have h3 : linkAt (connectBack dist (setLink s new_id i top.2) top.2 new_id) new_id j
        = linkAt (setLink s new_id i top.2) new_id j := by
      unfold linkAt getNodeLinks
      rw [w2.other new_id (fun h => htop.2 h.symm)]
    rw [h3]
    exact linkAt_setLink_ne s new_id i top.2 new_id j (Or.inr (by omega))

/-- The first neighbor of the heap ends in slot 0 of the new node. -/
theorem connectNeighbors_first (dist : DistanceInterface) (s : Index) (new_id : Nat)
    (top : dist_node_t) (rest : PriorityQueue) (hwf : s.WF) (hl : LinksInRange s)
    (hM : 1 ≤ s.M) (hnew : new_id < s.cur_num_nodes)
    (hlt : ∀ p ∈ top :: rest, p.2 < s.cur_num_nodes ∧ p.2 ≠ new_id) :
    linkAt (connectNeighbors dist s (top :: rest) new_id) new_id 0 = top.2
    ∧ (rest = [] → ∀ j : Nat, 1 ≤ j →
        linkAt (connectNeighbors dist s (top :: rest) new_id) new_id j = linkAt s new_id j) := by
  unfold connectNeighbors connectLoop
  simp only
  have htop := hlt top (List.mem_cons_self _ _)
  have w1 : Wiring (fun k => k = new_id) (fun x => x < s.cur_num_nodes) s
      (setLink s new_id 0 top.2) :=
    (wiring_setLink s new_id 0 top.2).wiring_mono (fun _ h => h) (fun x hx => by rw [hx]; exact htop.1)
  have hl1 : LinksInRange (setLink s new_id 0 top.2) := linksInRange_of_wiring hl w1
  have hc1 : (setLink s new_id 0 top.2).cur_num_nodes = s.cur_num_nodes := rfl
  have w2 := wiring_connectBack dist (setLink s new_id 0 top.2) top.2 new_id hl1
    (by rw [hc1]; exact htop.1) (by rw [hc1]; exact hnew)
  rw [hc1] at w2
  have hl2 : LinksInRange (connectBack dist (setLink s new_id 0 top.2) top.2 new_id) :=
    linksInRange_of_wiring hl1 (by rw [hc1]; exact w2)
  have hc2 : (connectBack dist (setLink s new_id 0 top.2) top.2 new_id).cur_num_nodes
      = s.cur_num_nodes := w2.frame.header.cur
  have hM2 : (connectBack dist (setLink s new_id 0 top.2) top.2 new_id).M = s.M :=
    w2.frame.header.M
  have h3 : ∀ j : Nat, linkAt (connectBack dist (setLink s new_id 0 top.2) top.2 new_id) new_id j
      = linkAt (setLink s new_id 0 top.2) new_id j := by
    intro j
    unfold linkAt getNodeLinks
    rw [w2.other new_id (fun h => htop.2 h.symm)]
  have hnm : new_id < s.max_node_count := lt_of_lt_of_le hnew hwf.count_le
  constructor
  · rw [connectLoop_keeps dist new_id rest 0 _ _ hl2 (by rw [hc2]; exact hnew)
      (fun p hp => by rw [hc2]; exact hlt p (List.mem_cons_of_mem _ hp))
      (by split <;> omega) (by rw [hM2]; omega), h3]
    apply linkAt_setLink_self
    · rw [hwf.length_eq]; exact hnm
    · rw [hwf.links_length new_id hnm]; omega
  · intro hrest j hj
    subst hrest
    unfold connectLoop
    rw [h3]
    exact linkAt_setLink_ne s new_id 0 top.2 new_id j (Or.inr (by omega))

/-- C6. For `M ≥ 1`, `ef_construction ≥ 1` and `k_init ≥ 1`, `add` on an index
with `1 ≤ current_node_count < capacity` returns `true` (given more fuel than
nodes), the count grows by exactly one, and a link slot of the new node holds
an id other than the new node's own; on a one-node index with `M = 2` the links
of node 1 become `0` (slot 0) and the self-loop `1` (slot 1). -/
theorem add_links_new_node (fuel : Nat) (dist : DistanceInterface) (s : Index) (data : Data)
    (label : label_t) (ef_construction num_initializations : Nat) (hwf : s.WF)
    (hl : LinksInRange s) (hM : 1 ≤ s.M) (hef : 1 ≤ ef_construction)
    (_hinit : 1 ≤ num_initializations) (hne : 1 ≤ s.cur_num_nodes)
    (hcap : s.cur_num_nodes < s.max_node_count) (hfuel : s.cur_num_nodes < fuel) :
    ∃ s', add fuel dist s data label ef_construction num_initializations = some (true, s')
      ∧ s'.cur_num_nodes = s.cur_num_nodes + 1
      ∧ (∃ m, m < s.M ∧ linkAt s' s.cur_num_nodes m ≠ s.cur_num_nodes)
      ∧ (s.cur_num_nodes = 1 → s.M = 2 → linkAt s' 1 0 = 0 ∧ linkAt s' 1 1 = 1) := by
  obtain ⟨s1, ea, hM1, _, _, hmax, hcur, hlen, hnode, hother⟩ :=
    allocateNode_spec dist s data label hwf hcap
  obtain ⟨hwf1, hl1, hb1⟩ := allocated_valid s s1 _ _ hwf hl hcap hM1 hmax hcur hlen hnode hother
  obtain ⟨W, eW, hWlt, hWnd⟩ := beamSearch_spec fuel dist s1 data
    (initializeSearch dist s data num_initializations) ef_construction s.cur_num_nodes hb1
    (initializeSearch_lt dist s data _ hne) hfuel
  obtain ⟨hW1, _⟩ := beamSearch_size fuel dist s1 data _ ef_construction hef W eW
  have hWne : W ≠ [] := by
    intro h; rw [h] at hW1; simp at hW1
  have hsne := selectNeighbors_ne_nil dist s1 W s1.M (by rw [hM1]; exact hM) hWne
  obtain ⟨top, rest, hsel⟩ := List.exists_cons_of_ne_nil hsne
  have hsellt : ∀ p ∈ top :: rest, p.2 < s1.cur_num_nodes ∧ p.2 ≠ s.cur_num_nodes := by
    intro p hp
    have := hWlt p (mem_selectNeighbors dist s1 W s1.M p (by rw [hsel]; exact hp))
    exact ⟨by rw [hcur]; exact Nat.lt_succ_of_lt this, Nat.ne_of_lt this⟩
  have hnew1 : s.cur_num_nodes < s1.cur_num_nodes := by rw [hcur]; exact Nat.lt_succ_self _
  obtain ⟨hfirst, hsingle⟩ := connectNeighbors_first dist s1 s.cur_num_nodes top rest hwf1 hl1
    (by rw [hM1]; exact hM) hnew1 hsellt
  have w := wiring_connectLoop dist s.cur_num_nodes (top :: rest) 0 s1 hl1 hnew1
    (fun p hp => (hsellt p hp).1)
  have hadd : add fuel dist s data label ef_construction num_initializations
      = some (true, connectNeighbors dist s1 (top :: rest) s.cur_num_nodes) := by
    unfold add
    rw [ea]
    simp only
    rw [if_pos (show s.cur_num_nodes > 0 from hne), eW]
    simp only [hsel]
  refine ⟨_, hadd, ?_, ⟨0, hM, ?_⟩, ?_⟩
  · exact w.frame.header.cur.trans hcur
  · rw [hfirst]
    exact Nat.ne_of_lt (hWlt top (mem_selectNeighbors dist s1 W s1.M top
      (by rw [hsel]; exact List.mem_cons_self _ _)))
  · intro hN hM2
    have htop0 : top.2 = 0 := by
      have := hWlt top (mem_selectNeighbors dist s1 W s1.M top
        (by rw [hsel]; exact List.mem_cons_self _ _))
      rw [hN] at this
      exact Nat.lt_one_iff.mp this
    have hWlen : W.length ≤ 1 := by
      have := nodup_length_le (W.map Prod.snd) s.cur_num_nodes hWnd (by
        intro x hx
        obtain ⟨p, hp, rfl⟩ := List.mem_map.mp hx
        exact hWlt p hp)
      rw [hN] at this
      simpa using this
    have hselW : selectNeighbors dist s1 W s1.M = W := by
      unfold selectNeighbors
      rw [if_pos (by rw [hM1, hM2]; omega)]
    have hrest : rest = [] := by
      rw [hselW] at hsel
      rw [hsel] at hWlen
      simp only [List.length_cons] at hWlen
      exact List.length_eq_zero.mp (by omega)
    have key : linkAt (connectNeighbors dist s1 (top :: rest) s.cur_num_nodes)
          s.cur_num_nodes 0 = 0
        ∧ linkAt (connectNeighbors dist s1 (top :: rest) s.cur_num_nodes)
          s.cur_num_nodes 1 = s.cur_num_nodes := by
      refine ⟨by rw [hfirst, htop0], ?_⟩
      rw [hsingle hrest 1 (le_refl 1)]
      unfold linkAt getNodeLinks
      rw [hnode, hM2]
      rfl
    rw [hN] at key ⊢
    exact key

theorem chain3r_built : Built sampleDist chain3r := by
  have h0 : Built sampleDist chain0 :=
    Built.new 4 1 4 (blankArena 4 1) (by decide) (by decide) (by decide)
  have h1 : Built sampleDist chain1 :=
    Built.add chain0 4 (vec [1, 0]) 7 8 100 false chain1 h0 (by decide) (by decide) (by decide)
  have h2 : Built sampleDist chain2 :=
    Built.add chain1 4 (vec [0, 1]) 8 8 100 true chain2 h1 (by decide) (by decide) (by decide)
  have h3 : Built sampleDist chain3 :=
    Built.add chain2 4 (vec [2, 0]) 9 8 100 true chain3 h2 (by decide) (by decide) (by decide)
  exact Built.relabel chain3 3 [2, 0, 1] chain3r h3 ⟨by decide, by decide, by decide⟩ (by decide)

theorem built_links_in_range_witness :
    Built sampleDist chain3r
      ∧ ∀ n, n < chain3r.cur_num_nodes → ∀ m, m < chain3r.M →
        linkAt chain3r n m < chain3r.cur_num_nodes :=
  ⟨chain3r_built, built_links_in_range sampleDist chain3r chain3r_built⟩

theorem pair1_wf : pair1.WF :=
  ⟨by decide, by decide, by decide⟩

theorem pair1_linksInRange : LinksInRange pair1 := by
  unfold LinksInRange; decide

/-- Scenarios 1 and 2 of the spec, evaluated. -/
theorem add_two_points :
    add 4 sampleDist sampleEmpty (vec [1, 0]) 7 8 100 = some (false, pair1)
      ∧ add 4 sampleDist pair1 (vec [0, 1]) 3 8 100 = some (true, pair2)
      ∧ getNodeLinks pair2 1 = [0, 1] := by
  decide

theorem add_links_new_node_witness :
    pair1.WF ∧ LinksInRange pair1 ∧ 1 ≤ pair1.M ∧ 1 ≤ 8 ∧ 1 ≤ 100 ∧ 1 ≤ pair1.cur_num_nodes
      ∧ pair1.cur_num_nodes < pair1.max_node_count ∧ pair1.cur_num_nodes < 4
      ∧ ∃ s', add 4 sampleDist pair1 (vec [0, 1]) 3 8 100 = some (true, s')
        ∧ s'.cur_num_nodes = pair1.cur_num_nodes + 1
        ∧ (∃ m, m < pair1.M ∧ linkAt s' pair1.cur_num_nodes m ≠ pair1.cur_num_nodes)
        ∧ (pair1.cur_num_nodes = 1 → pair1.M = 2 → linkAt s' 1 0 = 0 ∧ linkAt s' 1 1 = 1) :=
  ⟨pair1_wf, pair1_linksInRange, by decide, by decide, by decide, by decide, by decide,
    by decide,
    add_links_new_node 4 sampleDist pair1 (vec [0, 1]) 3 8 100 pair1_wf pair1_linksInRange
      (by decide) (by decide) (by decide) (by decide) (by decide) (by decide)⟩

/-! ## Serialization -/

theorem length_leBytes (k : Nat) : ∀ v : Nat, (leBytes k v).length = k := by
  induction k with
  | zero => intro v; rfl
  | succ k ih => intro v; simp [leBytes, ih]

theorem leValue_leBytes (k : Nat) : ∀ v : Nat, v < 256 ^ k → leValue (leBytes k v) = v := by
  induction k with
  | zero => intro v hv; simp at hv; simp [leBytes, leValue, hv]
  | succ k ih =>
    intro v hv
    simp only [leBytes, leValue]
    rw [ih (v / 256) (by
      rw [Nat.div_lt_iff_lt_mul (by norm_num)]
      rw [pow_succ] at hv
      exact hv)]
    omega

theorem streamRead_append (k : Nat) (dest b rest : List Nat) (h : b.length = k) :
    streamRead k dest { bytes := b ++ rest, fail := false }
      = (b, { bytes := rest, fail := false }) := by
  unfold streamRead
  have h1 : k ≤ (b ++ rest).length := by
    rw [List.length_append]; omega
  simp only [Bool.false_eq_true, if_false]
  rw [if_pos h1, ← h, List.take_left, List.drop_left]

theorem readU64_writeU64 (old v : Nat) (rest : List Nat) (hv : v < 2 ^ 64) :
    readU64 old { bytes := writeU64 v ++ rest, fail := false }
      = (v, { bytes := rest, fail := false }) := by
  unfold readU64 writeU64
  rw [streamRead_append 8 _ _ rest (length_leBytes 8 v)]
  simp only
  rw [leValue_leBytes 8 v (by norm_num; exact hv)]

theorem readI32_DISTANCE_ID (junk : Int) (rest : List Nat) :
    readI32 junk { bytes := writeI32 DISTANCE_ID ++ rest, fail := false }
      = (DISTANCE_ID, { bytes := rest, fail := false }) := by
  unfold readI32
  rw [streamRead_append 4 _ _ rest (by unfold writeI32; exact length_leBytes 4 _)]
  have hv : leValue (writeI32 DISTANCE_ID) = 1 := by decide
  simp only [hv]
  norm_num [DISTANCE_ID]

theorem deserializeImpl_header (d0 : InnerProductDistance) (junk : Int) (dim : Nat)
    (rest : List Nat) (hdim : dim < 2 ^ 64) :
    deserializeImpl d0 junk { bytes := writeI32 DISTANCE_ID ++ writeU64 dim ++ rest, fail := false }
      = LoadResult.ok ({ dimension := dim, data_size_bytes := (dim * 4) % 2 ^ 64 },
          { bytes := rest, fail := false }) := by
  unfold deserializeImpl
  rw [List.append_assoc, readI32_DISTANCE_ID]
  simp only [ne_eq, not_true_eq_false, if_false]
  rw [readU64_writeU64 _ dim rest hdim]

/-- What `deserialize` does on a stream made of a complete header followed by
`rest`. -/
theorem deserialize_header (L : Nat) (d0 : InnerProductDistance) (s0 : Index) (junk : Int)
    (mem : List Nat) (dim D S cap cur M : Nat)
    (rest : List Nat) (hdim : dim < 2 ^ 64) (hD : D < 2 ^ 64) (hS : S < 2 ^ 64)
    (hcap : cap < 2 ^ 64) (hcur : cur < 2 ^ 64) (hM : M < 2 ^ 64) :
    deserialize L d0 s0 junk mem { bytes := headerBytes dim D S cap cur M ++ rest, fail := false }
      = if D ≠ (dim * 4) % 2 ^ 64 then LoadResult.error LoadError.dataSizeMismatch
        else if S ≠ (D + 4 * M + L) % 2 ^ 64 then LoadResult.error LoadError.nodeSizeMismatch
        else
          LoadResult.ok ({ dimension := dim, data_size_bytes := (dim * 4) % 2 ^ 64 },
            { M := M, data_size_bytes := D, node_size_bytes := S, max_node_count := cap,
              cur_num_nodes := cur
              index_memory := arenaOfBytes D M L S cap
                (streamRead ((S * cap) % 2 ^ 64) mem { bytes := rest, fail := false }).1 }) := by
  have h0 : headerBytes dim D S cap cur M ++ rest = writeI32 DISTANCE_ID ++ writeU64 dim ++
      (writeU64 D ++ (writeU64 S ++ (writeU64 cap ++ (writeU64 cur ++ (writeU64 M ++ rest))))) := by
    unfold headerBytes
    simp only [List.append_assoc]
  rw [h0, deserialize, deserializeImpl_header d0 junk dim _ hdim]
  simp only
  rw [readU64_writeU64 _ D _ hD]
  simp only
  rw [readU64_writeU64 _ S _ hS]
  simp only
  rw [readU64_writeU64 _ cap _ hcap]
  simp only
  rw [readU64_writeU64 _ cur _ hcur]
  simp only
  rw [readU64_writeU64 _ M _ hM]
  simp only [dataSizeImpl]

/-- The three outcomes of the load-time validation, evaluated: a stream whose
data size does not fit the dimension, one whose node size does not fit `M`, and
a consistent one. -/
theorem deserialize_samples :
    deserialize 1 (InnerProductDistance.new 5) sampleEmpty 0 []
        { bytes := headerBytes 2 12 17 2 2 2 ++ arenaBytes 1 tinyIndex, fail := false }
        = LoadResult.error LoadError.dataSizeMismatch
      ∧ deserialize 1 (InnerProductDistance.new 5) sampleEmpty 0 []
          { bytes := headerBytes 2 8 21 2 2 2 ++ arenaBytes 1 tinyIndex, fail := false }
        = LoadResult.error LoadError.nodeSizeMismatch
      ∧ deserialize 1 (InnerProductDistance.new 5) sampleEmpty 0 []
          { bytes := headerBytes 2 8 17 2 2 2 ++ arenaBytes 1 tinyIndex, fail := false }
        = LoadResult.ok (InnerProductDistance.new 2, tinyIndex) := by
  decide

/-- A stream that ends early is not an error of its own: the stream is never
tested.  Cut after the header, the stream of `tinyIndex` is accepted and the
arena keeps the content `mem` of the fresh allocation; cut inside the header
(after the data size), the members not reached keep the values of the index
that is being loaded into, here `tinyIndex`, and the input is accepted too. -/
theorem deserialize_truncated :
    deserialize 1 (InnerProductDistance.new 5) sampleEmpty 0 (arenaBytes 1 tinyIndex)
        { bytes := headerBytes 2 8 17 2 2 2, fail := false }
        = LoadResult.ok (InnerProductDistance.new 2, tinyIndex)
      ∧ deserialize 1 (InnerProductDistance.new 5) tinyIndex 0 (arenaBytes 1 tinyIndex)
          { bytes := (headerBytes 2 8 17 2 2 2).take 20, fail := false }
        = LoadResult.ok (InnerProductDistance.new 2, tinyIndex) := by
  decide

theorem length_linkBytes (ls : List Nat) : ((ls.map (leBytes 4)).flatten).length = 4 * ls.length := by
  induction ls with
  | nil => rfl
  | cons l ls ih =>
    simp only [List.map_cons, List.flatten_cons, List.length_append, length_leBytes, ih,
      List.length_cons]
    omega

theorem length_nodeBytes (L : Nat) (r : Node) :
    (nodeBytes L r).length = r.data.length + 4 * r.links.length + L := by
  unfold nodeBytes
  rw [List.length_append, List.length_append, length_linkBytes, length_leBytes]

/-- The four bytes at offset `4 * i` of the bytes of a link array hold link
`i`. -/
theorem linkBytes_at (ls : List Nat) (tail : List Nat) (hlt : ∀ l ∈ ls, l < 2 ^ 32) :
    ∀ i : Nat, i < ls.length →
      leValue ((((ls.map (leBytes 4)).flatten ++ tail).drop (4 * i)).take 4) = ls.getD i 0 := by
  induction ls with
  | nil => intro i hi; simp at hi
  | cons l ls ih =>
    intro i hi
    cases i with
    | zero =>
      simp only [List.map_cons, List.flatten_cons, Nat.mul_zero, List.drop_zero,
        List.append_assoc]
      rw [List.take_left' (length_leBytes 4 l)]
      rw [leValue_leBytes 4 l (by
        have := hlt l (List.mem_cons_self _ _)
        norm_num at this ⊢
        exact this)]
      rfl
    | succ i =>
      simp only [List.map_cons, List.flatten_cons, List.append_assoc]
      have h4 : 4 * (i + 1) = (leBytes 4 l).length + 4 * i := by
        rw [length_leBytes]; omega
      rw [h4, List.drop_append]
      rw [ih (fun x hx => hlt x (List.mem_cons_of_mem _ hx)) i
        (by simp only [List.length_cons] at hi; omega)]
      rfl

/-- The typed view of the bytes of a record is the record. -/
theorem nodeOfBytes_nodeBytes (D M L : Nat) (r : Node) (tail : List Nat)
    (hd : r.data.length = D) (hl : r.links.length = M) (hlt : ∀ l ∈ r.links, l < 2 ^ 32)
    (hlab : r.label < 256 ^ L) : nodeOfBytes D M L (nodeBytes L r ++ tail) = r := by
  cases r with
  | mk data links label =>
    simp only at hd hl hlt hlab
    unfold nodeOfBytes nodeBytes
    simp only [List.append_assoc]
    congr 1
    · rw [← hd, List.take_left]
    · apply List.ext_getElem
      · simp [hl]
      · intro i h1 h2
        simp only [List.getElem_map, List.getElem_range]
        have hD : D + 4 * i = data.length + 4 * i := by rw [hd]
        rw [hD, List.drop_append]
        have := linkBytes_at links (leBytes L label ++ tail) hlt i h2
        rw [this, List.getD_eq_getElem?_getD, List.getElem?_eq_getElem h2]
        rfl
    · have hD : D + 4 * M = data.length + ((links.map (leBytes 4)).flatten).length := by
        rw [hd, length_linkBytes, hl]
      rw [hD, List.drop_append, List.drop_left, List.take_left' (length_leBytes L label)]
      exact leValue_leBytes L label hlab

/-- Dropping `n` whole records from the byte image of a list of records. -/
theorem drop_arena (L S : Nat) (ns : List Node)
    (hlen : ∀ r ∈ ns, (nodeBytes L r).length = S) :
    ∀ n : Nat, ((ns.map (nodeBytes L)).flatten).drop (n * S)
      = ((ns.drop n).map (nodeBytes L)).flatten := by
  induction ns with
  | nil => intro n; simp
  | cons r rs ih =>
    intro n
    cases n with
    | zero => simp
    | succ n =>
      simp only [List.map_cons, List.flatten_cons, List.drop_succ_cons]
      have h : (n + 1) * S = (nodeBytes L r).length + n * S := by
        rw [hlen r (List.mem_cons_self _ _)]; ring
      rw [h, List.drop_append]
      exact ih (fun x hx => hlen x (List.mem_cons_of_mem _ hx)) n

/-- The typed view of the byte image of the arena is the arena. -/
theorem arenaOfBytes_arenaBytes (L : Nat) (d : InnerProductDistance) (s : Index)
    (h : Storable L d s) :
    arenaOfBytes s.data_size_bytes s.M L s.node_size_bytes s.max_node_count (arenaBytes L s)
      = s.index_memory := by
  have hlen : ∀ r ∈ s.index_memory, (nodeBytes L r).length = s.node_size_bytes := by
    intro r hr
    rw [length_nodeBytes, h.data_length r hr, h.links_length r hr, h.node_size]
  unfold arenaOfBytes arenaBytes
  apply List.ext_getElem
  · simp [h.length_eq]
  · intro n h1 h2
    simp only [List.getElem_map, List.getElem_range]
    rw [drop_arena L s.node_size_bytes s.index_memory hlen n]
    have hdrop : s.index_memory.drop n = s.index_memory[n] :: s.index_memory.drop (n + 1) :=
      List.drop_eq_getElem_cons h2
    rw [hdrop, List.map_cons, List.flatten_cons]
    have hmem : s.index_memory[n] ∈ s.index_memory := List.getElem_mem h2
    exact nodeOfBytes_nodeBytes _ _ L _ _ (h.data_length _ hmem) (h.links_length _ hmem)
      (h.links_lt _ hmem) (h.label_lt _ hmem)

theorem length_arenaBytes (L : Nat) (d : InnerProductDistance) (s : Index)
    (h : Storable L d s) :
    (arenaBytes L s).length = s.node_size_bytes * s.max_node_count := by
  have hlen : ∀ r ∈ s.index_memory, (nodeBytes L r).length = s.node_size_bytes := by
    intro r hr
    rw [length_nodeBytes, h.data_length r hr, h.links_length r hr, h.node_size]
  unfold arenaBytes
  rw [← h.length_eq]
  generalize s.index_memory = ns at hlen
  induction ns with
  | nil => simp
  | cons r rs ih =>
    simp only [List.map_cons, List.flatten_cons, List.length_append, List.length_cons]
    rw [hlen r (List.mem_cons_self _ _), ih (fun x hx => hlen x (List.mem_cons_of_mem _ hx))]
    ring

/-- Loading what `serialize` wrote gives back the distance and the index. -/
theorem deserialize_serialize (L : Nat) (d0 d : InnerProductDistance) (s0 : Index) (junk : Int)
    (mem : List Nat) (s : Index) (h : Storable L d s) :
    deserialize L d0 s0 junk mem { bytes := serialize L d s, fail := false }
      = LoadResult.ok (d, s) := by
  have hS := h.node_size
  have hSlt := h.node_size_lt
  have hD : s.data_size_bytes < 2 ^ 64 := by omega
  have hM : s.M < 2 ^ 64 := by omega
  have harena : (arenaBytes L s).take ((s.node_size_bytes * s.max_node_count) % 2 ^ 64)
      = arenaBytes L s := by
    rw [Nat.mod_eq_of_lt h.arena_lt, ← length_arenaBytes L d s h, List.take_length]
  have hser : serialize L d s
      = headerBytes d.dimension s.data_size_bytes s.node_size_bytes s.max_node_count
          s.cur_num_nodes s.M ++ arenaBytes L s := by
    unfold serialize serializeImpl headerBytes
    simp only [harena]
  rw [hser, deserialize_header L d0 s0 junk mem _ _ _ _ _ _ _ h.dimension_lt hD hSlt h.max_lt
    h.cur_lt hM]
  have h1 : ¬ (s.data_size_bytes ≠ (d.dimension * 4) % 2 ^ 64) := by
    rw [h.data_size, h.dist_size]; exact not_not.mpr rfl
  have h2 : ¬ (s.node_size_bytes ≠ (s.data_size_bytes + 4 * s.M + L) % 2 ^ 64) := by
    rw [← hS, Nat.mod_eq_of_lt hSlt]; exact not_not.mpr rfl
  rw [if_neg h1, if_neg h2]
  have hr : streamRead ((s.node_size_bytes * s.max_node_count) % 2 ^ 64) mem
      { bytes := arenaBytes L s, fail := false }
      = (arenaBytes L s, { bytes := [], fail := false }) := by
    have := streamRead_append ((s.node_size_bytes * s.max_node_count) % 2 ^ 64) mem
      (arenaBytes L s) [] (by
        rw [Nat.mod_eq_of_lt h.arena_lt, length_arenaBytes L d s h])
    rw [List.append_nil] at this
    exact this
  rw [hr]
  simp only
  rw [arenaOfBytes_arenaBytes L d s h, ← h.dist_size]

/-- C9. Round trip: for an index and its distance as the constructors and the
operations leave them, `deserialize` (into any index, whatever it held before)
applied to the bytes written by `serialize` succeeds and yields the same
distance and an index with the same `D`, `S`, capacity, count and `M` and a
byte-identical arena, indeed the same index, hence the same `search` result for
every query. -/
theorem serialize_roundtrip (L : Nat) (d0 d : InnerProductDistance) (s0 : Index) (junk : Int)
    (mem : List Nat) (s : Index) (h : Storable L d s) :
    ∃ d' s', deserialize L d0 s0 junk mem { bytes := serialize L d s, fail := false }
        = LoadResult.ok (d', s')
      ∧ s'.data_size_bytes = s.data_size_bytes ∧ s'.node_size_bytes = s.node_size_bytes
      ∧ s'.max_node_count = s.max_node_count ∧ s'.cur_num_nodes = s.cur_num_nodes
      ∧ s'.M = s.M ∧ arenaBytes L s' = arenaBytes L s
      ∧ d' = d ∧ s' = s
      ∧ ∀ (dist : InnerProductDistance → DistanceInterface) (fuel : Nat) (query : Data)
          (num_results ef_search num_initializations : Nat),
          search fuel (dist d') s' query num_results ef_search num_initializations
            = search fuel (dist d) s query num_results ef_search num_initializations :=
  ⟨d, s, deserialize_serialize L d0 d s0 junk mem s h, rfl, rfl, rfl, rfl, rfl, rfl, rfl, rfl,
    fun _ _ _ _ _ _ => rfl⟩

theorem tinyIndex_storable : Storable 1 (InnerProductDistance.new 2) tinyIndex :=
  ⟨by decide, by decide, by decide, by decide, by decide, by decide, by decide, by decide,
    by decide, by decide, by decide, by decide, by decide⟩

theorem serialize_roundtrip_witness :
    Storable 1 (InnerProductDistance.new 2) tinyIndex
      ∧ ∃ d' s', deserialize 1 (InnerProductDistance.new 5) sampleEmpty 0 []
            { bytes := serialize 1 (InnerProductDistance.new 2) tinyIndex, fail := false }
          = LoadResult.ok (d', s')
        ∧ s'.data_size_bytes = tinyIndex.data_size_bytes
        ∧ s'.node_size_bytes = tinyIndex.node_size_bytes
        ∧ s'.max_node_count = tinyIndex.max_node_count
        ∧ s'.cur_num_nodes = tinyIndex.cur_num_nodes
        ∧ s'.M = tinyIndex.M ∧ arenaBytes 1 s' = arenaBytes 1 tinyIndex
        ∧ d' = InnerProductDistance.new 2 ∧ s' = tinyIndex
        ∧ ∀ (dist : InnerProductDistance → DistanceInterface) (fuel : Nat) (query : Data)
            (num_results ef_search num_initializations : Nat),
            search fuel (dist d') s' query num_results ef_search num_initializations
              = search fuel (dist (InnerProductDistance.new 2)) tinyIndex query
                  num_results ef_search num_initializations :=
  ⟨tinyIndex_storable,
    serialize_roundtrip 1 (InnerProductDistance.new 5) (InnerProductDistance.new 2) sampleEmpty
      0 [] tinyIndex tinyIndex_storable⟩

/-! ## The size of the heap of `beamSearch` -/

theorem pairLt_false_trans (x y z : dist_node_t) (h1 : pairLt y x = true)
    (h2 : pairLt y z = false) : pairLt x z = false := by
  obtain ⟨x1, x2⟩ := x
  obtain ⟨y1, y2⟩ := y
  obtain ⟨z1, z2⟩ := z
  simp only [pairLt, Bool.or_eq_true, Bool.and_eq_true, decide_eq_true_eq, Bool.or_eq_false_iff,
    Bool.and_eq_false_iff, decide_eq_false_iff_not] at h1 h2 ⊢
  have hx2 : (x2 : Nat) = x2 := rfl
  have ha : ∀ a b : Nat, ¬ a < b ↔ b ≤ a := fun a b => Nat.not_lt
  rcases h1 with h1 | ⟨h1, h1'⟩
  · refine ⟨by omega, ?_⟩
    left; omega
  · obtain ⟨h2a, h2b⟩ := h2
    refine ⟨by omega, ?_⟩
    rcases h2b with h2b | h2b
    · left; omega
    · by_cases hxz : x1 = z1
      · right
        have : ¬ (y2 : Nat) < z2 := h2b
        have h3 : (y2 : Nat) < x2 := h1'
        intro h4
        have h5 : (x2 : Nat) < z2 := h4
        exact this (Nat.lt_trans h3 h5)
      · left; exact hxz

theorem emplace_sorted (x : dist_node_t) (q : PriorityQueue)
    (h : q.Pairwise (fun a b => pairLt a b = false)) :
    (emplace q x).Pairwise (fun a b => pairLt a b = false) := by
  induction q with
  | nil => simp [emplace]
  | cons y ys ih =>
    unfold emplace
    rw [List.pairwise_cons] at h
    by_cases hyx : pairLt y x = true
    · rw [if_pos hyx]
      refine List.pairwise_cons.mpr ⟨?_, List.pairwise_cons.mpr h⟩
      intro z hz
      rcases List.mem_cons.mp hz with hzy | hz
      · rw [hzy]
        exact pairLt_false_trans x y y hyx (by
          obtain ⟨y1, y2⟩ := y
          simp [pairLt])
      · exact pairLt_false_trans x y z hyx (h.1 z hz)
    · rw [if_neg hyx]
      refine List.pairwise_cons.mpr ⟨?_, ih h.2⟩
      intro z hz
      rcases (mem_emplace _ _ _).mp hz with hzx | hz
      · rw [hzx]; simpa using hyx
      · exact h.1 z hz

/-- In a descending heap the top has the largest distance. -/
theorem sorted_head_max (top : dist_node_t) (rest : PriorityQueue)
    (h : (top :: rest).Pairwise (fun a b => pairLt a b = false)) :
    ∀ p ∈ top :: rest, p.1 ≤ top.1 := by
  intro p hp
  rcases List.mem_cons.mp hp with hpt | hp
  · rw [hpt]
  · have := (List.pairwise_cons.mp h).1 p hp
    obtain ⟨t1, t2⟩ := top
    obtain ⟨p1, p2⟩ := p
    simp only [pairLt, Bool.or_eq_false_iff, decide_eq_false_iff_not] at this
    simp only
    omega

theorem expanded_mono (s : Index) (st st' : BeamState) (v : Nat)
    (hsub : ∀ u ∈ st.visited, u ∈ st'.visited) (h : Expanded s st v) : Expanded s st' v :=
  fun m hm => hsub _ (h m hm)

/-- One step of the `for` loop of `beamSearch` keeps the tracking invariant,
and leaves the link value visited. -/
theorem beamVisit_track (dist : DistanceInterface) (s : Index) (query : Data) (B e : Nat)
    (busy : Nat → Prop) (st : BeamState) (v : Nat) (h : BeamTrack s e B busy st)
    (hv : Reachable s e v) :
    BeamTrack s e B busy (beamVisit dist s query B st v)
      ∧ v ∈ (beamVisit dist s query B st v).visited
      ∧ (∀ u ∈ st.visited, u ∈ (beamVisit dist s query B st v).visited) := by
  unfold beamVisit
  by_cases hvis : v ∈ st.visited
  · rw [if_pos hvis]
    exact ⟨h, hvis, fun u hu => hu⟩
  · rw [if_neg hvis]
    simp only
    have hreach : ∀ u ∈ v :: st.visited, Reachable s e u := by
      intro u hu
      rcases List.mem_cons.mp hu with huv | hu
      · rw [huv]; exact hv
      · exact h.vis_reach u hu
    split
    · next hpush =>
      -- the node enters both heaps
      obtain ⟨d, hd⟩ : ∃ d, d = dist.distance query (getNodeData s v) := ⟨_, rfl⟩
      rw [← hd]
      obtain ⟨W1, hW1⟩ : ∃ W1, W1 = emplace st.neighbors (d, v) := ⟨_, rfl⟩
      rw [← hW1]
      have hlen1 : W1.length = st.neighbors.length + 1 := by rw [hW1, length_emplace]
      have hsorted1 : W1.Pairwise (fun a b => pairLt a b = false) := by
        rw [hW1]; exact emplace_sorted _ _ h.sorted
      obtain ⟨W', hW'⟩ : ∃ W', W' = (if W1.length > B then W1.tail else W1) := ⟨_, rfl⟩
      rw [← hW']
      have hsorted' : W'.Pairwise (fun a b => pairLt a b = false) := by
        rw [hW']
        split
        · exact hsorted1.sublist (List.tail_sublist W1)
        · exact hsorted1
      have hlen' : 1 ≤ W'.length ∧ W'.length ≤ B := by
        rw [hW']
        have := h.size_pos
        have := h.size_le
        split
        · rw [List.length_tail]; omega
        · omega
      have hsmall : W'.length < B → W' = W1 ∧ st.neighbors.length < B := by
        intro hlt
        rw [hW'] at hlt ⊢
        split
        · next hgt =>
          rw [if_pos hgt, List.length_tail] at hlt
          omega
        · next hgt =>
          rw [if_neg hgt] at hlt
          exact ⟨rfl, by omega⟩
      refine ⟨⟨hlen'.1, hlen'.2, hsorted', ?_, hreach, List.mem_cons_of_mem _ h.entry_vis,
        ?_, ?_, ?_, ?_⟩, List.mem_cons_self _ _, fun u hu => List.mem_cons_of_mem _ hu⟩
      · cases hc : W' with
        | nil => intro p hp; exact absurd hp (List.not_mem_nil p)
        | cons top rest =>
          simp only
          rw [hc] at hsorted'
          exact sorted_head_max top rest hsorted'
      · intro c hc
        rcases (mem_emplace _ _ _).mp hc with hc | hc
        · rw [hc]; exact List.mem_cons_self _ _
        · exact List.mem_cons_of_mem _ (h.cand_vis c hc)
      · intro hlt u hu
        obtain ⟨hWW, hold⟩ := hsmall hlt
        rw [hWW, hW1]
        rcases List.mem_cons.mp hu with huv | hu
        · exact ⟨d, (mem_emplace _ _ _).mpr (Or.inl (by rw [huv]))⟩
        · obtain ⟨d', hd'⟩ := h.all_kept hold u hu
          exact ⟨d', (mem_emplace _ _ _).mpr (Or.inr hd')⟩
      · intro hlt u hu
        obtain ⟨_, hold⟩ := hsmall hlt
        rcases List.mem_cons.mp hu with huv | hu
        · exact Or.inr (Or.inl ⟨-d, (mem_emplace _ _ _).mpr (Or.inl (by rw [huv]))⟩)
        · rcases h.pending hold u hu with h1 | ⟨d', hd'⟩ | h1
          · exact Or.inl h1
          · exact Or.inr (Or.inl ⟨d', (mem_emplace _ _ _).mpr (Or.inr hd')⟩)
          · exact Or.inr (Or.inr (fun m hm => List.mem_cons_of_mem _ (h1 m hm)))
      · intro hlt c hc
        obtain ⟨hWW, hold⟩ := hsmall hlt
        rw [hWW, hW1]
        rcases (mem_emplace _ _ _).mp hc with hc | hc
        · rw [hc]
          simp only [neg_neg]
          exact (mem_emplace _ _ _).mpr (Or.inl rfl)
        · exact (mem_emplace _ _ _).mpr (Or.inr (h.cand_kept hold c hc))
    · next hpush =>
      have hfull : ¬ st.neighbors.length < B := by
        intro hlt
        apply hpush
        simp [hlt]
      refine ⟨⟨h.size_pos, h.size_le, h.sorted, h.max_ok, hreach,
        List.mem_cons_of_mem _ h.entry_vis, ?_, ?_, ?_, ?_⟩, List.mem_cons_self _ _,
        fun u hu => List.mem_cons_of_mem _ hu⟩
      · intro c hc; exact List.mem_cons_of_mem _ (h.cand_vis c hc)
      · intro hlt; exact absurd hlt hfull
      · intro hlt; exact absurd hlt hfull
      · intro hlt; exact absurd hlt hfull

/-- The `for` loop of `beamSearch` over the link slots `is` of a reachable
node `c` keeps the tracking invariant and visits these links. -/
theorem beamVisit_fold_track (dist : DistanceInterface) (s : Index) (query : Data) (B e : Nat)
    (busy : Nat → Prop) (c : Nat) (hc : Reachable s e c) (is : List Nat)
    (hlt : ∀ i ∈ is, i < s.M) :
    ∀ st : BeamState, BeamTrack s e B busy st →
      BeamTrack s e B busy
        (is.foldl (fun st i => beamVisit dist s query B st (linkAt s c i)) st)
      ∧ (∀ i ∈ is, linkAt s c i
          ∈ (is.foldl (fun st i => beamVisit dist s query B st (linkAt s c i)) st).visited)
      ∧ (∀ u ∈ st.visited,
          u ∈ (is.foldl (fun st i => beamVisit dist s query B st (linkAt s c i)) st).visited) := by
  induction is with
  | nil => intro st h; exact ⟨h, fun i hi => absurd hi (List.not_mem_nil i), fun u hu => hu⟩
  | cons i is ih =>
    intro st h
    simp only [List.foldl_cons]
    obtain ⟨h1, hv1, hsub1⟩ := beamVisit_track dist s query B e busy st (linkAt s c i) h
      (Reachable.link c i hc (hlt i (List.mem_cons_self _ _)))
    obtain ⟨h2, hv2, hsub2⟩ := ih (fun j hj => hlt j (List.mem_cons_of_mem _ hj)) _ h1
    refine ⟨h2, ?_, fun u hu => hsub2 u (hsub1 u hu)⟩
    intro j hj
    rcases List.mem_cons.mp hj with hji | hj
    · rw [hji]; exact hsub2 _ hv1
    · exact hv2 j hj

/-- With fuel above the termination measure, the `while` loop of `beamSearch`
returns the result heap of a state that satisfies the invariants and in which
the candidate heap is empty or its top is farther than `max_dist`. -/
theorem beamLoop_track (dist : DistanceInterface) (s : Index) (query : Data) (B N e : Nat)
    (hlinks : LinksBelow s N) (fuel : Nat) :
    ∀ st : BeamState, BeamInv N st → BeamTrack s e B (fun _ => False) st →
      beamMeasure N st < fuel →
      ∃ st' : BeamState, beamLoop dist s query B fuel st = some st'.neighbors
        ∧ BeamInv N st' ∧ BeamTrack s e B (fun _ => False) st'
        ∧ (st'.candidates = []
          ∨ ∃ c rest, st'.candidates = c :: rest ∧ -c.1 > st'.max_dist) := by
  induction fuel with
  | zero => intro st _ _ hf; omega
  | succ fuel ih =>
    intro st h ht hf
    unfold beamLoop
    cases hc : st.candidates with
    | nil => exact ⟨st, rfl, h, ht, Or.inl hc⟩
    | cons d_node rest =>
      simp only
      by_cases hbreak : -d_node.1 > st.max_dist
      · rw [if_pos hbreak]
        exact ⟨st, rfl, h, ht, Or.inr ⟨d_node, rest, hc, hbreak⟩⟩
      · rw [if_neg hbreak]
        have hmem : d_node ∈ st.candidates := by rw [hc]; exact List.mem_cons_self _ _
        have hd : d_node.2 < N := h.cand_lt d_node hmem
        have hreach : Reachable s e d_node.2 := ht.vis_reach _ (ht.cand_vis d_node hmem)
        have h0 : BeamInv N { st with candidates := rest } :=
          ⟨fun p hp => h.cand_lt p (by rw [hc]; exact List.mem_cons_of_mem _ hp),
            h.vis_lt, h.vis_nodup, h.nbr_vis, h.nbr_nodup⟩
        have m0 : beamMeasure N { st with candidates := rest } + 1 = beamMeasure N st := by
          unfold beamMeasure
          simp only [hc, List.length_cons]
          omega
        have t0 : BeamTrack s e B (fun u => u = d_node.2) { st with candidates := rest } := by
          refine ⟨ht.size_pos, ht.size_le, ht.sorted, ht.max_ok, ht.vis_reach, ht.entry_vis,
            ?_, ht.all_kept, ?_, ?_⟩
          · intro c hcm
            exact ht.cand_vis c (by rw [hc]; exact List.mem_cons_of_mem _ hcm)
          · intro hlt u hu
            rcases ht.pending hlt u hu with h1 | ⟨d', hd'⟩ | h1
            · exact absurd h1 not_false
            · rw [hc] at hd'
              rcases List.mem_cons.mp hd' with h2 | h2
              · left
                rw [← h2]
              · exact Or.inr (Or.inl ⟨d', h2⟩)
            · exact Or.inr (Or.inr h1)
          · intro hlt c hcm
            exact ht.cand_kept hlt c (by rw [hc]; exact List.mem_cons_of_mem _ hcm)
        obtain ⟨h1, m1⟩ := beamExpand_inv dist s query B N hlinks d_node.2 hd _ h0
        obtain ⟨t1, hvis1, hsub1⟩ := beamVisit_fold_track dist s query B e
          (fun u => u = d_node.2) d_node.2 hreach (List.range s.M)
          (fun i hi => List.mem_range.mp hi) _ t0
        have t2 : BeamTrack s e B (fun _ => False)
            (beamExpand dist s query B d_node.2 { st with candidates := rest }) := by
          unfold beamExpand
          refine ⟨t1.size_pos, t1.size_le, t1.sorted, t1.max_ok, t1.vis_reach, t1.entry_vis,
            t1.cand_vis, t1.all_kept, ?_, t1.cand_kept⟩
          intro hlt u hu
          rcases t1.pending hlt u hu with h2 | h2 | h2
          · right; right
            intro m hm
            rw [h2]
            exact hvis1 m (List.mem_range.mpr hm)
          · exact Or.inr (Or.inl h2)
          · exact Or.inr (Or.inr h2)
        exact ih _ h1 t2 (by omega)

theorem nodup_subset_length_le (l₁ l₂ : List Nat) (hnd : l₁.Nodup) (hsub : ∀ x ∈ l₁, x ∈ l₂) :
    l₁.length ≤ l₂.length :=
  (List.subperm_of_subset hnd hsub).length_le

/-- The size of the heap returned by `beamSearch`: when the nodes below `N`
only link to nodes below `N`, from an entry node below `N`, with buffer size
`B ≥ 1` and more than `N` units of fuel, `beamSearch` returns a heap of exactly
`min(B, R)` entries, `R` being the number of nodes reachable from the entry
node (the length of any duplicate-free list `R` of these nodes). -/
theorem beamSearch_length (fuel : Nat) (dist : DistanceInterface) (s : Index) (query : Data)
    (entry : Nat) (B N : Nat) (hB : 1 ≤ B) (hlinks : LinksBelow s N) (he : entry < N)
    (hfuel : N < fuel) :
    ∃ W : PriorityQueue, beamSearch fuel dist s query entry B = some W
      ∧ (∀ p ∈ W, p.2 < N) ∧ (W.map Prod.snd).Nodup
      ∧ (∀ p ∈ W, Reachable s entry p.2)
      ∧ ∀ R : List Nat, R.Nodup → (∀ n, n ∈ R ↔ Reachable s entry n) →
          W.length = min B R.length := by
  obtain ⟨d, hd⟩ : ∃ d, d = dist.distance query (getNodeData s entry) := ⟨_, rfl⟩
  have hinit : BeamInv N
      { visited := [entry], candidates := [(-d, entry)], neighbors := [(d, entry)],
        max_dist := d } := by
    refine ⟨?_, ?_, List.nodup_singleton _, ?_, ?_⟩
    · intro p hp; rw [List.mem_singleton.mp hp]; exact he
    · intro v hv; rw [List.mem_singleton.mp hv]; exact he
    · intro p hp; rw [List.mem_singleton.mp hp]; exact List.mem_singleton.mpr rfl
    · simp
  have tinit : BeamTrack s entry B (fun _ => False)
      { visited := [entry], candidates := [(-d, entry)], neighbors := [(d, entry)],
        max_dist := d } := by
    refine ⟨by simp, by simpa using hB, by simp, ?_, ?_, List.mem_singleton.mpr rfl, ?_, ?_, ?_,
      ?_⟩
    · intro p hp; rw [List.mem_singleton.mp hp]
    · intro v hv; rw [List.mem_singleton.mp hv]; exact Reachable.entry
    · intro c hc; rw [List.mem_singleton.mp hc]; exact List.mem_singleton.mpr rfl
    · intro _ v hv
      rw [List.mem_singleton.mp hv]
      exact ⟨d, List.mem_singleton.mpr rfl⟩
    · intro _ v hv
      rw [List.mem_singleton.mp hv]
      exact Or.inr (Or.inl ⟨-d, List.mem_singleton.mpr rfl⟩)
    · intro _ c hc
      rw [List.mem_singleton.mp hc]
      simp
  obtain ⟨st', e', h', t', hexit⟩ := beamLoop_track dist s query B N entry hlinks fuel _ hinit
    tinit (by unfold beamMeasure; simp only [List.length_singleton]; omega)
  have hW : beamSearch fuel dist s query entry B = some st'.neighbors := by
    unfold beamSearch
    simp only [← hd]
    exact e'
  refine ⟨st'.neighbors, hW, fun p hp => h'.vis_lt _ (h'.nbr_vis p hp), h'.nbr_nodup,
    fun p hp => t'.vis_reach _ (h'.nbr_vis p hp), ?_⟩
  intro R hRnd hR
  have hlenW : st'.neighbors.length = (st'.neighbors.map Prod.snd).length := by simp
  have hle : st'.neighbors.length ≤ R.length := by
    rw [hlenW]
    apply nodup_subset_length_le _ _ h'.nbr_nodup
    intro x hx
    obtain ⟨p, hp, rfl⟩ := List.mem_map.mp hx
    exact (hR _).mpr (t'.vis_reach _ (h'.nbr_vis p hp))
  by_cases hfull : st'.neighbors.length < B
  · -- never full: the loop ran until the candidates were exhausted
    have hempty : st'.candidates = [] := by
      rcases hexit with h1 | ⟨c, rest, hc, hgt⟩
      · exact h1
      · have hmem : c ∈ st'.candidates := by rw [hc]; exact List.mem_cons_self _ _
        have := t'.max_ok _ (t'.cand_kept hfull c hmem)
        simp only at this
        omega
    have hexp : ∀ v ∈ st'.visited, Expanded s st' v := by
      intro v hv
      rcases t'.pending hfull v hv with h1 | ⟨d', hd'⟩ | h1
      · exact absurd h1 not_false
      · rw [hempty] at hd'
        exact absurd hd' (List.not_mem_nil _)
      · exact h1
    have hclosed : ∀ n, Reachable s entry n → n ∈ st'.visited := by
      intro n hn
      induction hn with
      | entry => exact t'.entry_vis
      | link n m _ hm ih => exact hexp n ih m hm
    have hge : R.length ≤ st'.neighbors.length := by
      rw [hlenW]
      apply nodup_subset_length_le _ _ hRnd
      intro x hx
      obtain ⟨d', hd'⟩ := t'.all_kept hfull x (hclosed x ((hR x).mp hx))
      exact List.mem_map.mpr ⟨(d', x), hd', rfl⟩
    omega
  · have := t'.size_le
    omega

theorem reachable_lt (s : Index) (e N : Nat) (hlinks : LinksBelow s N) (he : e < N) (n : Nat)
    (h : Reachable s e n) : n < N := by
  induction h with
  | entry => exact he
  | link n m _ hm ih => exact hlinks n ih m hm

/-- The nodes reachable from a node below `N` can be listed without
repetition. -/
theorem exists_reachable_list (s : Index) (e N : Nat) (hlinks : LinksBelow s N) (he : e < N) :
    ∃ R : List Nat, R.Nodup ∧ (∀ n, n ∈ R ↔ Reachable s e n) ∧ 1 ≤ R.length ∧ R.length ≤ N := by
  classical
  have hnd : ((List.range N).filter (fun n => decide (Reachable s e n))).Nodup :=
    List.Nodup.filter _ (List.nodup_range N)
  have hmem : ∀ n, n ∈ (List.range N).filter (fun n => decide (Reachable s e n))
      ↔ Reachable s e n := by
    intro n
    rw [List.mem_filter]
    constructor
    · intro h; simpa using h.2
    · intro h
      exact ⟨List.mem_range.mpr (reachable_lt s e N hlinks he n h), by simpa using h⟩
  refine ⟨_, hnd, hmem, ?_, ?_⟩
  · have : e ∈ (List.range N).filter (fun n => decide (Reachable s e n)) :=
      (hmem e).mpr Reachable.entry
    exact List.length_pos_of_mem this
  · exact nodup_length_le _ N hnd (fun x hx =>
      reachable_lt s e N hlinks he x ((hmem x).mp hx))

/-- C3, amended. On a non-empty index with links in range, with
`1 ≤ num_results ≤ ef_search` and `k_init ≥ 1`, let `R` be the number of nodes
reachable by links from the entry node that `initializeSearch` picks
(`1 ≤ R ≤ current_node_count`).  Then `beamSearch` returns a heap of exactly
`min(ef_search, R)` entries and `search` returns a list of exactly
`min(num_results, R)` entries. -/
theorem search_length (fuel : Nat) (dist : DistanceInterface) (s : Index) (query : Data)
    (num_results ef_search num_initializations : Nat) (hne : 1 ≤ s.cur_num_nodes)
    (hlinks : LinksInRange s) (hres : 1 ≤ num_results) (hef : num_results ≤ ef_search)
    (_hinit : 1 ≤ num_initializations) (hfuel : s.cur_num_nodes < fuel) :
    ∃ (W : PriorityQueue) (r : List dist_label_t) (R : List Nat),
      beamSearch fuel dist s (dist.transformData query)
        (initializeSearch dist s (dist.transformData query) num_initializations) ef_search
        = some W
      ∧ search fuel dist s query num_results ef_search num_initializations = some r
      ∧ R.Nodup
      ∧ (∀ n, n ∈ R ↔ Reachable s
          (initializeSearch dist s (dist.transformData query) num_initializations) n)
      ∧ 1 ≤ R.length ∧ R.length ≤ s.cur_num_nodes
      ∧ W.length = min ef_search R.length
      ∧ r.length = min num_results R.length := by
  have he := initializeSearch_lt dist s (dist.transformData query) num_initializations hne
  obtain ⟨W, eW, _, _, _, hlen⟩ := beamSearch_length fuel dist s (dist.transformData query)
    (initializeSearch dist s (dist.transformData query) num_initializations) ef_search
    s.cur_num_nodes (le_trans hres hef) hlinks he hfuel
  obtain ⟨R, hRnd, hR, hR1, hRN⟩ := exists_reachable_list s _ s.cur_num_nodes hlinks he
  have hWlen := hlen R hRnd hR
  refine ⟨W, sortResults ((popDownTo num_results W).map (fun p => (p.1, getNodeLabel s p.2))),
    R, eW, ?_, hRnd, hR, hR1, hRN, hWlen, ?_⟩
  · unfold search
    simp only [eW]
  · rw [length_sortResults, List.length_map, length_popDownTo, hWlen]
    omega

theorem search_length_witness :
    1 ≤ chain3.cur_num_nodes ∧ LinksInRange chain3 ∧ 1 ≤ 3 ∧ 3 ≤ 3 ∧ 1 ≤ 100
      ∧ chain3.cur_num_nodes < 4
      ∧ ∃ (W : PriorityQueue) (r : List dist_label_t) (R : List Nat),
        beamSearch 4 sampleDist chain3 (sampleDist.transformData (vec [1, 0]))
          (initializeSearch sampleDist chain3 (sampleDist.transformData (vec [1, 0])) 100) 3
          = some W
        ∧ search 4 sampleDist chain3 (vec [1, 0]) 3 3 100 = some r
        ∧ R.Nodup
        ∧ (∀ n, n ∈ R ↔ Reachable chain3
            (initializeSearch sampleDist chain3 (sampleDist.transformData (vec [1, 0])) 100) n)
        ∧ 1 ≤ R.length ∧ R.length ≤ chain3.cur_num_nodes
        ∧ W.length = min 3 R.length
        ∧ r.length = min 3 R.length :=
  ⟨by decide, chain3_linksInRange, by decide, by decide, by decide, by decide,
    search_length 4 sampleDist chain3 (vec [1, 0]) 3 3 100 (by decide) chain3_linksInRange
      (by decide) (by decide) (by decide) (by decide)⟩

/-! ## The inner-product distance -/

/-- The rounding of `float` is visible in `distanceImpl`: for `x = y = (5000.0,
1.0)` the products are `25000000` and `1`, their sum `25000001` is not a `float`
and rounds to `25000000`, and `1 - 25000000 = -24999999` rounds to
`-25000000`. -/
theorem distanceImpl_rounding_example :
    distanceImpl (InnerProductDistance.new 2) (vec [0x459C4000, 0x3F800000])
        (vec [0x459C4000, 0x3F800000])
      = F32.finite (-(25000000 * F32.oneUnits)) := by
  decide!

/-! ## The exit test of `beamSearch` -/

theorem beamTrack_init (dist : DistanceInterface) (s : Index) (query : Data) (entry B : Nat)
    (hB : 1 ≤ B) :
    BeamTrack s entry B (fun _ => False)
      { visited := [entry],
        candidates := [(-(dist.distance query (getNodeData s entry)), entry)],
        neighbors := [(dist.distance query (getNodeData s entry), entry)],
        max_dist := dist.distance query (getNodeData s entry) } := by
  refine ⟨by simp, by simpa using hB, by simp, ?_, ?_, List.mem_singleton.mpr rfl, ?_, ?_, ?_,
    ?_⟩
  · intro p hp; rw [List.mem_singleton.mp hp]
  · intro v hv; rw [List.mem_singleton.mp hv]; exact Reachable.entry
  · intro c hc; rw [List.mem_singleton.mp hc]; exact List.mem_singleton.mpr rfl
  · intro _ v hv
    rw [List.mem_singleton.mp hv]
    exact ⟨_, List.mem_singleton.mpr rfl⟩
  · intro _ v hv
    rw [List.mem_singleton.mp hv]
    exact Or.inr (Or.inl ⟨_, List.mem_singleton.mpr rfl⟩)
  · intro _ c hc
    rw [List.mem_singleton.mp hc]
    simp

/-- One iteration of the `while` loop of `beamSearch` keeps the tracking
invariant. -/
theorem beamTrack_step (dist : DistanceInterface) (s : Index) (query : Data) (e B : Nat)
    (st : BeamState) (d_node : dist_node_t) (rest : PriorityQueue)
    (ht : BeamTrack s e B (fun _ => False) st) (hc : st.candidates = d_node :: rest) :
    BeamTrack s e B (fun _ => False)
      (beamExpand dist s query B d_node.2 { st with candidates := rest }) := by
  have hmem : d_node ∈ st.candidates := by rw [hc]; exact List.mem_cons_self _ _
  have hreach : Reachable s e d_node.2 := ht.vis_reach _ (ht.cand_vis d_node hmem)
  have t0 : BeamTrack s e B (fun u => u = d_node.2) { st with candidates := rest } := by
    refine ⟨ht.size_pos, ht.size_le, ht.sorted, ht.max_ok, ht.vis_reach, ht.entry_vis,
      ?_, ht.all_kept, ?_, ?_⟩
    · intro c hcm
      exact ht.cand_vis c (by rw [hc]; exact List.mem_cons_of_mem _ hcm)
    · intro hlt u hu
      rcases ht.pending hlt u hu with h1 | ⟨d', hd'⟩ | h1
      · exact absurd h1 not_false
      · rw [hc] at hd'
        rcases List.mem_cons.mp hd' with h2 | h2
        · left
          rw [← h2]
        · exact Or.inr (Or.inl ⟨d', h2⟩)
      · exact Or.inr (Or.inr h1)
    · intro hlt c hcm
      exact ht.cand_kept hlt c (by rw [hc]; exact List.mem_cons_of_mem _ hcm)
  obtain ⟨t1, hvis1, hsub1⟩ := beamVisit_fold_track dist s query B e
    (fun u => u = d_node.2) d_node.2 hreach (List.range s.M)
    (fun i hi => List.mem_range.mp hi) _ t0
  unfold beamExpand
  refine ⟨t1.size_pos, t1.size_le, t1.sorted, t1.max_ok, t1.vis_reach, t1.entry_vis,
    t1.cand_vis, t1.all_kept, ?_, t1.cand_kept⟩
  intro hlt u hu
  rcases t1.pending hlt u hu with h2 | h2 | h2
  · right; right
    intro m hm
    rw [h2]
    exact hvis1 m (List.mem_range.mpr hm)
  · exact Or.inr (Or.inl h2)
  · exact Or.inr (Or.inr h2)

/-- When the closest candidate is farther than `max_dist`, the result heap is
full. -/
theorem beamTrack_full (s : Index) (e B : Nat) (st : BeamState) (c : dist_node_t)
    (rest : PriorityQueue) (ht : BeamTrack s e B (fun _ => False) st)
    (hc : st.candidates = c :: rest) (hgt : -c.1 > st.max_dist) : st.neighbors.length = B := by
  by_contra hne
  have hlt : st.neighbors.length < B := lt_of_le_of_ne ht.size_le hne
  have hmem : c ∈ st.candidates := by rw [hc]; exact List.mem_cons_self _ _
  have := ht.max_ok _ (ht.cand_kept hlt c hmem)
  simp only at this
  omega

theorem beamLoopSpec_eq (dist : DistanceInterface) (s : Index) (query : Data) (e B : Nat)
    (fuel : Nat) :
    ∀ st : BeamState, BeamTrack s e B (fun _ => False) st →
      beamLoopSpec dist s query B fuel st = beamLoop dist s query B fuel st := by
  induction fuel with
  | zero => intro st _; rfl
  | succ fuel ih =>
    intro st ht
    unfold beamLoopSpec beamLoop
    cases hc : st.candidates with
    | nil => rfl
    | cons d_node rest =>
      simp only
      by_cases hgt : -d_node.1 > st.max_dist
      · have hfull := beamTrack_full s e B st d_node rest ht hc hgt
        rw [if_pos hgt, if_pos ⟨le_of_eq hfull.symm, hgt⟩]
      · rw [if_neg hgt, if_neg (fun h => hgt h.2)]
        exact ih _ (beamTrack_step dist s query e B st d_node rest ht hc)

/-- C12. In `beamSearch` with buffer size `B ≥ 1` on an index whose links are
in range: in every state in which the loop test is evaluated, if the closest
candidate is farther than `max_dist` then the result heap holds exactly `B`
entries; so the loop with the exit test of the spec (`W` has reached size `B`
and `d_c > worst`) stops in the same iteration and returns the same heap as the
loop of the source, for every amount of fuel; and with more fuel than nodes
both return a heap. -/
theorem beamSearch_exit_test (dist : DistanceInterface) (s : Index) (query : Data)
    (entry B : Nat) (hB : 1 ≤ B) (hlinks : LinksInRange s) (he : entry < s.cur_num_nodes) :
    (∀ st : BeamState, BeamHead dist s query entry B st →
      ∀ (c : dist_node_t) (rest : PriorityQueue), st.candidates = c :: rest →
        -c.1 > st.max_dist → st.neighbors.length = B)
    ∧ (∀ fuel : Nat,
        beamSearchSpec fuel dist s query entry B = beamSearch fuel dist s query entry B)
    ∧ (∀ fuel : Nat, s.cur_num_nodes < fuel →
        ∃ W, beamSearch fuel dist s query entry B = some W
          ∧ beamSearchSpec fuel dist s query entry B = some W) := by
  have hhead : ∀ st : BeamState, BeamHead dist s query entry B st →
      BeamTrack s entry B (fun _ => False) st := by
    intro st h
    induction h with
    | init => exact beamTrack_init dist s query entry B hB
    | step st d_node rest _ hc _ ih => exact beamTrack_step dist s query entry B st d_node rest ih hc
  have heq : ∀ fuel : Nat,
      beamSearchSpec fuel dist s query entry B = beamSearch fuel dist s query entry B := by
    intro fuel
    unfold beamSearchSpec beamSearch
    exact beamLoopSpec_eq dist s query entry B fuel _ (beamTrack_init dist s query entry B hB)
  refine ⟨?_, heq, ?_⟩
  · intro st h c rest hc hgt
    exact beamTrack_full s entry B st c rest (hhead st h) hc hgt
  · intro fuel hfuel
    obtain ⟨W, hW, _⟩ := beamSearch_spec fuel dist s query entry B s.cur_num_nodes hlinks he hfuel
    exact ⟨W, hW, by rw [heq, hW]⟩

theorem beamSearch_exit_test_witness :
    1 ≤ 1 ∧ LinksInRange chain3 ∧ 2 < chain3.cur_num_nodes
      ∧ (∀ st : BeamState, BeamHead sampleDist chain3 (vec [1, 0]) 2 1 st →
        ∀ (c : dist_node_t) (rest : PriorityQueue), st.candidates = c :: rest →
          -c.1 > st.max_dist → st.neighbors.length = 1)
      ∧ (∀ fuel : Nat,
          beamSearchSpec fuel sampleDist chain3 (vec [1, 0]) 2 1
            = beamSearch fuel sampleDist chain3 (vec [1, 0]) 2 1)
      ∧ (∀ fuel : Nat, chain3.cur_num_nodes < fuel →
          ∃ W, beamSearch fuel sampleDist chain3 (vec [1, 0]) 2 1 = some W
            ∧ beamSearchSpec fuel sampleDist chain3 (vec [1, 0]) 2 1 = some W) :=
  ⟨by decide, chain3_linksInRange, by decide,
    beamSearch_exit_test sampleDist chain3 (vec [1, 0]) 2 1 (by decide) chain3_linksInRange
      (by decide)⟩

/-! ## The selection heuristic -/

theorem negateInto_sorted (q : List dist_node_t) :
    ∀ acc : PriorityQueue, acc.Pairwise (fun a b => pairLt a b = false) →
      (negateInto acc q).Pairwise (fun a b => pairLt a b = false) := by
  induction q with
  | nil => intro acc h; exact h
  | cons y ys ih =>
    intro acc h
    unfold negateInto
    simp only [List.foldl_cons]
    exact ih _ (emplace_sorted _ _ h)

theorem shouldKeep_eq_true (dist : DistanceInterface) (s : Index) (c : dist_node_t)
    (saved : List dist_node_t) :
    shouldKeep dist s c saved = true
      ↔ ∀ a ∈ saved, ¬ dist.distance (getNodeData s a.2) (getNodeData s c.2) < -c.1 := by
  induction saved with
  | nil => simp [shouldKeep]
  | cons a rest ih =>
    unfold shouldKeep
    simp only
    by_cases h : dist.distance (getNodeData s a.2) (getNodeData s c.2) < -c.1
    · rw [if_pos h]
      constructor
      · intro hh; exact absurd hh (by simp)
      · intro hh; exact absurd h (hh a (List.mem_cons_self _ _))
    · rw [if_neg h, ih]
      constructor
      · intro hh x hx
        rcases List.mem_cons.mp hx with hxa | hx
        · rw [hxa]; exact h
        · exact hh x hx
      · intro hh x hx
        exact hh x (List.mem_cons_of_mem _ hx)

theorem pairLt_false_le (a b : dist_node_t) (h : pairLt a b = false) : b.1 ≤ a.1 := by
  obtain ⟨a1, a2⟩ := a
  obtain ⟨b1, b2⟩ := b
  simp only [pairLt, Bool.or_eq_false_iff, decide_eq_false_iff_not] at h
  simp only
  omega

/-- The list kept by the scan of `selectNeighbors` is diverse: an entry kept
later is no closer to the center than an entry kept earlier, and no closer to
that earlier entry than to the center. -/
theorem selectLoop_diverse (dist : DistanceInterface) (s : Index) (M : Nat)
    (cands : PriorityQueue) :
    ∀ saved : List dist_node_t, cands.Pairwise (fun a b => pairLt a b = false) →
      saved.Pairwise (fun a b => b.1 ≤ a.1
        ∧ ¬ dist.distance (getNodeData s a.2) (getNodeData s b.2) < -b.1) →
      (∀ a ∈ saved, ∀ c ∈ cands, c.1 ≤ a.1) →
      (selectLoop dist s M cands saved).Pairwise (fun a b => b.1 ≤ a.1
        ∧ ¬ dist.distance (getNodeData s a.2) (getNodeData s b.2) < -b.1) := by
  induction cands with
  | nil => intro saved _ h _; simpa [selectLoop] using h
  | cons c rest ih =>
    intro saved hs h hle
    unfold selectLoop
    rw [List.pairwise_cons] at hs
    split
    · exact h
    · split
      · next hk =>
        apply ih _ hs.2
        · rw [List.pairwise_append]
          refine ⟨h, List.pairwise_singleton _ _, ?_⟩
          intro a ha b hb
          rw [List.mem_singleton.mp hb]
          exact ⟨hle a ha c (List.mem_cons_self _ _),
            (shouldKeep_eq_true dist s c saved).mp hk a ha⟩
        · intro a ha c' hc'
          rcases List.mem_append.mp ha with ha | ha
          · exact hle a ha c' (List.mem_cons_of_mem _ hc')
          · rw [List.mem_singleton.mp ha]
            exact pairLt_false_le c c' (hs.1 c' hc')
      · exact ih _ hs.2 h (fun a ha c' hc' => hle a ha c' (List.mem_cons_of_mem _ hc'))

theorem pairwise_mem_cases {α : Type} (R : α → α → Prop) (l : List α) (h : l.Pairwise R)
    (a b : α) (ha : a ∈ l) (hb : b ∈ l) : a = b ∨ R a b ∨ R b a := by
  induction l with
  | nil => exact absurd ha (List.not_mem_nil a)
  | cons x xs ih =>
    rw [List.pairwise_cons] at h
    rcases List.mem_cons.mp ha with hax | ha
    · rcases List.mem_cons.mp hb with hbx | hb
      · left; rw [hax, hbx]
      · right; left; rw [hax]; exact h.1 b hb
    · rcases List.mem_cons.mp hb with hbx | hb
      · right; right; rw [hbx]; exact h.1 a ha
      · exact ih h.2 ha hb

/-- C13 fails as stated: a heap with fewer entries than the cap is returned
as it is, diverse or not.  For a center at `(1, 0)` and the cap 3, the
candidates node 2 (at `(2, 0)`, distance `-1`) and node 0 (at `(1, 0)`,
distance `0`) are both kept although node 2 is closer to node 0 (`-1`) than the
center is (`0`). -/
theorem selectNeighbors_diverse_counterexample :
    selectNeighbors sampleDist chain3 [(0, 0), (-1, 2)] 3 = [(0, 0), (-1, 2)]
      ∧ ((-1 : Int), (2 : Nat)).1 < ((0 : Int), (0 : Nat)).1
      ∧ ¬ (sampleDist.distance (getNodeData chain3 2) (getNodeData chain3 0)
          ≥ ((0 : Int), (0 : Nat)).1) := by
  decide

/-- C13, amended. For every candidate heap and every cap `M`, the heap left by
`selectNeighbors` has at most `M` entries; a heap of fewer than `M` entries is
left unchanged; and when the heap has at least `M` entries the result is
diverse: for any two retained candidates `a` and `b` with `d_u(a) < d_u(b)`,
`dist(a, b) ≥ d_u(b)`. -/
theorem selectNeighbors_diverse (dist : DistanceInterface) (s : Index)
    (neighbors : PriorityQueue) (M : Nat) :
    (selectNeighbors dist s neighbors M).length ≤ M
      ∧ (neighbors.length < M → selectNeighbors dist s neighbors M = neighbors)
      ∧ (M ≤ neighbors.length →
        ∀ a ∈ selectNeighbors dist s neighbors M, ∀ b ∈ selectNeighbors dist s neighbors M,
          a.1 < b.1 → dist.distance (getNodeData s a.2) (getNodeData s b.2) ≥ b.1) := by
  refine ⟨length_selectNeighbors dist s neighbors M, ?_, ?_⟩
  · intro h
    unfold selectNeighbors
    rw [if_pos h]
  · intro h a ha b hb hab
    unfold selectNeighbors at ha hb
    rw [if_neg (not_lt.mpr h)] at ha hb
    simp only at ha hb
    have hdiv := selectLoop_diverse dist s M (negateInto [] neighbors) []
      (negateInto_sorted neighbors [] List.Pairwise.nil) List.Pairwise.nil
      (fun a ha => absurd ha (List.not_mem_nil a))
    rcases (mem_negateInto _ _ _).mp ha with ⟨a', ha', ea⟩ | h0
    · rcases (mem_negateInto _ _ _).mp hb with ⟨b', hb', eb⟩ | h1
      · rw [ea, eb] at hab ⊢
        simp only at hab ⊢
        rcases pairwise_mem_cases _ _ hdiv a' b' ha' hb' with h2 | h2 | h2
        · rw [h2] at hab; exact absurd hab (lt_irrefl _)
        · have := h2.2
          omega
        · have := h2.1
          omega
      · exact absurd h1 (List.not_mem_nil b)
    · exact absurd h0 (List.not_mem_nil a)

theorem selectNeighbors_diverse_witness :
    2 ≤ ([(1, 1), (0, 0), (-1, 2)] : PriorityQueue).length
      ∧ ∀ a ∈ selectNeighbors sampleDist chain3 [(1, 1), (0, 0), (-1, 2)] 2,
          ∀ b ∈ selectNeighbors sampleDist chain3 [(1, 1), (0, 0), (-1, 2)] 2,
          a.1 < b.1 →
            sampleDist.distance (getNodeData chain3 a.2) (getNodeData chain3 b.2) ≥ b.1 :=
  ⟨by decide,
    (selectNeighbors_diverse sampleDist chain3 [(1, 1), (0, 0), (-1, 2)] 2).2.2 (by decide)⟩

theorem closerFirst_iff (a b : dist_node_t) :
    closerFirst a b = true ↔ pairLt (-a.1, a.2) (-b.1, b.2) = false := by
  obtain ⟨a1, a2⟩ := a
  obtain ⟨b1, b2⟩ := b
  simp only [closerFirst, pairLt, Bool.or_eq_true, Bool.and_eq_true, decide_eq_true_eq,
    Bool.or_eq_false_iff, Bool.and_eq_false_iff, decide_eq_false_iff_not]
  constructor
  · rintro (h | ⟨h1, h2⟩)
    · exact ⟨by omega, Or.inl (by omega)⟩
    · exact ⟨by omega, Or.inr (Nat.not_lt.mpr h2)⟩
  · rintro ⟨h1, h2 | h2⟩
    · left; omega
    · by_cases h : a1 = b1
      · right; exact ⟨h, Nat.not_lt.mp h2⟩
      · left; omega

theorem examinationOrder_perm (q : List dist_node_t) : (examinationOrder q).Perm q :=
  List.perm_insertionSort _ q

theorem examinationOrder_sorted (q : List dist_node_t) :
    (examinationOrder q).Pairwise (fun a b => closerFirst a b = true) := by
  haveI : IsTotal dist_node_t (fun a b => closerFirst a b = true) := ⟨by
    intro a b
    obtain ⟨a1, a2⟩ := a
    obtain ⟨b1, b2⟩ := b
    simp only [closerFirst, Bool.or_eq_true, Bool.and_eq_true, decide_eq_true_eq]
    have := Nat.le_total a2 b2
    rcases lt_trichotomy a1 b1 with h | h | h
    · left; left; exact h
    · rcases this with h2 | h2
      · right; right; exact ⟨h.symm, h2⟩
      · left; right; exact ⟨h, h2⟩
    · right; left; exact h⟩
  haveI : IsTrans dist_node_t (fun a b => closerFirst a b = true) := ⟨by
    intro a b c
    obtain ⟨a1, a2⟩ := a
    obtain ⟨b1, b2⟩ := b
    obtain ⟨c1, c2⟩ := c
    simp only [closerFirst, Bool.or_eq_true, Bool.and_eq_true, decide_eq_true_eq]
    rintro (h | ⟨h1, h2⟩) (h' | ⟨h1', h2'⟩)
    · left; omega
    · left; omega
    · left; omega
    · right; exact ⟨by omega, Nat.le_trans h2' h2⟩⟩
  exact List.sorted_insertionSort (fun a b : dist_node_t => closerFirst a b = true) q

/-- The negated heap that `selectNeighbors` drains its input into pops the
candidates in examination order. -/
theorem negateInto_eq_examinationOrder (q : List dist_node_t) :
    negateInto [] q = (examinationOrder q).map (fun p => (-p.1, p.2)) := by
  haveI : IsAntisymm dist_node_t (fun a b => pairLt a b = false) := ⟨by
    intro a b
    obtain ⟨a1, a2⟩ := a
    obtain ⟨b1, b2⟩ := b
    simp only [pairLt, Bool.or_eq_false_iff, Bool.and_eq_false_iff, decide_eq_false_iff_not,
      Prod.mk.injEq]
    rintro ⟨h1, h2⟩ ⟨h3, h4⟩
    have h5 : a1 = b1 := by omega
    refine ⟨h5, ?_⟩
    rcases h2 with h2 | h2
    · exact absurd h5 h2
    · rcases h4 with h4 | h4
      · exact absurd h5.symm h4
      · exact Nat.le_antisymm (Nat.not_lt.mp h4) (Nat.not_lt.mp h2)⟩
  apply List.eq_of_perm_of_sorted (r := fun a b => pairLt a b = false)
  · have h1 := negateInto_perm q []
    rw [List.append_nil] at h1
    exact h1.trans ((examinationOrder_perm q).map _).symm
  · exact negateInto_sorted q [] List.Pairwise.nil
  · rw [List.Sorted, List.pairwise_map]
    exact (examinationOrder_sorted q).imp (fun h => (closerFirst_iff _ _).mp h)

theorem shouldKeep_eq_specAccept (dist : DistanceInterface) (s : Index) (K : List dist_node_t)
    (c : dist_node_t) :
    shouldKeep dist s (-c.1, c.2) (K.map (fun p => (-p.1, p.2))) = specAccept dist s K c := by
  induction K with
  | nil => rfl
  | cons k K ih =>
    unfold specAccept at ih ⊢
    simp only [List.map_cons, shouldKeep, neg_neg, List.all_cons]
    by_cases h : dist.distance (getNodeData s k.2) (getNodeData s c.2) < c.1
    · rw [if_pos h]
      have : decide (dist.distance (getNodeData s k.2) (getNodeData s c.2) ≥ c.1) = false := by
        simp [h]
      rw [this]; rfl
    · rw [if_neg h, ih]
      have : decide (dist.distance (getNodeData s k.2) (getNodeData s c.2) ≥ c.1) = true := by
        simp; omega
      rw [this]; rfl

/-- The scan of `selectNeighbors` over the negated candidates is the greedy scan
of the spec over the candidates. -/
theorem selectLoop_eq_greedyScan (dist : DistanceInterface) (s : Index) (M : Nat)
    (C : List dist_node_t) :
    ∀ K : List dist_node_t, K.length ≤ M →
      selectLoop dist s M (C.map (fun p => (-p.1, p.2))) (K.map (fun p => (-p.1, p.2)))
        = (greedyScan dist s M C K).map (fun p => (-p.1, p.2)) := by
  induction C with
  | nil => intro K _; rfl
  | cons c C ih =>
    intro K hK
    simp only [List.map_cons]
    unfold selectLoop greedyScan
    simp only [List.length_map]
    by_cases hfull : K.length = M
    · rw [if_pos (by omega), if_pos hfull]
    · rw [if_neg (by omega), if_neg hfull, shouldKeep_eq_specAccept]
      split
      · have := ih (K ++ [c]) (by simp only [List.length_append, List.length_singleton]; omega)
        simp only [List.map_append, List.map_cons, List.map_nil] at this
        exact this
      · exact ih K hK

theorem negateInto_map_neg (K : List dist_node_t) :
    ∀ acc : PriorityQueue,
      negateInto acc (K.map (fun p => (-p.1, p.2))) = K.foldl emplace acc := by
  induction K with
  | nil => intro acc; rfl
  | cons k K ih =>
    intro acc
    unfold negateInto at ih ⊢
    simp only [List.map_cons, List.foldl_cons, neg_neg]
    exact ih _

/-- On a heap of at least `M` entries `selectNeighbors` is the selection of the
spec. -/
theorem selectNeighbors_eq_spec (dist : DistanceInterface) (s : Index)
    (neighbors : PriorityQueue) (M : Nat) (hlen : M ≤ neighbors.length) :
    selectNeighbors dist s neighbors M = selectNeighborsSpec dist s neighbors M := by
  unfold selectNeighbors selectNeighborsSpec
  rw [if_neg (not_lt.mpr hlen)]
  have h := selectLoop_eq_greedyScan dist s M (examinationOrder neighbors) [] (Nat.zero_le _)
  simp only [List.map_nil] at h
  show negateInto [] (selectLoop dist s M (negateInto [] neighbors) []) = _
  rw [negateInto_eq_examinationOrder neighbors, h, negateInto_map_neg]

theorem mem_foldl_emplace (K : List dist_node_t) :
    ∀ (acc : PriorityQueue) (p : dist_node_t),
      p ∈ K.foldl emplace acc ↔ p ∈ acc ∨ p ∈ K := by
  induction K with
  | nil => intro acc p; simp
  | cons k K ih =>
    intro acc p
    rw [List.foldl_cons, ih, mem_emplace, List.mem_cons]
    constructor
    · rintro ((h | h) | h)
      · exact Or.inr (Or.inl h)
      · exact Or.inl h
      · exact Or.inr (Or.inr h)
    · rintro (h | h | h)
      · exact Or.inl (Or.inr h)
      · exact Or.inl (Or.inl h)
      · exact Or.inr h

theorem greedyScan_accepted (dist : DistanceInterface) (s : Index) (M : Nat)
    (C : List dist_node_t) :
    ∀ (K : List dist_node_t) (p : dist_node_t), p ∈ K → p ∈ greedyScan dist s M C K := by
  induction C with
  | nil => intro K p h; exact h
  | cons c C ih =>
    intro K p h
    unfold greedyScan
    split
    · exact h
    · split
      · exact ih _ p (List.mem_append_left _ h)
      · exact ih _ p h

theorem examinationOrder_head_min (q : List dist_node_t) (c : dist_node_t)
    (C : List dist_node_t) (h : examinationOrder q = c :: C) :
    ∀ p ∈ q, c.1 ≤ p.1 := by
  intro p hp
  have hs := examinationOrder_sorted q
  rw [h] at hs
  have hp2 : p ∈ c :: C := by rw [← h]; exact (examinationOrder_perm q).mem_iff.mpr hp
  rcases List.mem_cons.mp hp2 with e | hC
  · rw [e]
  · have := (List.pairwise_cons.mp hs).1 p hC
    simp only [closerFirst, Bool.or_eq_true, Bool.and_eq_true, decide_eq_true_eq] at this
    rcases this with h1 | ⟨h1, _⟩
    · exact le_of_lt h1
    · exact le_of_eq h1

/-- C14. On every candidate heap with at least `M ≥ 1` entries the heap left by
`selectNeighbors` is the heap formed by the greedy scan of the spec
(`selectNeighborsSpec`: candidates examined by ascending distance, a candidate
accepted iff no previously accepted one is closer to it than the center, stop at
`M` accepted or when the candidates run out); it holds exactly the accepted
candidates, every retained entry is an input entry (with its distance), and the
first examined candidate, which is at the least distance of the input, is
retained. -/
theorem selectNeighbors_greedy (dist : DistanceInterface) (s : Index)
    (neighbors : PriorityQueue) (M : Nat) (hM : 1 ≤ M) (hlen : M ≤ neighbors.length) :
    selectNeighbors dist s neighbors M = selectNeighborsSpec dist s neighbors M ∧
    (∀ p, p ∈ selectNeighbors dist s neighbors M ↔
      p ∈ greedyScan dist s M (examinationOrder neighbors) []) ∧
    (∀ p ∈ selectNeighbors dist s neighbors M, p ∈ neighbors) ∧
    (∃ c, (examinationOrder neighbors).head? = some c ∧ c ∈ neighbors ∧
      (∀ p ∈ neighbors, c.1 ≤ p.1) ∧ c ∈ selectNeighbors dist s neighbors M) := by
  have heq := selectNeighbors_eq_spec dist s neighbors M hlen
  have hmem : ∀ p, p ∈ selectNeighbors dist s neighbors M ↔
      p ∈ greedyScan dist s M (examinationOrder neighbors) [] := by
    intro p
    rw [heq, selectNeighborsSpec, mem_foldl_emplace]
    simp
  refine ⟨heq, hmem, fun p hp => mem_selectNeighbors dist s neighbors M p hp, ?_⟩
  cases hC : examinationOrder neighbors with
  | nil =>
    have := (examinationOrder_perm neighbors).length_eq
    rw [hC] at this
    simp only [List.length_nil] at this
    omega
  | cons c C =>
    refine ⟨c, rfl, ?_, examinationOrder_head_min neighbors c C hC, ?_⟩
    · exact (examinationOrder_perm neighbors).mem_iff.mp (by rw [hC]; exact List.mem_cons_self _ _)
    · rw [hmem, hC]
      unfold greedyScan
      rw [if_neg (by simp only [List.length_nil]; omega)]
      have : specAccept dist s [] c = true := rfl
      rw [if_pos this]
      exact greedyScan_accepted dist s M C _ c (by simp)

theorem selectNeighbors_greedy_witness :
    1 ≤ 2 ∧ 2 ≤ [((1 : Int), 1), ((0 : Int), 0), ((-1 : Int), 2)].length ∧
    selectNeighbors sampleDist chain3 [(1, 1), (0, 0), (-1, 2)] 2
      = selectNeighborsSpec sampleDist chain3 [(1, 1), (0, 0), (-1, 2)] 2 :=
  ⟨by decide, by decide,
    (selectNeighbors_greedy sampleDist chain3 [(1, 1), (0, 0), (-1, 2)] 2
      (by decide) (by decide)).1⟩

theorem insertBackLinkWrites_mem (s : Index) (v : Nat) (js : List Nat) :
    ∀ w ∈ insertBackLinkWrites s v js, w.1 = v ∧ w.2 ∈ js := by
  induction js with
  | nil => intro w hw; simp [insertBackLinkWrites] at hw
  | cons j js ih =>
    intro w hw
    unfold insertBackLinkWrites at hw
    split at hw
    · rw [List.mem_singleton] at hw
      rw [hw]; exact ⟨rfl, List.mem_cons_self _ _⟩
    · exact ⟨(ih w hw).1, List.mem_cons_of_mem _ (ih w hw).2⟩

theorem writeCandidatesWrites_mem (v : Nat) (cands : PriorityQueue) :
    ∀ (j : Nat), ∀ w ∈ writeCandidatesWrites v cands j,
      w.1 = v ∧ j ≤ w.2 ∧ w.2 < j + cands.length := by
  induction cands with
  | nil => intro j w hw; simp [writeCandidatesWrites] at hw
  | cons c rest ih =>
    intro j w hw
    unfold writeCandidatesWrites at hw
    rcases List.mem_cons.mp hw with h | h
    · rw [h]; exact ⟨rfl, Nat.le_refl _, by simp⟩
    · obtain ⟨h1, h2, h3⟩ := ih (j + 1) w h
      rw [List.length_cons]
      exact ⟨h1, by omega, by omega⟩

theorem fillSelfLoopsWrites_mem (v : Nat) (k : Nat) :
    ∀ (j : Nat), ∀ w ∈ fillSelfLoopsWrites v k j, w.1 = v ∧ j ≤ w.2 ∧ w.2 < j + k := by
  induction k with
  | zero => intro j w hw; simp [fillSelfLoopsWrites] at hw
  | succ k ih =>
    intro j w hw
    unfold fillSelfLoopsWrites at hw
    rcases List.mem_cons.mp hw with h | h
    · rw [h]; exact ⟨rfl, Nat.le_refl _, by omega⟩
    · obtain ⟨h1, h2, h3⟩ := ih (j + 1) w h
      exact ⟨h1, by omega, by omega⟩

theorem connectBackWrites_mem (dist : DistanceInterface) (s : Index) (v new_id : Nat) :
    ∀ w ∈ connectBackWrites dist s v new_id, w.1 = v ∧ w.2 < s.M := by
  intro w hw
  unfold connectBackWrites at hw
  split at hw
  · obtain ⟨h1, h2⟩ := insertBackLinkWrites_mem s v _ w hw
    exact ⟨h1, List.mem_range.mp h2⟩
  · simp only at hw
    rcases List.mem_append.mp hw with h | h
    · obtain ⟨h1, _, h3⟩ := writeCandidatesWrites_mem v _ 0 w h
      have := length_selectNeighbors dist s (backCandidates dist s v new_id) s.M
      exact ⟨h1, by omega⟩
    · obtain ⟨h1, h2, h3⟩ := fillSelfLoopsWrites_mem v _ _ w h
      exact ⟨h1, by omega⟩

theorem connectBack_frame (dist : DistanceInterface) (s : Index) (v new_id : Nat) :
    LinkFrame s (connectBack dist s v new_id) := by
  unfold connectBack
  cases hins : insertBackLink s v new_id (List.range s.M) with
  | some s1 => exact (wiring_insertBackLink s v new_id _ s1 hins).frame
  | none =>
    simp only
    exact (wiring_writeCandidates v _ 0 s).frame.frame_trans (wiring_fillSelfLoops v _ _ _).frame

theorem connectLoopWrites_mem (dist : DistanceInterface) (new_id : Nat) (H : PriorityQueue) :
    ∀ (i : Nat) (s : Index), i + H.length ≤ s.M →
      ∀ w ∈ connectLoopWrites dist new_id H i s, w.2 < s.M := by
  induction H with
  | nil => intro i s _ w hw; simp [connectLoopWrites] at hw
  | cons top rest ih =>
    intro i s hlen w hw
    rw [List.length_cons] at hlen
    unfold connectLoopWrites at hw
    simp only at hw
    have hM1 : (setLink s new_id i top.2).M = s.M := rfl
    have hM2 : (connectBack dist (setLink s new_id i top.2) top.2 new_id).M = s.M :=
      (connectBack_frame dist _ top.2 new_id).header.M.trans hM1
    rcases List.mem_cons.mp hw with h | h
    · rw [h]; show i < s.M; omega
    · rcases List.mem_append.mp h with h | h
      · have := (connectBackWrites_mem dist _ top.2 new_id w h).2
        rw [hM1] at this; exact this
      · have hi1 : (if i + 1 ≥ s.M then s.M else i + 1) = i + 1 := by
          split
          · omega
          · rfl
        rw [hi1] at h
        have := ih (i + 1) _ (by rw [hM2]; omega) w h
        rw [hM2] at this; exact this

theorem allocateNode_M (dist : DistanceInterface) (s : Index) (data : Data) (label : label_t)
    (new_id : Nat) (s1 : Index) (h : allocateNode dist s data label = some (new_id, s1)) :
    s1.M = s.M := by
  unfold allocateNode at h
  split at h
  · simp at h
  · simp only [Option.some.injEq, Prod.mk.injEq] at h
    rw [← h.2]
    show ((List.range s.M).foldl (fun st i => setLink st s.cur_num_nodes i s.cur_num_nodes)
      (setNodeLabel (setNodeData s s.cur_num_nodes (dist.transformData data))
        s.cur_num_nodes label)).M = s.M
    exact (fillLinks_spec s.cur_num_nodes s.cur_num_nodes s.M _).1.header.M

/-- C17. In every `add` call the heap handed to `connectNeighbors` has at most
`M` entries, and every link write of `connectNeighbors` (the forward writes
`new_node_links[i]` and the back-link writes into the neighbors) is at a slot
index below `M`; the trace of writes exists exactly when `add` returns.  This
holds for every `M` and `ef_construction`, in particular for `M ≥ 1`,
`ef_construction ≥ 1`. -/
theorem add_writes_in_bounds (fuel : Nat) (dist : DistanceInterface) (s : Index) (data : Data)
    (label : label_t) (ef_construction num_initializations : Nat) :
    (∀ H, addHeap fuel dist s data label ef_construction num_initializations = some H →
      H.length ≤ s.M) ∧
    (∀ ws, addWrites fuel dist s data label ef_construction num_initializations = some ws →
      ∀ w ∈ ws, w.2 < s.M) ∧
    ((addWrites fuel dist s data label ef_construction num_initializations).isSome
      = (add fuel dist s data label ef_construction num_initializations).isSome) ∧
    ((addHeap fuel dist s data label ef_construction num_initializations).isSome
      = (add fuel dist s data label ef_construction num_initializations).isSome) := by
  unfold addHeap addWrites add
  cases ha : allocateNode dist s data label with
  | none => simp
  | some r =>
    obtain ⟨new_id, s1⟩ := r
    have hM := allocateNode_M dist s data label new_id s1 ha
    simp only
    by_cases h0 : new_id > 0
    · simp only [if_pos h0]
      cases hb : beamSearch fuel dist s1 data
          (initializeSearch dist s data num_initializations) ef_construction with
      | none => simp
      | some W =>
        simp only [Option.some.injEq, Option.isSome_some, and_true]
        have hlen := length_selectNeighbors dist s1 W s1.M
        refine ⟨?_, ?_⟩
        · intro H hH
          rw [← hH, ← hM]; exact hlen
        · intro ws hws w hw
          rw [← hws] at hw
          rw [← hM]
          exact connectLoopWrites_mem dist new_id _ 0 s1 (by omega) w hw
    · simp [if_neg h0]

/-- The `add` of scenario 2: the heap handed on has one entry, the writes are
the forward write of slot 0 of node 1 and the back write of slot 0 of node 0. -/
theorem add_writes_example :
    addHeap 4 sampleDist pair1 (vec [0, 1]) 3 8 100 = some [(1, 0)]
      ∧ addWrites 4 sampleDist pair1 (vec [0, 1]) 3 8 100 = some [(1, 0), (0, 0)] := by
  decide

theorem beamVisit_trueDist (dist : DistanceInterface) (s : Index) (query : Data) (B : Nat)
    (st : BeamState) (v : Nat) (h : TrueDist dist s query st.neighbors) :
    TrueDist dist s query (beamVisit dist s query B st v).neighbors := by
  unfold beamVisit
  split
  · exact h
  · simp only
    split
    · simp only
      have h1 : TrueDist dist s query
          (emplace st.neighbors (dist.distance query (getNodeData s v), v)) := by
        intro p hp
        rcases (mem_emplace _ _ _).mp hp with e | hp
        · rw [e]
        · exact h p hp
      split
      · intro p hp
        exact h1 p (List.mem_of_mem_tail hp)
      · exact h1
    · exact h

theorem beamExpand_trueDist (dist : DistanceInterface) (s : Index) (query : Data) (B c : Nat)
    (st : BeamState) (h : TrueDist dist s query st.neighbors) :
    TrueDist dist s query (beamExpand dist s query B c st).neighbors := by
  unfold beamExpand
  generalize List.range s.M = is
  induction is generalizing st with
  | nil => exact h
  | cons i is ih =>
    simp only [List.foldl_cons]
    exact ih _ (beamVisit_trueDist dist s query B st _ h)

theorem beamLoop_trueDist (dist : DistanceInterface) (s : Index) (query : Data) (B : Nat)
    (fuel : Nat) :
    ∀ (st : BeamState) (W : PriorityQueue), TrueDist dist s query st.neighbors →
      beamLoop dist s query B fuel st = some W → TrueDist dist s query W := by
  induction fuel with
  | zero => intro st W _ e; simp [beamLoop] at e
  | succ fuel ih =>
    intro st W h e
    unfold beamLoop at e
    cases hc : st.candidates with
    | nil =>
      rw [hc] at e
      simp only [Option.some.injEq] at e
      rw [← e]; exact h
    | cons d_node rest =>
      rw [hc] at e
      simp only at e
      split at e
      · simp only [Option.some.injEq] at e
        rw [← e]; exact h
      · exact ih _ W (beamExpand_trueDist dist s query B d_node.2
          { st with candidates := rest } h) e

theorem beamSearch_trueDist (fuel : Nat) (dist : DistanceInterface) (s : Index) (query : Data)
    (entry B : Nat) (W : PriorityQueue) (e : beamSearch fuel dist s query entry B = some W) :
    TrueDist dist s query W := by
  unfold beamSearch at e
  refine beamLoop_trueDist dist s query B fuel _ W ?_ e
  intro p hp
  rw [List.mem_singleton.mp hp]

/-- C19. On an index with links in range, for an entry node in use and
`B ≥ 1`, `beamSearch` returns (given more fuel than nodes) a heap `W` of exactly
`min(B, R)` entries with pairwise distinct node ids, `R` being the number of
nodes reachable from the entry node by following links; every entry pairs a
reachable node with its distance to the query, and when `B ≥ R` every reachable
node is in `W`. -/
theorem beamSearch_reachable (fuel : Nat) (dist : DistanceInterface) (s : Index) (query : Data)
    (entry B : Nat) (hB : 1 ≤ B) (hlinks : LinksInRange s) (he : entry < s.cur_num_nodes)
    (hfuel : s.cur_num_nodes < fuel) :
    ∃ (W : PriorityQueue) (R : List node_id_t),
      beamSearch fuel dist s query entry B = some W
      ∧ R.Nodup ∧ (∀ n, n ∈ R ↔ Reachable s entry n)
      ∧ W.length = min B R.length
      ∧ (W.map Prod.snd).Nodup
      ∧ (∀ p ∈ W, Reachable s entry p.2 ∧ p.1 = dist.distance query (getNodeData s p.2))
      ∧ (R.length ≤ B → ∀ n, Reachable s entry n →
          (dist.distance query (getNodeData s n), n) ∈ W) := by
  obtain ⟨W, e, _, hnd, hreach, hlen⟩ :=
    beamSearch_length fuel dist s query entry B s.cur_num_nodes hB hlinks he hfuel
  obtain ⟨R, hR, hmem, _, _⟩ := exists_reachable_list s entry s.cur_num_nodes hlinks he
  have htd := beamSearch_trueDist fuel dist s query entry B W e
  refine ⟨W, R, e, hR, hmem, hlen R hR hmem, hnd, fun p hp => ⟨hreach p hp, htd p hp⟩, ?_⟩
  intro hRB n hn
  have hl : (W.map Prod.snd).length = R.length := by
    rw [List.length_map, hlen R hR hmem]; exact Nat.min_eq_right hRB
  have hsub : W.map Prod.snd ⊆ R := by
    intro x hx
    obtain ⟨p, hp, hpx⟩ := List.mem_map.mp hx
    rw [← hpx]; exact (hmem _).mpr (hreach p hp)
  have hperm : (W.map Prod.snd).Perm R :=
    (List.subperm_of_subset hnd hsub).perm_of_length_le (le_of_eq hl.symm)
  have hnW : n ∈ W.map Prod.snd := hperm.mem_iff.mpr ((hmem n).mpr hn)
  obtain ⟨p, hp, hpn⟩ := List.mem_map.mp hnW
  have hp1 := htd p hp
  have : p = (dist.distance query (getNodeData s n), n) := by
    rw [← hpn, ← hp1]
  rw [← this]; exact hp

theorem beamSearch_reachable_witness :
    1 ≤ 2 ∧ LinksInRange chain3 ∧ 2 < chain3.cur_num_nodes ∧ chain3.cur_num_nodes < 4
    ∧ ∃ (W : PriorityQueue) (R : List node_id_t),
      beamSearch 4 sampleDist chain3 (vec [1, 0]) 2 2 = some W
      ∧ R.Nodup ∧ (∀ n, n ∈ R ↔ Reachable chain3 2 n)
      ∧ W.length = min 2 R.length
      ∧ (W.map Prod.snd).Nodup
      ∧ (∀ p ∈ W, Reachable chain3 2 p.2
          ∧ p.1 = sampleDist.distance (vec [1, 0]) (getNodeData chain3 p.2))
      ∧ (R.length ≤ 2 → ∀ n, Reachable chain3 2 n →
          (sampleDist.distance (vec [1, 0]) (getNodeData chain3 n), n) ∈ W) :=
  ⟨by decide, chain3_linksInRange, by decide, by decide,
    beamSearch_reachable 4 sampleDist chain3 (vec [1, 0]) 2 2 (by decide) chain3_linksInRange
      (by decide) (by decide)⟩

/-- The forward wiring: the loop of `connectNeighbors`, started at slot `i` with
a heap that fits in the remaining slots, writes the ids of the heap into the
slots `i, i+1, ..` of the new node, in the order of the heap, and leaves the
other slots of the new node as they were. -/
theorem connectLoop_new_links (dist : DistanceInterface) (new_id : Nat) (H : PriorityQueue) :
    ∀ (i : Nat) (s : Index), s.WF → LinksInRange s → new_id < s.cur_num_nodes →
      (∀ p ∈ H, p.2 < s.cur_num_nodes ∧ p.2 ≠ new_id) → i + H.length ≤ s.M →
      ∀ j : Nat, j < s.M →
        linkAt (connectLoop dist new_id H i s) new_id j
          = if i ≤ j ∧ j < i + H.length then (H.getD (j - i) (0, 0)).2 else linkAt s new_id j := by
  induction H with
  | nil =>
    intro i s _ _ _ _ _ j _
    rw [if_neg (by simp only [List.length_nil]; omega)]
    rfl
  | cons top rest ih =>
    intro i s hwf hl hnew hlt hlen j hj
    rw [List.length_cons] at hlen
    unfold connectLoop
    simp only
    have htop := hlt top (List.mem_cons_self _ _)
    have w1 : Wiring (fun k => k = new_id) (fun x => x < s.cur_num_nodes) s
        (setLink s new_id i top.2) :=
      (wiring_setLink s new_id i top.2).wiring_mono (fun _ h => h)
        (fun x hx => by rw [hx]; exact htop.1)
    have hl1 : LinksInRange (setLink s new_id i top.2) := linksInRange_of_wiring hl w1
    have hwf1 : (setLink s new_id i top.2).WF := wf_of_linkFrame hwf w1.frame
    have hc1 : (setLink s new_id i top.2).cur_num_nodes = s.cur_num_nodes := rfl
    have w2 := wiring_connectBack dist (setLink s new_id i top.2) top.2 new_id hl1
      (by rw [hc1]; exact htop.1) (by rw [hc1]; exact hnew)
    rw [hc1] at w2
    have hl2 : LinksInRange (connectBack dist (setLink s new_id i top.2) top.2 new_id) :=
      linksInRange_of_wiring hl1 (by rw [hc1]; exact w2)
    have hwf2 : (connectBack dist (setLink s new_id i top.2) top.2 new_id).WF :=
      wf_of_linkFrame hwf1 w2.frame
    have hc2 : (connectBack dist (setLink s new_id i top.2) top.2 new_id).cur_num_nodes
        = s.cur_num_nodes := w2.frame.header.cur
    have hM2 : (connectBack dist (setLink s new_id i top.2) top.2 new_id).M = s.M :=
      w2.frame.header.M
    have hi1 : (if i + 1 ≥ s.M then s.M else i + 1) = i + 1 := by
      split
      · omega
      · rfl
    rw [hi1, ih (i + 1) _ hwf2 hl2 (by rw [hc2]; exact hnew)
      (fun p hp => by rw [hc2]; exact hlt p (List.mem_cons_of_mem _ hp))
      (by rw [hM2]; omega) j (by rw [hM2]; exact hj)]
    have h3 : linkAt (connectBack dist (setLink s new_id i top.2) top.2 new_id) new_id j
        = linkAt (setLink s new_id i top.2) new_id j := by
      unfold linkAt getNodeLinks
      rw [w2.other new_id (fun h => htop.2 h.symm)]
    have hnm : new_id < s.max_node_count := lt_of_lt_of_le hnew hwf.count_le
    by_cases hji : j = i
    · subst hji
      rw [if_neg (by omega), if_pos (by rw [List.length_cons]; omega), h3, Nat.sub_self]
      exact linkAt_setLink_self s new_id j top.2 (by rw [hwf.length_eq]; exact hnm)
        (by rw [hwf.links_length new_id hnm]; exact hj)
    · by_cases hin : i + 1 ≤ j ∧ j < i + 1 + rest.length
      · rw [if_pos hin, if_pos (by rw [List.length_cons]; omega)]
        have : j - i = (j - (i + 1)) + 1 := by omega
        rw [this]; rfl
      · rw [if_neg hin, if_neg (by rw [List.length_cons]; omega), h3]
        exact linkAt_setLink_ne s new_id i top.2 new_id j (Or.inr (fun h => hji h.symm))

/-- Every id of the heap handed to `connectNeighbors` ends in a link slot of the
new node. -/
theorem connectLoop_written (dist : DistanceInterface) (new_id : Nat) (H : PriorityQueue)
    (s : Index) (hwf : s.WF) (hl : LinksInRange s) (hnew : new_id < s.cur_num_nodes)
    (hlt : ∀ p ∈ H, p.2 < s.cur_num_nodes ∧ p.2 ≠ new_id) (hlen : H.length ≤ s.M)
    (p : dist_node_t) (hp : p ∈ H) :
    ∃ m, m < s.M ∧ linkAt (connectLoop dist new_id H 0 s) new_id m = p.2 := by
  obtain ⟨k, hk, hget⟩ := List.getElem_of_mem hp
  refine ⟨k, by omega, ?_⟩
  rw [connectLoop_new_links dist new_id H 0 s hwf hl hnew hlt (by omega) k (by omega),
    if_pos (by omega), Nat.sub_zero, List.getD_eq_getElem _ _ hk, hget]

/-- C20. Frame of `add` on a well-formed index with links in range: whatever the
call returns, the data and the label of every node that existed before are
unchanged, and the links of every such node that is not written into the links
of the new node are unchanged. -/
theorem add_frame (fuel : Nat) (dist : DistanceInterface) (s : Index) (data : Data)
    (label : label_t) (ef_construction num_initializations : Nat) (b : Bool) (s' : Index)
    (hwf : s.WF) (hl : LinksInRange s)
    (e : add fuel dist s data label ef_construction num_initializations = some (b, s')) :
    ∀ n, n < s.cur_num_nodes →
      getNodeData s' n = getNodeData s n ∧ getNodeLabel s' n = getNodeLabel s n
      ∧ ((∀ m, m < s.M → linkAt s' s.cur_num_nodes m ≠ n) →
          getNodeLinks s' n = getNodeLinks s n) := by
  intro n hn
  by_cases hcap : s.cur_num_nodes < s.max_node_count
  · obtain ⟨s1, ea, hM, _, _, hmax, hcur, hlen, hnode, hother⟩ :=
      allocateNode_spec dist s data label hwf hcap
    obtain ⟨hwf1, hl1, hb1⟩ := allocated_valid s s1 _ _ hwf hl hcap hM hmax hcur hlen hnode hother
    have hn1 : getNode s1 n = getNode s n := hother n (Nat.ne_of_lt hn)
    unfold add at e
    rw [ea] at e
    simp only at e
    have h0 : s.cur_num_nodes > 0 := Nat.lt_of_le_of_lt (Nat.zero_le n) hn
    rw [if_pos h0] at e
    cases hbs : beamSearch fuel dist s1 data
        (initializeSearch dist s data num_initializations) ef_construction with
    | none => rw [hbs] at e; simp at e
    | some W =>
      rw [hbs] at e
      simp only [Option.some.injEq, Prod.mk.injEq] at e
      obtain ⟨hW, _⟩ := beamSearch_sound fuel dist s1 data _ ef_construction s.cur_num_nodes hb1
        (initializeSearch_lt dist s data num_initializations h0) W hbs
      have hsel : ∀ p ∈ selectNeighbors dist s1 W s1.M,
          p.2 < s1.cur_num_nodes ∧ p.2 ≠ s.cur_num_nodes := by
        intro p hp
        have := hW p (mem_selectNeighbors dist s1 W _ p hp)
        exact ⟨by rw [hcur]; exact Nat.lt_succ_of_lt this, Nat.ne_of_lt this⟩
      have hnew1 : s.cur_num_nodes < s1.cur_num_nodes := by rw [hcur]; exact Nat.lt_succ_self _
      have w := wiring_connectLoop dist s.cur_num_nodes (selectNeighbors dist s1 W s1.M) 0 s1
        hl1 hnew1 (fun p hp => (hsel p hp).1)
      have es : s' = connectLoop dist s.cur_num_nodes (selectNeighbors dist s1 W s1.M) 0 s1 :=
        e.2.symm
      rw [es]
      refine ⟨?_, ?_, ?_⟩
      · rw [w.frame.data]; unfold getNodeData; rw [hn1]
      · rw [w.frame.label]; unfold getNodeLabel; rw [hn1]
      · intro hfree
        have hnot : ¬ (n = s.cur_num_nodes ∨ ∃ p ∈ selectNeighbors dist s1 W s1.M, n = p.2) := by
          rintro (h | ⟨p, hp, hnp⟩)
          · exact absurd h (Nat.ne_of_lt hn)
          · obtain ⟨m, hm, hlink⟩ := connectLoop_written dist s.cur_num_nodes _ s1 hwf1 hl1 hnew1
              hsel (length_selectNeighbors dist s1 W s1.M) p hp
            exact hfree m (by rw [← hM]; exact hm) (by rw [hlink, hnp])
        unfold getNodeLinks
        rw [w.other n hnot, hn1]
  · unfold add allocateNode at e
    rw [if_pos (not_lt.mp hcap)] at e
    simp only [Option.some.injEq, Prod.mk.injEq] at e
    rw [← e.2]
    exact ⟨rfl, rfl, fun _ => rfl⟩

theorem chain3_wf : chain3.WF := by
  refine ⟨by decide, by decide, ?_⟩
  intro n hn
  have h4 : n < 4 := hn
  interval_cases n <;> decide

theorem add_frame_witness :
    chain3.WF ∧ LinksInRange chain3
      ∧ add 5 sampleDist chain3 (vec [3, 0]) 10 8 100 = some (true, chain4)
      ∧ ∀ n, n < chain3.cur_num_nodes →
        getNodeData chain4 n = getNodeData chain3 n
        ∧ getNodeLabel chain4 n = getNodeLabel chain3 n
        ∧ ((∀ m, m < chain3.M → linkAt chain4 chain3.cur_num_nodes m ≠ n) →
            getNodeLinks chain4 n = getNodeLinks chain3 n) :=
  ⟨chain3_wf, chain3_linksInRange, by decide,
    add_frame 5 sampleDist chain3 (vec [3, 0]) 10 8 100 true chain4 chain3_wf
      chain3_linksInRange (by decide)⟩

/-! ## Back-wiring -/

theorem insertBackLink_range (s : Index) (v new_id : Nat) (n : Nat) :
    ∀ a : Nat,
      ((∀ j, a ≤ j → j < a + n → linkAt s v j ≠ v) →
        insertBackLink s v new_id (List.range' a n) = none)
      ∧ (∀ j, a ≤ j → j < a + n → linkAt s v j = v →
          (∀ j', a ≤ j' → j' < j → linkAt s v j' ≠ v) →
          insertBackLink s v new_id (List.range' a n) = some (setLink s v j new_id)) := by
  induction n with
  | zero =>
    intro a
    exact ⟨fun _ => rfl, fun j h1 h2 _ _ => by omega⟩
  | succ n ih =>
    intro a
    rw [List.range'_succ]
    unfold insertBackLink
    constructor
    · intro h
      rw [if_neg (h a (Nat.le_refl _) (by omega))]
      exact (ih (a + 1)).1 (fun j h1 h2 => h j (by omega) (by omega))
    · intro j h1 h2 hj hfirst
      by_cases hja : j = a
      · subst hja
        rw [if_pos hj]
      · rw [if_neg (hfirst a (Nat.le_refl _) (by omega))]
        exact (ih (a + 1)).2 j (by omega) (by omega) hj
          (fun j' h1' h2' => hfirst j' (by omega) h2')

/-- The slots of the neighbor after the loop writing the pruned candidates. -/
theorem writeCandidates_spec (v L : Nat) (cands : PriorityQueue) :
    ∀ (j0 : Nat) (s : Index), v < s.index_memory.length → (getNodeLinks s v).length = L →
      (writeCandidates v cands j0 s).2 = j0 + cands.length
      ∧ (∀ j, j < L → linkAt (writeCandidates v cands j0 s).1 v j
          = if j0 ≤ j ∧ j < j0 + cands.length then (cands.getD (j - j0) (0, 0)).2
            else linkAt s v j) := by
  induction cands with
  | nil =>
    intro j0 s _ _
    refine ⟨rfl, fun j _ => ?_⟩
    rw [if_neg (by simp only [List.length_nil]; omega)]
    rfl
  | cons top rest ih =>
    intro j0 s hv hL
    unfold writeCandidates
    have hf := linkFrame_setLink s v j0 top.2
    obtain ⟨h1, h2⟩ := ih (j0 + 1) (setLink s v j0 top.2) (by rw [hf.header.length]; exact hv)
      (by rw [hf.links_length]; exact hL)
    refine ⟨by rw [h1, List.length_cons]; omega, fun j hj => ?_⟩
    rw [h2 j hj]
    by_cases hji : j = j0
    · subst hji
      rw [if_neg (by omega), if_pos (by rw [List.length_cons]; omega), Nat.sub_self]
      exact linkAt_setLink_self s v j top.2 hv (by rw [hL]; exact hj)
    · by_cases hin : j0 + 1 ≤ j ∧ j < j0 + 1 + rest.length
      · rw [if_pos hin, if_pos (by rw [List.length_cons]; omega)]
        have : j - j0 = (j - (j0 + 1)) + 1 := by omega
        rw [this]; rfl
      · rw [if_neg hin, if_neg (by rw [List.length_cons]; omega)]
        exact linkAt_setLink_ne s v j0 top.2 v j (Or.inr (fun h => hji h.symm))

/-- The slots of the neighbor after the loop writing self-loops. -/
theorem fillSelfLoops_spec (v L : Nat) (k : Nat) :
    ∀ (j0 : Nat) (s : Index), v < s.index_memory.length → (getNodeLinks s v).length = L →
      ∀ j, j < L → linkAt (fillSelfLoops v k j0 s) v j
          = if j0 ≤ j ∧ j < j0 + k then v else linkAt s v j := by
  induction k with
  | zero =>
    intro j0 s _ _ j _
    rw [if_neg (by omega)]
    rfl
  | succ k ih =>
    intro j0 s hv hL j hj
    unfold fillSelfLoops
    have hf := linkFrame_setLink s v j0 v
    rw [ih (j0 + 1) (setLink s v j0 v) (by rw [hf.header.length]; exact hv)
      (by rw [hf.links_length]; exact hL) j hj]
    by_cases hji : j = j0
    · subst hji
      rw [if_neg (by omega), if_pos (by omega)]
      exact linkAt_setLink_self s v j v hv (by rw [hL]; exact hj)
    · by_cases hin : j0 + 1 ≤ j ∧ j < j0 + 1 + k
      · rw [if_pos hin, if_pos (by omega)]
      · rw [if_neg hin, if_neg (by omega)]
        exact linkAt_setLink_ne s v j0 v v j (Or.inr (fun h => hji h.symm))

/-- The back-connection of a neighbor with a self-loop slot: the first such
slot receives the new node, the other slots stay. -/
theorem connectBack_free (dist : DistanceInterface) (s : Index) (v new_id : Nat) (hwf : s.WF)
    (hv : v < s.max_node_count) (j : Nat) (hj : j < s.M) (hself : linkAt s v j = v)
    (hfirst : ∀ j', j' < j → linkAt s v j' ≠ v) :
    linkAt (connectBack dist s v new_id) v j = new_id
    ∧ ∀ j', j' ≠ j → linkAt (connectBack dist s v new_id) v j' = linkAt s v j' := by
  unfold connectBack
  rw [List.range_eq_range',
    (insertBackLink_range s v new_id s.M 0).2 j (Nat.zero_le _) (by omega) hself
      (fun j' _ h => hfirst j' h)]
  simp only
  refine ⟨?_, fun j' hj' => ?_⟩
  · exact linkAt_setLink_self s v j new_id (by rw [hwf.length_eq]; exact hv)
      (by rw [hwf.links_length v hv]; exact hj)
  · exact linkAt_setLink_ne s v j new_id v j' (Or.inr (fun h => hj' h.symm))

/-- The back-connection of a saturated neighbor: the slots hold the ids of the
pruned candidate heap, in the order of the heap, and then self-loops. -/
theorem connectBack_saturated (dist : DistanceInterface) (s : Index) (v new_id : Nat)
    (hwf : s.WF) (hv : v < s.max_node_count) (hsat : ∀ j, j < s.M → linkAt s v j ≠ v) :
    ∀ j, j < s.M → linkAt (connectBack dist s v new_id) v j
      = if j < (selectNeighbors dist s (backCandidates dist s v new_id) s.M).length
        then ((selectNeighbors dist s (backCandidates dist s v new_id) s.M).getD j (0, 0)).2
        else v := by
  intro j hj
  unfold connectBack
  rw [List.range_eq_range',
    (insertBackLink_range s v new_id s.M 0).1 (fun j' _ h => hsat j' (by omega))]
  simp only
  have hvl : v < s.index_memory.length := by rw [hwf.length_eq]; exact hv
  have hL := hwf.links_length v hv
  obtain ⟨h1, h2⟩ := writeCandidates_spec v s.M
    (selectNeighbors dist s (backCandidates dist s v new_id) s.M) 0 s hvl hL
  have hf := (wiring_writeCandidates v
    (selectNeighbors dist s (backCandidates dist s v new_id) s.M) 0 s).frame
  have hlen := length_selectNeighbors dist s (backCandidates dist s v new_id) s.M
  rw [fillSelfLoops_spec v s.M _ _ _ (by rw [hf.header.length]; exact hvl)
    (by rw [hf.links_length]; exact hL) j hj, h1, h2 j hj, Nat.zero_add]
  by_cases hin : j < (selectNeighbors dist s (backCandidates dist s v new_id) s.M).length
  · rw [if_neg (by omega), if_pos ⟨Nat.zero_le _, by omega⟩, if_pos hin, Nat.sub_zero]
  · rw [if_pos (by omega), if_neg hin]

theorem shouldKeep_congr (dist : DistanceInterface) (s t : Index)
    (hd : ∀ k, getNodeData t k = getNodeData s k) (p : dist_node_t) (K : List dist_node_t) :
    shouldKeep dist t p K = shouldKeep dist s p K := by
  induction K with
  | nil => rfl
  | cons k K ih =>
    unfold shouldKeep
    simp only [hd, ih]

theorem selectLoop_congr (dist : DistanceInterface) (s t : Index)
    (hd : ∀ k, getNodeData t k = getNodeData s k) (M : Nat) (C : PriorityQueue) :
    ∀ K : List dist_node_t, selectLoop dist t M C K = selectLoop dist s M C K := by
  induction C with
  | nil => intro K; rfl
  | cons c C ih =>
    intro K
    unfold selectLoop
    simp only [shouldKeep_congr dist s t hd, ih]

theorem selectNeighbors_congr (dist : DistanceInterface) (s t : Index)
    (hd : ∀ k, getNodeData t k = getNodeData s k) (q : PriorityQueue) (M : Nat) :
    selectNeighbors dist t q M = selectNeighbors dist s q M := by
  unfold selectNeighbors
  simp only [selectLoop_congr dist s t hd]

theorem backCandidates_congr (dist : DistanceInterface) (s t : Index)
    (hd : ∀ k, getNodeData t k = getNodeData s k) (hM : t.M = s.M) (v new_id : Nat)
    (hv : getNode t v = getNode s v) :
    backCandidates dist t v new_id = backCandidates dist s v new_id := by
  have hl : ∀ j, linkAt t v j = linkAt s v j := by
    intro j; unfold linkAt getNodeLinks; rw [hv]
  unfold backCandidates
  simp only [hd, hM, hl]

theorem selectLoop_sublist (dist : DistanceInterface) (s : Index) (M : Nat) (C : PriorityQueue) :
    ∀ K : List dist_node_t, (selectLoop dist s M C K).Sublist (K ++ C) := by
  induction C with
  | nil => intro K; simp [selectLoop]
  | cons c C ih =>
    intro K
    unfold selectLoop
    split
    · exact List.sublist_append_left K _
    · split
      · have := ih (K ++ [c])
        rwa [List.append_assoc, List.singleton_append] at this
      · exact (ih K).trans
          (List.Sublist.append (List.Sublist.refl K) (List.sublist_cons_self c C))

/-- The selection keeps the ids distinct. -/
theorem selectNeighbors_nodup (dist : DistanceInterface) (s : Index) (q : PriorityQueue)
    (M : Nat) (h : (q.map Prod.snd).Nodup) :
    ((selectNeighbors dist s q M).map Prod.snd).Nodup := by
  unfold selectNeighbors
  split
  · exact h
  · simp only
    have hneg : ∀ l : List dist_node_t,
        (l.map (fun p : dist_node_t => (-p.1, p.2))).map Prod.snd = l.map Prod.snd := by
      intro l
      rw [List.map_map]
      rfl
    have h1 : ((negateInto [] q).map Prod.snd).Nodup := by
      have hp := (negateInto_perm q []).map Prod.snd
      rw [List.append_nil, hneg] at hp
      exact hp.nodup_iff.mpr h
    have h2 : ((selectLoop dist s M (negateInto [] q) []).map Prod.snd).Nodup := by
      have hs := (selectLoop_sublist dist s M (negateInto [] q) []).map Prod.snd
      rw [List.nil_append] at hs
      exact h1.sublist hs
    have hp := (negateInto_perm (selectLoop dist s M (negateInto [] q) []) []).map Prod.snd
    rw [List.append_nil, hneg] at hp
    exact hp.nodup_iff.mpr h2

/-- Each neighbor of the heap is back-connected once, in a state that agrees
with the initial one on the data, the header and the record of that neighbor,
and its record is not touched afterwards. -/
theorem connectLoop_back (dist : DistanceInterface) (new_id : Nat) (H : PriorityQueue) :
    ∀ (i : Nat) (s : Index), LinksInRange s → new_id < s.cur_num_nodes →
      (∀ p ∈ H, p.2 < s.cur_num_nodes ∧ p.2 ≠ new_id) → (H.map Prod.snd).Nodup →
      ∀ p ∈ H, ∃ t, LinkFrame s t ∧ getNode t p.2 = getNode s p.2
        ∧ getNode (connectLoop dist new_id H i s) p.2
          = getNode (connectBack dist t p.2 new_id) p.2 := by
  induction H with
  | nil => intro i s _ _ _ _ p hp; exact absurd hp (List.not_mem_nil p)
  | cons top rest ih =>
    intro i s hl hnew hlt hnd p hp
    unfold connectLoop
    simp only
    have htop := hlt top (List.mem_cons_self _ _)
    have w1 : Wiring (fun k => k = new_id) (fun x => x < s.cur_num_nodes) s
        (setLink s new_id i top.2) :=
      (wiring_setLink s new_id i top.2).wiring_mono (fun _ h => h)
        (fun x hx => by rw [hx]; exact htop.1)
    have hl1 : LinksInRange (setLink s new_id i top.2) := linksInRange_of_wiring hl w1
    have hc1 : (setLink s new_id i top.2).cur_num_nodes = s.cur_num_nodes := rfl
    have w2 := wiring_connectBack dist (setLink s new_id i top.2) top.2 new_id hl1
      (by rw [hc1]; exact htop.1) (by rw [hc1]; exact hnew)
    rw [hc1] at w2
    have hl2 : LinksInRange (connectBack dist (setLink s new_id i top.2) top.2 new_id) :=
      linksInRange_of_wiring hl1 (by rw [hc1]; exact w2)
    have hc2 : (connectBack dist (setLink s new_id i top.2) top.2 new_id).cur_num_nodes
        = s.cur_num_nodes := w2.frame.header.cur
    have hrest : ∀ q ∈ rest,
        q.2 < (connectBack dist (setLink s new_id i top.2) top.2 new_id).cur_num_nodes
          ∧ q.2 ≠ new_id := fun q hq => by
      rw [hc2]; exact hlt q (List.mem_cons_of_mem _ hq)
    rw [List.map_cons, List.nodup_cons] at hnd
    have hne : ∀ q ∈ rest, q.2 ≠ top.2 := by
      intro q hq h
      exact hnd.1 (h ▸ List.mem_map_of_mem Prod.snd hq)
    rcases List.mem_cons.mp hp with e | hp
    · subst e
      refine ⟨setLink s new_id i p.2, w1.frame,
        getNode_setLink_ne s new_id i p.2 p.2 (fun h => htop.2 h.symm), ?_⟩
      have w3 := wiring_connectLoop dist new_id rest (if i + 1 ≥ s.M then s.M else i + 1) _ hl2
        (by rw [hc2]; exact hnew) (fun q hq => (hrest q hq).1)
      apply w3.other
      rintro (h | ⟨q, hq, h⟩)
      · exact htop.2 h
      · exact hne q hq h.symm
    · obtain ⟨t, hf, hsame, hres⟩ := ih (if i + 1 ≥ s.M then s.M else i + 1) _ hl2
        (by rw [hc2]; exact hnew) hrest hnd.2 p hp
      refine ⟨t, (w1.frame.frame_trans w2.frame).frame_trans hf, ?_, hres⟩
      rw [hsame, w2.other p.2 (hne p hp)]
      exact getNode_setLink_ne s new_id i top.2 p.2 (fun h => (hlt p (List.mem_cons_of_mem _ hp)).2 h.symm)

theorem mem_backCandidates_fold_iff (dist : DistanceInterface) (s : Index) (v : Nat)
    (js : List Nat) :
    ∀ (acc : PriorityQueue) (p : dist_node_t),
      p ∈ js.foldl (fun c j =>
        if linkAt s v j ≠ v then
          emplace c (dist.distance (getNodeData s v) (getNodeData s (linkAt s v j)),
            linkAt s v j)
        else c) acc ↔
      p ∈ acc ∨ ∃ j ∈ js, linkAt s v j ≠ v
        ∧ p = (dist.distance (getNodeData s v) (getNodeData s (linkAt s v j)), linkAt s v j) := by
  induction js with
  | nil => intro acc p; simp
  | cons j js ih =>
    intro acc p
    simp only [List.foldl_cons]
    rw [ih]
    by_cases hj : linkAt s v j ≠ v
    · rw [if_pos hj, mem_emplace]
      constructor
      · rintro ((h | h) | ⟨j', hj', h⟩)
        · exact Or.inr ⟨j, List.mem_cons_self _ _, hj, h⟩
        · exact Or.inl h
        · exact Or.inr ⟨j', List.mem_cons_of_mem _ hj', h⟩
      · rintro (h | ⟨j', hj', h⟩)
        · exact Or.inl (Or.inr h)
        · rcases List.mem_cons.mp hj' with e | hj'
          · subst e; exact Or.inl (Or.inl h.2)
          · exact Or.inr ⟨j', hj', h⟩
    · rw [if_neg hj]
      constructor
      · rintro (h | ⟨j', hj', h⟩)
        · exact Or.inl h
        · exact Or.inr ⟨j', List.mem_cons_of_mem _ hj', h⟩
      · rintro (h | ⟨j', hj', h⟩)
        · exact Or.inl h
        · rcases List.mem_cons.mp hj' with e | hj'
          · subst e; exact absurd h.1 hj
          · exact Or.inr ⟨j', hj', h⟩

/-- The candidate heap built for a saturated neighbor `v` holds the new node,
at its distance to `v`, and the non-self-loop links of `v`, each at its distance
to `v`. -/
theorem mem_backCandidates_iff (dist : DistanceInterface) (s : Index) (v new_id : Nat)
    (p : dist_node_t) :
    p ∈ backCandidates dist s v new_id ↔
      p = (dist.distance (getNodeData s new_id) (getNodeData s v), new_id)
      ∨ ∃ j, j < s.M ∧ linkAt s v j ≠ v
        ∧ p = (dist.distance (getNodeData s v) (getNodeData s (linkAt s v j)), linkAt s v j) := by
  unfold backCandidates
  simp only
  rw [mem_backCandidates_fold_iff, mem_emplace]
  constructor
  · rintro ((h | h) | ⟨j, hj, h⟩)
    · exact Or.inl h
    · exact absurd h (List.not_mem_nil p)
    · exact Or.inr ⟨j, List.mem_range.mp hj, h⟩
  · rintro (h | ⟨j, hj, h⟩)
    · exact Or.inl (Or.inl h)
    · exact Or.inr ⟨j, List.mem_range.mpr hj, h⟩

theorem length_backCandidates_fold (dist : DistanceInterface) (s : Index) (v : Nat)
    (js : List Nat) (hsat : ∀ j ∈ js, linkAt s v j ≠ v) :
    ∀ acc : PriorityQueue,
      (js.foldl (fun c j =>
        if linkAt s v j ≠ v then
          emplace c (dist.distance (getNodeData s v) (getNodeData s (linkAt s v j)),
            linkAt s v j)
        else c) acc).length = acc.length + js.length := by
  induction js with
  | nil => intro acc; rfl
  | cons j js ih =>
    intro acc
    simp only [List.foldl_cons]
    rw [if_pos (hsat j (List.mem_cons_self _ _)),
      ih (fun j' hj' => hsat j' (List.mem_cons_of_mem _ hj')), length_emplace,
      List.length_cons]
    omega

/-- The candidate heap built for a saturated neighbor has `M + 1` entries. -/
theorem length_backCandidates (dist : DistanceInterface) (s : Index) (v new_id : Nat)
    (hsat : ∀ j, j < s.M → linkAt s v j ≠ v) :
    (backCandidates dist s v new_id).length = s.M + 1 := by
  unfold backCandidates
  simp only
  rw [length_backCandidates_fold dist s v _ (fun j hj => hsat j (List.mem_range.mp hj)),
    List.length_range]
  simp [emplace]
  omega

/-- C16. Back-wiring rule.  After a successful `add` of the payload `data` on a
well-formed index `s` with links in range, `s1` being the index right after
`allocateNode` and `new_id` the id of the new node: every `v ≠ new_id` found in
a link slot of `new_id` is an older node, and (a) if `v` had a self-loop slot
before the call, its first self-loop slot now holds `new_id` and its other slots
are unchanged; (b) otherwise (`v` saturated) the candidate heap has `M + 1`
entries, namely `new_id` at its distance to `v` and every previous link
`links[v][j]` of `v` at its distance to `v`; the first slots of `v` hold the
survivors of `selectNeighbors` with cap `M` on that heap, in the order of the
heap, none of which is `v`, and the remaining slots hold the self-loop `v`. -/
theorem add_back_wiring (fuel : Nat) (dist : DistanceInterface) (s : Index) (data : Data)
    (label : label_t) (ef_construction num_initializations : Nat) (s' : Index)
    (hwf : s.WF) (hl : LinksInRange s)
    (e : add fuel dist s data label ef_construction num_initializations = some (true, s')) :
    ∃ s1, allocateNode dist s data label = some (s.cur_num_nodes, s1) ∧
      ∀ v, v ≠ s.cur_num_nodes → (∃ m, m < s.M ∧ linkAt s' s.cur_num_nodes m = v) →
        v < s.cur_num_nodes
        ∧ (∀ j, j < s.M → linkAt s v j = v → (∀ j', j' < j → linkAt s v j' ≠ v) →
            linkAt s' v j = s.cur_num_nodes
            ∧ ∀ j', j' ≠ j → linkAt s' v j' = linkAt s v j')
        ∧ ((∀ j, j < s.M → linkAt s v j ≠ v) →
            (∀ p, p ∈ backCandidates dist s1 v s.cur_num_nodes ↔
              p = (dist.distance (dist.transformData data) (getNodeData s v), s.cur_num_nodes)
              ∨ ∃ j, j < s.M ∧ p = (dist.distance (getNodeData s v)
                  (getNodeData s (linkAt s v j)), linkAt s v j))
            ∧ (backCandidates dist s1 v s.cur_num_nodes).length = s.M + 1
            ∧ (∀ p ∈ selectNeighbors dist s1 (backCandidates dist s1 v s.cur_num_nodes) s.M,
              p ∈ backCandidates dist s1 v s.cur_num_nodes ∧ p.2 ≠ v)
            ∧ ∀ j, j < s.M → linkAt s' v j
              = if j < (selectNeighbors dist s1
                    (backCandidates dist s1 v s.cur_num_nodes) s.M).length
                then ((selectNeighbors dist s1
                    (backCandidates dist s1 v s.cur_num_nodes) s.M).getD j (0, 0)).2
                else v) := by
  by_cases hcap : s.cur_num_nodes < s.max_node_count
  · obtain ⟨s1, ea, hM, _, _, hmax, hcur, hlen, hnode, hother⟩ :=
      allocateNode_spec dist s data label hwf hcap
    obtain ⟨hwf1, hl1, hb1⟩ := allocated_valid s s1 _ _ hwf hl hcap hM hmax hcur hlen hnode hother
    refine ⟨s1, ea, ?_⟩
    unfold add at e
    rw [ea] at e
    simp only at e
    by_cases h0 : s.cur_num_nodes > 0
    · rw [if_pos h0] at e
      cases hbs : beamSearch fuel dist s1 data
          (initializeSearch dist s data num_initializations) ef_construction with
      | none => rw [hbs] at e; simp at e
      | some W =>
        rw [hbs] at e
        simp only [Option.some.injEq, Prod.mk.injEq, true_and] at e
        obtain ⟨hW, hWnd⟩ := beamSearch_sound fuel dist s1 data _ ef_construction
          s.cur_num_nodes hb1 (initializeSearch_lt dist s data num_initializations h0) W hbs
        have hsel : ∀ p ∈ selectNeighbors dist s1 W s1.M,
            p.2 < s1.cur_num_nodes ∧ p.2 ≠ s.cur_num_nodes := by
          intro p hp
          have := hW p (mem_selectNeighbors dist s1 W _ p hp)
          exact ⟨by rw [hcur]; exact Nat.lt_succ_of_lt this, Nat.ne_of_lt this⟩
        have hHnd := selectNeighbors_nodup dist s1 W s1.M hWnd
        have hHlen := length_selectNeighbors dist s1 W s1.M
        have hnew1 : s.cur_num_nodes < s1.cur_num_nodes := by
          rw [hcur]; exact Nat.lt_succ_self _
        have hnewl : ∀ m : Nat, m < s.M → linkAt s1 s.cur_num_nodes m = s.cur_num_nodes := by
          intro m hm
          unfold linkAt getNodeLinks
          rw [hnode]
          simp [List.getD_eq_getElem?_getD, List.getElem?_replicate, hm]
        intro v hvne ⟨m, hm, hlink⟩
        rw [← e, connectNeighbors, connectLoop_new_links dist s.cur_num_nodes _ 0 s1 hwf1 hl1
          hnew1 hsel (by omega) m (by rw [hM]; exact hm)] at hlink
        by_cases hmH : m < (selectNeighbors dist s1 W s1.M).length
        · rw [if_pos ⟨Nat.zero_le _, by omega⟩, Nat.sub_zero, List.getD_eq_getElem _ _ hmH]
            at hlink
          have hp : (selectNeighbors dist s1 W s1.M)[m] ∈ selectNeighbors dist s1 W s1.M :=
            List.getElem_mem hmH
          obtain ⟨t, hf, hsame, hres⟩ := connectLoop_back dist s.cur_num_nodes _ 0 s1 hl1 hnew1
            hsel hHnd _ hp
          rw [hlink] at hsame hres
          have hvlt : v < s.cur_num_nodes := by
            have := hW _ (mem_selectNeighbors dist s1 W _ _ hp)
            rw [hlink] at this; exact this
          have hn1 : getNode s1 v = getNode s v := hother v hvne
          have hwft : t.WF := wf_of_linkFrame hwf1 hf
          have hMt : t.M = s.M := hf.header.M.trans hM
          have hvt : v < t.max_node_count := by
            rw [hf.header.max, hmax]; exact lt_of_lt_of_le hvlt hwf.count_le
          have hlt : ∀ j, linkAt t v j = linkAt s v j := by
            intro j; unfold linkAt getNodeLinks; rw [hsame, hn1]
          have hfin : ∀ j, linkAt s' v j
              = linkAt (connectBack dist t v s.cur_num_nodes) v j := by
            intro j
            rw [← e, connectNeighbors]
            unfold linkAt getNodeLinks
            rw [hres]
          refine ⟨hvlt, ?_, ?_⟩
          · intro j hj hself hfirst
            obtain ⟨h1, h2⟩ := connectBack_free dist t v s.cur_num_nodes hwft hvt j
              (by rw [hMt]; exact hj) (by rw [hlt]; exact hself)
              (fun j' hj' => by rw [hlt]; exact hfirst j' hj')
            refine ⟨by rw [hfin]; exact h1, fun j' hj' => ?_⟩
            rw [hfin, h2 j' hj', hlt]
          · intro hsat
            have hcand : backCandidates dist t v s.cur_num_nodes
                = backCandidates dist s1 v s.cur_num_nodes :=
              backCandidates_congr dist s1 t hf.data hf.header.M v s.cur_num_nodes hsame
            have hsurv : selectNeighbors dist t (backCandidates dist t v s.cur_num_nodes) t.M
                = selectNeighbors dist s1 (backCandidates dist s1 v s.cur_num_nodes) s.M := by
              rw [hcand, hMt]
              exact selectNeighbors_congr dist s1 t hf.data _ _
            have hl1v : ∀ j, linkAt s1 v j = linkAt s v j := by
              intro j; unfold linkAt getNodeLinks; rw [hn1]
            have hdv : getNodeData s1 v = getNodeData s v := by
              unfold getNodeData; rw [hn1]
            have hdnew : getNodeData s1 s.cur_num_nodes = dist.transformData data := by
              unfold getNodeData; rw [hnode]
            refine ⟨?_, ?_, ?_, ?_⟩
            · intro p
              rw [mem_backCandidates_iff, hdnew, hdv, hM]
              constructor
              · rintro (h | ⟨j, hj, _, h⟩)
                · exact Or.inl h
                · refine Or.inr ⟨j, hj, ?_⟩
                  rw [h, hl1v]
                  have hlj : linkAt s v j < s.cur_num_nodes := hl v hvlt j hj
                  have : getNodeData s1 (linkAt s v j) = getNodeData s (linkAt s v j) := by
                    unfold getNodeData; rw [hother _ (Nat.ne_of_lt hlj)]
                  rw [this]
              · rintro (h | ⟨j, hj, h⟩)
                · exact Or.inl h
                · refine Or.inr ⟨j, hj, by rw [hl1v]; exact hsat j hj, ?_⟩
                  rw [h, hl1v]
                  have hlj : linkAt s v j < s.cur_num_nodes := hl v hvlt j hj
                  have : getNodeData s1 (linkAt s v j) = getNodeData s (linkAt s v j) := by
                    unfold getNodeData; rw [hother _ (Nat.ne_of_lt hlj)]
                  rw [this]
            · rw [length_backCandidates dist s1 v s.cur_num_nodes
                (fun j hj => by rw [hl1v]; exact hsat j (by rw [← hM]; exact hj)), hM]
            · intro p hp
              have hpc := mem_selectNeighbors dist s1 _ _ p hp
              refine ⟨hpc, ?_⟩
              rcases (mem_backCandidates_iff dist s1 v s.cur_num_nodes p).mp hpc
                with h | ⟨j, _, hj, h⟩
              · rw [h]; exact fun h' => hvne h'.symm
              · rw [h]; exact hj
            · intro j hj
              rw [hfin, connectBack_saturated dist t v s.cur_num_nodes hwft hvt
                (fun j' hj' => by rw [hlt]; exact hsat j' (by rw [← hMt]; exact hj')) j
                (by rw [hMt]; exact hj), hsurv]
        · rw [if_neg (by omega), hnewl m hm] at hlink
          exact absurd hlink.symm hvne
    · rw [if_neg h0] at e
      simp at e
  · unfold add allocateNode at e
    rw [if_pos (not_lt.mp hcap)] at e
    simp at e

theorem add_back_wiring_witness :
    chain3.WF ∧ LinksInRange chain3
      ∧ add 5 sampleDist chain3 (vec [3, 0]) 10 8 100 = some (true, chain4)
      ∧ ∃ s1, allocateNode sampleDist chain3 (vec [3, 0]) 10 = some (chain3.cur_num_nodes, s1) ∧
      ∀ v, v ≠ chain3.cur_num_nodes →
        (∃ m, m < chain3.M ∧ linkAt chain4 chain3.cur_num_nodes m = v) →
        v < chain3.cur_num_nodes
        ∧ (∀ j, j < chain3.M → linkAt chain3 v j = v →
            (∀ j', j' < j → linkAt chain3 v j' ≠ v) →
            linkAt chain4 v j = chain3.cur_num_nodes
            ∧ ∀ j', j' ≠ j → linkAt chain4 v j' = linkAt chain3 v j')
        ∧ ((∀ j, j < chain3.M → linkAt chain3 v j ≠ v) →
            (∀ p, p ∈ backCandidates sampleDist s1 v chain3.cur_num_nodes ↔
              p = (sampleDist.distance (sampleDist.transformData (vec [3, 0]))
                    (getNodeData chain3 v), chain3.cur_num_nodes)
              ∨ ∃ j, j < chain3.M ∧ p = (sampleDist.distance (getNodeData chain3 v)
                  (getNodeData chain3 (linkAt chain3 v j)), linkAt chain3 v j))
            ∧ (backCandidates sampleDist s1 v chain3.cur_num_nodes).length = chain3.M + 1
            ∧ (∀ p ∈ selectNeighbors sampleDist s1
                (backCandidates sampleDist s1 v chain3.cur_num_nodes) chain3.M,
              p ∈ backCandidates sampleDist s1 v chain3.cur_num_nodes ∧ p.2 ≠ v)
            ∧ ∀ j, j < chain3.M → linkAt chain4 v j
              = if j < (selectNeighbors sampleDist s1
                    (backCandidates sampleDist s1 v chain3.cur_num_nodes) chain3.M).length
                then ((selectNeighbors sampleDist s1
                    (backCandidates sampleDist s1 v chain3.cur_num_nodes) chain3.M).getD j
                      (0, 0)).2
                else v) :=
  ⟨chain3_wf, chain3_linksInRange, by decide,
    add_back_wiring 5 sampleDist chain3 (vec [3, 0]) 10 8 100 chain4 chain3_wf
      chain3_linksInRange (by decide)⟩

/-- The searches of the worked example, before and after `relabel([2, 0, 1])`. -/
theorem relabel_search_example :
    relabel 3 [2, 0, 1] chain3 = some chain3r
      ∧ search 4 sampleDist chain3 (vec [1, 0]) 3 3 100 = some [(-1, 9), (0, 7)]
      ∧ search 4 sampleDist chain3r (vec [1, 0]) 3 3 100 = some [(-1, 9), (0, 7)] := by
  decide

theorem getD_map_snd (H : PriorityQueue) (j : Nat) :
    (H.map Prod.snd).getD j 0 = (H.getD j (0, 0)).2 := by
  induction H generalizing j with
  | nil => rfl
  | cons p H ih =>
    cases j with
    | zero => rfl
    | succ j => simpa using ih j

/-- A node whose slots hold a list of distinct ids followed by self-loops has
no duplicate link. -/
theorem distinctLinks_of_listed (s : Index) (M n : Nat) (ids : List Nat) (hnd : ids.Nodup)
    (h : ∀ j, j < M → linkAt s n j = if j < ids.length then ids.getD j 0 else n) :
    DistinctLinks s M n := by
  intro i hi j hj hij heq
  by_cases h1 : i < ids.length
  · by_cases h2 : j < ids.length
    · rw [h i hi, h j hj, if_pos h1, if_pos h2, List.getD_eq_getElem _ _ h1,
        List.getD_eq_getElem _ _ h2] at heq
      exact absurd ((hnd.getElem_inj_iff).mp heq) hij
    · rw [heq, h j hj, if_neg h2]
  · rw [h i hi, if_neg h1]

theorem distinctLinks_congr (s t : Index) (M n : Nat) (h : getNode t n = getNode s n)
    (hd : DistinctLinks s M n) : DistinctLinks t M n := by
  have hl : ∀ j, linkAt t n j = linkAt s n j := by
    intro j; unfold linkAt getNodeLinks; rw [h]
  intro i hi j hj hij heq
  rw [hl] at heq ⊢
  rw [hl] at heq
  exact hd i hi j hj hij heq

theorem backCandidates_fold_nodup (dist : DistanceInterface) (s : Index) (v : Nat)
    (hd : DistinctLinks s s.M v) (js : List Nat) :
    ∀ acc : PriorityQueue, (acc.map Prod.snd).Nodup →
      (∀ p ∈ acc, ∀ j ∈ js, linkAt s v j ≠ v → p.2 ≠ linkAt s v j) →
      js.Nodup → (∀ j ∈ js, j < s.M) →
      ((js.foldl (fun c j =>
        if linkAt s v j ≠ v then
          emplace c (dist.distance (getNodeData s v) (getNodeData s (linkAt s v j)),
            linkAt s v j)
        else c) acc).map Prod.snd).Nodup := by
  induction js with
  | nil => intro acc h _ _ _; exact h
  | cons j js ih =>
    intro acc hacc hfresh hjs hlt
    simp only [List.foldl_cons]
    rw [List.nodup_cons] at hjs
    have hltj : j < s.M := hlt j (List.mem_cons_self _ _)
    by_cases hj : linkAt s v j ≠ v
    · rw [if_pos hj]
      apply ih _ _ _ hjs.2 (fun j' hj' => hlt j' (List.mem_cons_of_mem _ hj'))
      · have hp := (emplace_perm acc
          (dist.distance (getNodeData s v) (getNodeData s (linkAt s v j)), linkAt s v j)).map
            Prod.snd
        rw [hp.nodup_iff, List.map_cons, List.nodup_cons]
        refine ⟨?_, hacc⟩
        intro hmem
        obtain ⟨p, hp1, hp2⟩ := List.mem_map.mp hmem
        exact hfresh p hp1 j (List.mem_cons_self _ _) hj hp2
      · intro p hp j' hj' hne
        rcases (mem_emplace _ _ _).mp hp with e | hp
        · rw [e]
          intro heq
          have hjj : j ≠ j' := fun h => hjs.1 (h ▸ hj')
          exact hj (hd j hltj j' (hlt j' (List.mem_cons_of_mem _ hj')) hjj heq)
        · exact hfresh p hp j' (List.mem_cons_of_mem _ hj') hne
    · rw [if_neg hj]
      exact ih acc hacc (fun p hp j' hj' => hfresh p hp j' (List.mem_cons_of_mem _ hj')) hjs.2
        (fun j' hj' => hlt j' (List.mem_cons_of_mem _ hj'))

/-- The candidate heap built for a neighbor without duplicate links, none of
them the new node, holds pairwise distinct ids. -/
theorem backCandidates_nodup (dist : DistanceInterface) (s : Index) (v new_id : Nat)
    (hd : DistinctLinks s s.M v) (hnew : ∀ j, j < s.M → linkAt s v j ≠ new_id) :
    ((backCandidates dist s v new_id).map Prod.snd).Nodup := by
  unfold backCandidates
  simp only
  apply backCandidates_fold_nodup dist s v hd
  · simp [emplace]
  · intro p hp j hj _
    rcases (mem_emplace _ _ _).mp hp with e | hp
    · rw [e]; exact fun h => hnew j (List.mem_range.mp hj) h.symm
    · exact absurd hp (List.not_mem_nil p)
  · exact List.nodup_range _
  · intro j hj; exact List.mem_range.mp hj

/-- The back-connection of a neighbor `v` without duplicate links, none of them
the new node, leaves `v` without duplicate links. -/
theorem connectBack_distinct (dist : DistanceInterface) (s : Index) (v new_id : Nat)
    (hwf : s.WF) (hv : v < s.max_node_count) (hd : DistinctLinks s s.M v)
    (hnew : ∀ j, j < s.M → linkAt s v j ≠ new_id) :
    DistinctLinks (connectBack dist s v new_id) s.M v := by
  by_cases hfree : ∃ j, j < s.M ∧ linkAt s v j = v
  · classical
    have hj0 := Nat.find_spec hfree
    have hmin : ∀ j', j' < Nat.find hfree → linkAt s v j' ≠ v := by
      intro j' hj' h
      exact Nat.find_min hfree hj' ⟨lt_trans hj' hj0.1, h⟩
    obtain ⟨h1, h2⟩ := connectBack_free dist s v new_id hwf hv (Nat.find hfree) hj0.1 hj0.2 hmin
    intro a ha b hb hab heq
    by_cases haj : a = Nat.find hfree
    · have hbj : b ≠ Nat.find hfree := fun h => hab (haj.trans h.symm)
      rw [haj, h1, h2 b hbj] at heq
      exact absurd heq.symm (hnew b hb)
    · by_cases hbj : b = Nat.find hfree
      · rw [hbj, h1, h2 a haj] at heq
        exact absurd heq (hnew a ha)
      · rw [h2 a haj, h2 b hbj] at heq
        rw [h2 a haj]
        exact hd a ha b hb hab heq
  · have hsat : ∀ j, j < s.M → linkAt s v j ≠ v := fun j hj h => hfree ⟨j, hj, h⟩
    have hsurv := selectNeighbors_nodup dist s (backCandidates dist s v new_id) s.M
      (backCandidates_nodup dist s v new_id hd hnew)
    apply distinctLinks_of_listed _ s.M v _ hsurv
    intro j hj
    rw [connectBack_saturated dist s v new_id hwf hv hsat j hj, List.length_map, getD_map_snd]

/-- The loop of `connectNeighbors` keeps the no-duplicate-edge invariant: the
heap holds distinct ids of older nodes and fits in the `M` slots, the new node
only has self-loops, and no older node links to the new node. -/
theorem connectLoop_distinct (dist : DistanceInterface) (new_id : Nat) (H : PriorityQueue)
    (s : Index) (hwf : s.WF) (hl : LinksInRange s) (hnew : new_id < s.cur_num_nodes)
    (hlt : ∀ p ∈ H, p.2 < s.cur_num_nodes ∧ p.2 ≠ new_id) (hnd : (H.map Prod.snd).Nodup)
    (hlen : H.length ≤ s.M) (hself : ∀ m, m < s.M → linkAt s new_id m = new_id)
    (hold : ∀ n, n < s.cur_num_nodes → n ≠ new_id →
      DistinctLinks s s.M n ∧ ∀ m, m < s.M → linkAt s n m ≠ new_id) :
    ∀ n, n < s.cur_num_nodes → DistinctLinks (connectLoop dist new_id H 0 s) s.M n := by
  intro n hn
  by_cases hnn : n = new_id
  · subst hnn
    apply distinctLinks_of_listed _ s.M n _ hnd
    intro j hj
    rw [connectLoop_new_links dist n H 0 s hwf hl hnew hlt (by omega) j hj, List.length_map,
      getD_map_snd, Nat.zero_add, Nat.sub_zero]
    by_cases hjH : j < H.length
    · rw [if_pos ⟨Nat.zero_le _, hjH⟩, if_pos hjH]
    · rw [if_neg (fun h => hjH h.2), if_neg hjH]
      exact hself j hj
  · by_cases hin : ∃ p ∈ H, p.2 = n
    · obtain ⟨p, hp, hpn⟩ := hin
      obtain ⟨t, hf, hsame, hres⟩ := connectLoop_back dist new_id H 0 s hl hnew hlt hnd p hp
      rw [hpn] at hsame hres
      have hwft : t.WF := wf_of_linkFrame hwf hf
      have hMt : t.M = s.M := hf.header.M
      have hnt : n < t.max_node_count := by
        rw [hf.header.max]; exact lt_of_lt_of_le hn hwf.count_le
      have hlt' : ∀ j, linkAt t n j = linkAt s n j := by
        intro j; unfold linkAt getNodeLinks; rw [hsame]
      obtain ⟨hdn, hnn'⟩ := hold n hn hnn
      have hdt : DistinctLinks t t.M n := by
        rw [hMt]; exact distinctLinks_congr s t s.M n hsame hdn
      have hb := connectBack_distinct dist t n new_id hwft hnt hdt
        (fun j hj => by rw [hlt']; exact hnn' j (by rw [← hMt]; exact hj))
      rw [hMt] at hb
      exact distinctLinks_congr _ _ s.M n hres hb
    · have w := wiring_connectLoop dist new_id H 0 s hl hnew (fun p hp => (hlt p hp).1)
      have hnot : ¬ (n = new_id ∨ ∃ p ∈ H, n = p.2) := by
        rintro (h | ⟨p, hp, h⟩)
        · exact hnn h
        · exact hin ⟨p, hp, h.symm⟩
      exact distinctLinks_congr s _ s.M n (w.other n hnot) (hold n hn hnn).1

/-- The method `add` keeps the no-duplicate-edge invariant. -/
theorem add_noDuplicateLinks (fuel : Nat) (dist : DistanceInterface) (s : Index) (data : Data)
    (label : label_t) (ef k : Nat) (b : Bool) (s' : Index) (hwf : s.WF) (hl : LinksInRange s)
    (hnd : NoDuplicateLinks s) (e : add fuel dist s data label ef k = some (b, s')) :
    NoDuplicateLinks s' := by
  by_cases hcap : s.cur_num_nodes < s.max_node_count
  · obtain ⟨s1, ea, hM, _, _, hmax, hcur, hlen, hnode, hother⟩ :=
      allocateNode_spec dist s data label hwf hcap
    obtain ⟨hwf1, hl1, hb1⟩ := allocated_valid s s1 _ _ hwf hl hcap hM hmax hcur hlen hnode hother
    have hnewl : ∀ m : Nat, m < s1.M → linkAt s1 s.cur_num_nodes m = s.cur_num_nodes := by
      intro m hm
      rw [hM] at hm
      unfold linkAt getNodeLinks
      rw [hnode]
      simp [List.getD_eq_getElem?_getD, List.getElem?_replicate, hm]
    have hold : ∀ n, n < s1.cur_num_nodes → n ≠ s.cur_num_nodes →
        DistinctLinks s1 s1.M n ∧ ∀ m, m < s1.M → linkAt s1 n m ≠ s.cur_num_nodes := by
      intro n hn hne
      have hn' : n < s.cur_num_nodes := by
        rw [hcur] at hn
        exact lt_of_le_of_ne (Nat.lt_succ_iff.mp hn) hne
      have hsame : getNode s1 n = getNode s n := hother n hne
      refine ⟨?_, ?_⟩
      · rw [hM]; exact distinctLinks_congr s s1 s.M n hsame (hnd n hn')
      · intro m hm
        have : linkAt s1 n m = linkAt s n m := by
          unfold linkAt getNodeLinks; rw [hsame]
        rw [this]
        exact Nat.ne_of_lt (hl n hn' m (by rw [← hM]; exact hm))
    unfold add at e
    rw [ea] at e
    simp only at e
    by_cases h0 : s.cur_num_nodes > 0
    · rw [if_pos h0] at e
      cases hbs : beamSearch fuel dist s1 data (initializeSearch dist s data k) ef with
      | none => rw [hbs] at e; simp at e
      | some W =>
        rw [hbs] at e
        simp only [Option.some.injEq, Prod.mk.injEq] at e
        obtain ⟨hW, hWnd⟩ := beamSearch_sound fuel dist s1 data _ ef s.cur_num_nodes hb1
          (initializeSearch_lt dist s data k h0) W hbs
        have hsel : ∀ p ∈ selectNeighbors dist s1 W s1.M,
            p.2 < s1.cur_num_nodes ∧ p.2 ≠ s.cur_num_nodes := by
          intro p hp
          have := hW p (mem_selectNeighbors dist s1 W _ p hp)
          exact ⟨by rw [hcur]; exact Nat.lt_succ_of_lt this, Nat.ne_of_lt this⟩
        have hnew1 : s.cur_num_nodes < s1.cur_num_nodes := by
          rw [hcur]; exact Nat.lt_succ_self _
        have w := wiring_connectLoop dist s.cur_num_nodes (selectNeighbors dist s1 W s1.M) 0 s1
          hl1 hnew1 (fun p hp => (hsel p hp).1)
        have key := connectLoop_distinct dist s.cur_num_nodes (selectNeighbors dist s1 W s1.M)
          s1 hwf1 hl1 hnew1 hsel (selectNeighbors_nodup dist s1 W s1.M hWnd)
          (length_selectNeighbors dist s1 W s1.M) hnewl hold
        rw [← e.2]
        intro n hn
        have hc : (connectNeighbors dist s1 (selectNeighbors dist s1 W s1.M)
            s.cur_num_nodes).cur_num_nodes = s1.cur_num_nodes := w.frame.header.cur
        have hm : (connectNeighbors dist s1 (selectNeighbors dist s1 W s1.M)
            s.cur_num_nodes).M = s1.M := w.frame.header.M
        rw [hc] at hn
        rw [hm]
        exact key n hn
    · rw [if_neg h0] at e
      simp only [Option.some.injEq, Prod.mk.injEq] at e
      rw [← e.2]
      intro n hn i hi j _ _ _
      have hn0 : n = s.cur_num_nodes := by
        rw [hcur] at hn; omega
      rw [hn0]
      exact hnewl i hi
  · unfold add allocateNode at e
    rw [if_pos (not_lt.mp hcap)] at e
    simp only [Option.some.injEq, Prod.mk.injEq] at e
    rw [← e.2]
    exact hnd

/-- The method `relabel` with a bijection keeps the no-duplicate-edge
invariant. -/
theorem relabel_noDuplicateLinks (fuel : Nat) (P : List node_id_t) (s s' : Index)
    (hwf : s.WF) (hl : LinksInRange s) (hP : IsPermutation P s.cur_num_nodes)
    (hnd : NoDuplicateLinks s) (e : relabel fuel P s = some s') : NoDuplicateLinks s' := by
  have hfr := rewireLinks_frame P s
  have hinit : RelocInv P s.cur_num_nodes (getNode (rewireLinks P s)) [] (rewireLinks P s) := by
    refine ⟨?_, List.nodup_nil, ?_, ?_, ?_, fun _ _ => rfl, ?_⟩
    · intro x hx; exact absurd hx (List.not_mem_nil x)
    · intro x hx; exact absurd hx (List.not_mem_nil x)
    · intro x hx; exact absurd hx (List.not_mem_nil x)
    · intro x hx; exact absurd hx (List.not_mem_nil x)
    · rw [hfr.header.length, hwf.length_eq]; exact hwf.count_le
  unfold relabel at e
  simp only at e
  cases hr : relocateAll fuel P (List.range s.cur_num_nodes) ([], rewireLinks P s) with
  | none => rw [hr] at e; simp at e
  | some st =>
    rw [hr] at e
    simp only [Option.some.injEq] at e
    obtain ⟨V', s2⟩ := st
    simp only at e
    subst e
    obtain ⟨hinv, hall, _⟩ := relocateAll_sound hP fuel _ [] _ V' s2
      (fun n hn => List.mem_range.mp hn) hinit hr
    have hh : SameHeader s s2 := hfr.header.header_trans (relocateAll_header fuel P _ _ _ hr)
    intro y hy
    rw [hh.cur] at hy
    rw [hh.M]
    obtain ⟨x, hxV, hxy⟩ := hinv.bwd y (hall y (List.mem_range.mpr hy))
    have hx : x < s.cur_num_nodes := hinv.lt x hxV
    have hlink : ∀ m, m < s.M → linkAt s2 y m = permAt P (linkAt s x m) := by
      intro m hm
      have : linkAt s2 y m = linkAt (rewireLinks P s) x m := by
        unfold linkAt getNodeLinks
        rw [← hxy, hinv.placed x hxV]
      rw [this]
      exact linkAt_rewireLinks P s hwf x m hx hm
    intro i hi j hj hij heq
    rw [hlink i hi, hlink j hj] at heq
    have := hP.inj _ (hl x hx i hi) _ (hl x hx j hj) heq
    rw [hlink i hi, hnd x hx i hi j hj hij this, hxy]

/-- Every built index satisfies the no-duplicate-edge invariant. -/
theorem built_noDuplicateLinks (dist : DistanceInterface) (s : Index) (h : Built dist s) :
    NoDuplicateLinks s := by
  induction h with
  | new dataset_size M L mem hM hlen hmem =>
    intro n hn
    exact absurd hn (Nat.not_lt_zero n)
  | add s fuel data label ef k b s' hs _ _ h ih =>
    obtain ⟨hwf, hl⟩ := built_valid dist s hs
    exact add_noDuplicateLinks fuel dist s data label ef k b s' hwf hl ih h
  | relabel s fuel P s' hs hP h ih =>
    obtain ⟨hwf, hl⟩ := built_valid dist s hs
    exact relabel_noDuplicateLinks fuel P s s' hwf hl hP ih h

/-- C21. No-duplicate-edge invariant: in every index built from an empty one by
`add` calls (`M ≥ 1`, `ef_construction ≥ 1`, `k_init ≥ 1`) and `relabel` calls
with bijections on `[0, current_node_count)`, within every node `n` in use the
link values different from `n` are pairwise distinct: two different link slots
of `n` that both hold an id other than `n` hold different ids. -/
theorem built_no_duplicate_links (dist : DistanceInterface) (s : Index) (h : Built dist s) :
    ∀ n, n < s.cur_num_nodes → ∀ i, i < s.M → ∀ j, j < s.M → i ≠ j →
      linkAt s n i ≠ n → linkAt s n j ≠ n → linkAt s n i ≠ linkAt s n j := by
  intro n hn i hi j hj hij hni _ heq
  exact hni (built_noDuplicateLinks dist s h n hn i hi j hj hij heq)

theorem pair2_built : Built sampleDist pair2 := by
  have h0 : Built sampleDist sampleEmpty :=
    Built.new 4 2 4 (blankArena 4 2) (by decide) (by decide) (by decide)
  have h1 : Built sampleDist pair1 :=
    Built.add sampleEmpty 4 (vec [1, 0]) 7 8 100 false pair1 h0 (by decide) (by decide)
      (by decide)
  exact Built.add pair1 4 (vec [0, 1]) 3 8 100 true pair2 h1 (by decide) (by decide) (by decide)

theorem built_no_duplicate_links_witness :
    Built sampleDist pair2
      ∧ ∀ n, n < pair2.cur_num_nodes → ∀ i, i < pair2.M → ∀ j, j < pair2.M → i ≠ j →
        linkAt pair2 n i ≠ n → linkAt pair2 n j ≠ n → linkAt pair2 n i ≠ linkAt pair2 n j :=
  ⟨pair2_built, built_no_duplicate_links sampleDist pair2 pair2_built⟩

end flatnav
